import Mathlib

/-!
# kilo: rows, rendering, highlighting and editing

A shallow embedding of `src/editor_row.c`, `src/syntax.c` and
`src/editor_input.c` of the repository, followed by the properties proved about
them.

Conventions of the embedding.

* A byte is a natural number; a C buffer that holds a NUL-terminated string is
  the list of the bytes in front of the terminator, and reading the buffer at
  an index that is not in the list yields `0` (at the index equal to the length
  this is the terminator itself).
* `int` and `size_t` quantities that are never negative (`size`, `rsize`,
  `idx`, `numrows`, `dirty`) are natural numbers; the cursor and the scroll
  offsets are integers. The size computation of `editorUpdateRow` is carried
  out modulo `2 ^ 32`, as the C code does; a row size, a render length, a row
  count or a total length that does not fit the C `int` (above `INT_MAX`) makes
  the operation that computes it return `none`. The counter `dirty`, which the
  operations embedded here only increment, is counted without a bound.
* A `erow *` into `E.row` is the offset of the row in the list `E.row`.
* An operation returns `none` when the C call does not return normally or its
  behaviour is undefined: `exit(1)`, an access outside an array or a buffer, a
  negative position, an `int` that overflows, or an exhausted recursion budget.
* The scan of `editorUpdateSyntax` works on the bytes of one row. `scanRow`
  follows the C loop up to its first access outside the buffers (a write to
  `hl` outside `[0, rsize)`, a read of `hl[-1]`, a read of `render` behind its
  terminator), records that access in the field `overrun` of its state and
  stops there. `scanRowOk` is the scan as the program can rely on it: it has no
  result when `overrun` is set, and so `editorUpdateSyntax` and every operation
  that calls it return `none` in that case.
-/

namespace Kilo

/-! ## Bytes and character classes -/

/-- The bytes of an ASCII string literal. -/
def bytes (s : String) : List Nat := s.toList.map Char.toNat

/-- Modelled from the spec: `kilo.h` is not among the sources; `TAB` is the
horizontal tab byte that the render step expands. -/
def TAB : Nat := 9

/-- The value of `UINT32_MAX`. -/
def UINT32_MAX : Nat := 4294967295

/-- The value of `INT_MAX` for the 32-bit `int` of the C code. -/
def INT_MAX : Nat := 2147483647

/-- The function `isspace` in the C locale. -/
def isspace (c : Nat) : Bool := c == 32 || (9 ≤ c && c ≤ 13)

/-- The function `isprint` in the C locale. -/
def isprint (c : Nat) : Bool := 32 ≤ c && c ≤ 126

/-- The function `isdigit`. -/
def isdigit (c : Nat) : Bool := 48 ≤ c && c ≤ 57

/-- The function `is_separator`: NUL, white space, or a byte of the punctuation
string. -/
def is_separator (c : Nat) : Bool :=
  c == 0 || isspace c || (bytes ",.()+-/*=~%[];").contains c

/-! ## Data model -/

/-- Modelled from the spec: the `HL_*` constants of `kilo.h`, which is not among
the sources; section 3 of the specification lists the highlight classes. -/
inductive HL where
  | HL_NORMAL
  | HL_NONPRINT
  | HL_COMMENT
  | HL_MLCOMMENT
  | HL_KEYWORD1
  | HL_KEYWORD2
  | HL_STRING
  | HL_NUMBER
  | HL_MATCH
  deriving DecidableEq, Repr

open HL

/-- Modelled from the spec: `struct erow` of `kilo.h`, with the fields the
sources use. `chars` and `render` hold the bytes in front of the terminator;
`hl = []` stands for the `NULL` pointer of a fresh row. -/
structure erow where
  idx : Nat
  size : Nat
  rsize : Nat
  chars : List Nat
  render : List Nat
  hl : List HL
  hl_oc : Bool
  deriving DecidableEq, Repr

/-- Modelled from the spec: `struct editorSyntax` of `kilo.h`, with the fields
the sources use. -/
structure editorSyntax where
  filematch : List (List Nat)
  keywords : List (List Nat)
  singleline_comment_start : List Nat
  multiline_comment_start : List Nat
  multiline_comment_end : List Nat
  flags : Nat
  deriving DecidableEq, Repr

/-- Modelled from the spec: the global `struct editorConfig E` of `kilo.h`, with
the fields the sources use; `syn` is the field `syntax` (`none` is `NULL`). -/
structure editorConfig where
  cx : Int
  cy : Int
  rowoff : Int
  coloff : Int
  screenrows : Int
  screencols : Int
  numrows : Nat
  row : List erow
  dirty : Nat
  syn : Option editorSyntax
  deriving DecidableEq, Repr

/-- The byte `row->chars[j]`. -/
def erow.charAt (row : erow) (j : Nat) : Nat := row.chars.getD j 0

/-- The raw content of a row: the first `size` bytes of `chars`. -/
def erow.raw (row : erow) : List Nat := (List.range row.size).map row.charAt

/-- Store `r` at offset `k` of the row array. -/
def editorConfig.setRow (E : editorConfig) (k : Nat) (r : erow) : editorConfig :=
  { E with row := E.row.set k r }

/-! ## Row render (`editorUpdateRow`, first half) -/

/-- The inner loop `while ((idx + 1) % 8 != 0) row->render[idx++] = ' ';`; `idx`
is the length of the render written so far. At most seven iterations run. -/
def tabPad : Nat → List Nat → List Nat
  | 0, r => r
  | n + 1, r => if (r.length + 1) % 8 ≠ 0 then tabPad n (r ++ [32]) else r

/-- One iteration of the render loop for the byte `c`. -/
def renderByte (r : List Nat) (c : Nat) : List Nat :=
  if c = TAB then tabPad 8 (r ++ [32]) else r ++ [c]

/-- The render loop over the bytes `cs`, appending to `r`. -/
def renderFrom (r : List Nat) (cs : List Nat) : List Nat := cs.foldl renderByte r

/-- The render of a raw content. -/
def renderBytes (cs : List Nat) : List Nat := renderFrom [] cs

/-- The number of tabs the first loop of `editorUpdateRow` counts. -/
def countTabs (cs : List Nat) : Nat := cs.count TAB

/-- The value of `allocsize` for a row size that fits the `int` `row->size`:
`tabs * 8` and `nonprint * 9` are `unsigned int` products, the sum is an
`unsigned long long`; `nonprint` stays `0`. -/
def allocsize (size tabs : Nat) : Nat :=
  size + (tabs * 8) % 2 ^ 32 + (0 * 9) % 2 ^ 32 + 1

/-! ## Syntax highlighting (`syntax.c`) -/

/-- The registry entry for C and C++: `C_HL_extensions`. -/
def C_HL_extensions : List (List Nat) :=
  [".c", ".h", ".cpp", ".hpp", ".cc"].map bytes

/-- The keyword table `C_HL_keywords`. -/
def C_HL_keywords : List (List Nat) :=
  ["auto", "break", "case", "continue", "default", "do", "else", "enum",
   "extern", "for", "goto", "if", "register", "return", "sizeof", "static",
   "struct", "switch", "typedef", "union", "volatile", "while", "NULL",
   "alignas", "alignof", "and", "and_eq", "asm", "bitand", "bitor", "class",
   "compl", "constexpr", "const_cast", "deltype", "delete", "dynamic_cast",
   "explicit", "export", "false", "friend", "inline", "mutable", "namespace",
   "new", "noexcept", "not", "not_eq", "nullptr", "operator", "or", "or_eq",
   "private", "protected", "public", "reinterpret_cast", "static_assert",
   "static_cast", "template", "this", "thread_local", "throw", "true", "try",
   "typeid", "typename", "virtual", "xor", "xor_eq",
   "int|", "long|", "double|", "float|", "char|", "unsigned|", "signed|",
   "void|", "short|", "auto|", "const|", "bool|"].map bytes

/-- Modelled from the spec: the flag `HL_HIGHLIGHT_STRINGS` of `kilo.h`. -/
def HL_HIGHLIGHT_STRINGS : Nat := 1

/-- Modelled from the spec: the flag `HL_HIGHLIGHT_NUMBERS` of `kilo.h`. -/
def HL_HIGHLIGHT_NUMBERS : Nat := 2

/-- The registry `HLDB`, with its single entry. -/
def HLDB : List editorSyntax :=
  [{ filematch := C_HL_extensions
     keywords := C_HL_keywords
     singleline_comment_start := bytes "//"
     multiline_comment_start := bytes "/*"
     multiline_comment_end := bytes "*/"
     flags := HL_HIGHLIGHT_STRINGS ||| HL_HIGHLIGHT_NUMBERS }]

/-- The function `editorRowHasOpenComment`: the last highlight byte is `HL_MLCOMMENT` and the
render does not end in `*/`. A `NULL` `hl` is the empty list, for which the read
yields `HL_NORMAL`. -/
def editorRowHasOpenComment (row : erow) : Bool :=
  row.rsize != 0 && row.hl.getD (row.rsize - 1) HL_NORMAL == HL_MLCOMMENT &&
    (decide (row.rsize < 2) ||
      (row.render.getD (row.rsize - 2) 0 != 42 || row.render.getD (row.rsize - 1) 0 != 47))

/-- The variables of the scan loop of `editorUpdateSyntax`: `i` is the offset of
`p` in `render`, `in_string` is `0` or the quote byte. `overrun` is not a C
variable: it is set at the first access outside the buffers (a write to `hl`
outside `[0, rsize)`, a read of `hl[-1]`, a read of `render` behind its
terminator), where the behaviour of the C program is undefined. -/
structure Scan where
  i : Nat
  prev_sep : Bool
  in_string : Nat
  in_comment : Bool
  hl : List HL
  overrun : Bool
  deriving DecidableEq, Repr

/-- The assignment `row->hl[j] = v`. With `j` outside the array the behaviour of
the C program is undefined: `overrun` is set, and the scan loop stops at its
next test. -/
def Scan.put (s : Scan) (j : Nat) (v : HL) : Scan :=
  if j < s.hl.length then { s with hl := s.hl.set j v } else { s with overrun := true }

/-- The call `memset(row->hl + j, v, n)`. When it reaches beyond the array the
behaviour of the C program is undefined: `overrun` is set (the bytes inside the
array are still written, for the record of what the call did first). -/
def Scan.fill (s : Scan) (j n : Nat) (v : HL) : Scan :=
  { s with
    hl := s.hl.take j ++ List.replicate (min n (s.hl.length - j)) v ++ s.hl.drop (j + n)
    overrun := s.overrun || decide (s.hl.length < j + n) }

/-- The length `klen` of a keyword, without the trailing `|` of a type keyword. -/
def kwLen (kw : List Nat) : Nat :=
  if kw.getLast? = some 124 then kw.length - 1 else kw.length

/-- The class a keyword entry denotes: `kw2 ? HL_KEYWORD2 : HL_KEYWORD1`. -/
def kwClass (kw : List Nat) : HL :=
  if kw.getLast? = some 124 then HL_KEYWORD2 else HL_KEYWORD1

/-- The test `!memcmp(p, keywords[j], klen) && is_separator(*(p + klen))` at
offset `i`. A keyword is a C string and holds no NUL, so the comparison fails
when fewer than `klen` bytes are left in front of the terminator. -/
def kwMatches (render : List Nat) (i : Nat) (kw : List Nat) : Bool :=
  ((render.drop i).take (kwLen kw) == kw.take (kwLen kw)) &&
    is_separator (render.getD (i + kwLen kw) 0)

/-- How one iteration of the scan loop ends: with `continue` (or by falling
through to the end of the body), or with the `return` of the `//` branch. -/
inductive ScanStep where
  | next (s : Scan)
  | ret (s : Scan)
  deriving DecidableEq, Repr

/-- The `//` branch: `memset(row->hl + i, HL_COMMENT, row->size - i)`. The count
is a `size_t`; when `size < i` it wraps around to a huge value and the write
runs far past the array, which ends the C program: `overrun` is set, and
`scanRowOk` and `editorUpdateSyntax` have no result then. -/
def scanLineComment (size : Nat) (s : Scan) : Scan :=
  if size < s.i then { (s.fill s.i (s.hl.length - s.i) HL_COMMENT) with overrun := true }
  else s.fill s.i (size - s.i) HL_COMMENT

/-- The branch `if (in_comment)`; `c` is `*p` and `c1` is `*(p + 1)`. -/
def scanInComment (syn : editorSyntax) (c c1 : Nat) (s : Scan) : Scan :=
  if c == syn.multiline_comment_end.getD 0 0 && c1 == syn.multiline_comment_end.getD 1 0 then
    { ((s.put s.i HL_MLCOMMENT).put (s.i + 1) HL_MLCOMMENT) with
      i := s.i + 2, in_comment := false, prev_sep := true }
  else
    { (s.put s.i HL_MLCOMMENT) with prev_sep := false, i := s.i + 1 }

/-- The branch that opens a multi-line comment. -/
def scanOpenComment (s : Scan) : Scan :=
  { ((s.put s.i HL_MLCOMMENT).put (s.i + 1) HL_MLCOMMENT) with
    i := s.i + 2, in_comment := true, prev_sep := false }

/-- The branch `if (in_string)`. -/
def scanInString (c : Nat) (s : Scan) : Scan :=
  if c == 92 then
    { ((s.put s.i HL_STRING).put (s.i + 1) HL_STRING) with i := s.i + 2, prev_sep := false }
  else
    { (s.put s.i HL_STRING) with
      in_string := if c == s.in_string then 0 else s.in_string, i := s.i + 1 }

/-- The branch for an opening quote. -/
def scanQuote (c : Nat) (s : Scan) : Scan :=
  { (s.put s.i HL_STRING) with in_string := c, i := s.i + 1, prev_sep := false }

/-- The branch for a byte that is not printable. -/
def scanNonprint (s : Scan) : Scan :=
  { (s.put s.i HL_NONPRINT) with i := s.i + 1, prev_sep := false }

/-- The test `row->hl[i - 1] == HL_NUMBER`, false at `i = 0`. -/
def prevNumber (s : Scan) : Bool :=
  s.i != 0 && s.hl.getD (s.i - 1) HL_NORMAL == HL_NUMBER

/-- The rest of the loop body: numbers, keywords and plain bytes. `row->hl[i -
1]` is read when `*p` is a digit and `prev_sep` is `0`, which at `i = 0` is a
read in front of the array. -/
def scanWord (syn : editorSyntax) (render : List Nat) (c : Nat) (s : Scan) : Scan :=
  let s0 := if isdigit c && !s.prev_sep && s.i == 0 then { s with overrun := true } else s
  if (isdigit c && (s.prev_sep || prevNumber s)) || (c == 46 && prevNumber s) then
    { (s0.put s.i HL_NUMBER) with i := s.i + 1, prev_sep := false }
  else
    match (if s.prev_sep then syn.keywords.find? (kwMatches render s.i) else none) with
    | some kw =>
      { (s0.fill s.i (kwLen kw) (kwClass kw)) with i := s.i + kwLen kw, prev_sep := false }
    | none => { s0 with prev_sep := is_separator c, i := s.i + 1 }

/-- The body of `while (*p)` in `editorUpdateSyntax`, for a row of `size` raw
bytes. -/
def scanStep (syn : editorSyntax) (render : List Nat) (size : Nat) (s : Scan) : ScanStep :=
  let c := render.getD s.i 0
  let c1 := render.getD (s.i + 1) 0
  if s.prev_sep && c == syn.singleline_comment_start.getD 0 0 &&
      c1 == syn.singleline_comment_start.getD 1 0 then
    .ret (scanLineComment size s)
  else if s.in_comment then .next (scanInComment syn c c1 s)
  else if c == syn.multiline_comment_start.getD 0 0 &&
      c1 == syn.multiline_comment_start.getD 1 0 then
    .next (scanOpenComment s)
  else if s.in_string != 0 then .next (scanInString c s)
  else if c == 34 || c == 39 then .next (scanQuote c s)
  else if !isprint c then .next (scanNonprint s)
  else .next (scanWord syn render c s)

/-- The loop `while (*p) { ... }`, followed up to the first access outside the
buffers. The result is the final state and whether the loop was left by
`return`; `none` when the budget of iterations is used up. The loop stops when
`overrun` is set; the test `*p` with `p` behind the terminator of `render` is
such an access. -/
def scanLoop (syn : editorSyntax) (render : List Nat) (size : Nat) :
    Nat → Scan → Option (Scan × Bool)
  | 0, _ => none
  | fuel + 1, s =>
    if s.overrun then some (s, false)
    else if render.length < s.i then some ({ s with overrun := true }, false)
    else if render.getD s.i 0 = 0 then some (s, false)
    else
      match scanStep syn render size s with
      | .ret s1 => some (s1, true)
      | .next s1 => scanLoop syn render size fuel s1

/-- The loop `while (*p && isspace(*p)) { p++; i++; }`: the number of bytes it
skips. -/
def leadingSpace (render : List Nat) : Nat :=
  (render.takeWhile fun c => c != 0 && isspace c).length

/-- The state in which the scan loop starts: `hl` is all `HL_NORMAL`, `p` is at
the first byte that is not white space, and `in_comment` is the seed. -/
def scanInit (render : List Nat) (rsize : Nat) (seed : Bool) : Scan :=
  { i := leadingSpace render
    prev_sep := true
    in_string := 0
    in_comment := seed
    hl := List.replicate rsize HL_NORMAL
    overrun := false }

/-- The scan of one row, up to its first access outside the buffers: every
iteration but one after a keyword of length `0` moves `p` forward, so
`2 * length + 2` iterations are enough. -/
def scanRow (syn : editorSyntax) (render : List Nat) (rsize size : Nat) (seed : Bool) :
    Option (Scan × Bool) :=
  scanLoop syn render size (2 * render.length + 2) (scanInit render rsize seed)

/-- The scan of one row as the program can rely on it: the result of `scanRow`
when every access stayed inside the buffers, no result when `overrun` is set
(the behaviour of the C program is undefined then; for the negative `memset`
count of the `//` branch the program is killed). -/
def scanRowOk (syn : editorSyntax) (render : List Nat) (rsize size : Nat) (seed : Bool) :
    Option (Scan × Bool) :=
  match scanRow syn render rsize size seed with
  | none => none
  | some r => if r.1.overrun then none else some r

/-- The call `editorUpdateSyntax(&E.row[k])` with a budget for the depth of the
recursion into the following rows. There is no result when the scan of a row
leaves the buffers (`scanRowOk`) or the row in front is read outside the
array. -/
def editorUpdateSyntaxFuel : Nat → editorConfig → Nat → Option editorConfig
  | 0, _, _ => none
  | fuel + 1, E, k =>
    match E.row[k]? with
    | none => none
    | some row =>
      let row0 := { row with hl := List.replicate row.rsize HL_NORMAL }
      let E0 := E.setRow k row0
      match E.syn with
      | none => some E0
      | some syn =>
        let seed : Option Bool :=
          if row.idx > 0 then (E0.row[row.idx - 1]?).map editorRowHasOpenComment
          else some false
        match seed with
        | none => none
        | some sd =>
          match scanRowOk syn row.render row.rsize row.size sd with
          | none => none
          | some (s, returned) =>
            let row1 := { row0 with hl := s.hl }
            let E1 := E.setRow k row1
            if returned then some E1
            else
              let oc := editorRowHasOpenComment row1
              if row.hl_oc != oc && decide (row.idx + 1 < E.numrows) then
                match editorUpdateSyntaxFuel fuel E1 (row.idx + 1) with
                | none => none
                | some E2 =>
                  match E2.row[k]? with
                  | none => none
                  | some r2 => some (E2.setRow k { r2 with hl_oc := oc })
              else some (E.setRow k { row1 with hl_oc := oc })

/-- The call `editorUpdateSyntax(&E.row[k])`. When every `idx` is at least the offset of
its row the recursion visits rows of increasing offset below `numrows`, so a
depth of `numrows + 1` is enough. -/
def editorUpdateSyntax (E : editorConfig) (k : Nat) : Option editorConfig :=
  editorUpdateSyntaxFuel (E.numrows + 1) E k

/-! ## Row store (`editor_row.c`) -/

/-- The call `editorUpdateRow(&E.row[k])`: count the tabs, leave with `exit(1)`
when `allocsize` exceeds `UINT32_MAX`, render the first `size` bytes of `chars`,
then highlight the row. `row->size` is an `int`: a size above `INT_MAX` has no
`int` value (the assignment in `editorInsertRow` or the addition in a mutator
left the range; a negative `int` fails the guard), and there is no result. The
render index `idx` is an `int` as well: there is no result when the render is
longer than `INT_MAX`. -/
def editorUpdateRow (E : editorConfig) (k : Nat) : Option editorConfig :=
  match E.row[k]? with
  | none => none
  | some row =>
    if row.size > INT_MAX then none
    else if allocsize row.size (countTabs row.raw) > UINT32_MAX then none
    else if (renderBytes row.raw).length > INT_MAX then none
    else
      let render := renderBytes row.raw
      editorUpdateSyntax (E.setRow k { row with render := render, rsize := render.length }) k

/-- The loop `E.row[j].idx++` over rows that were moved. -/
def bumpIdx (rows : List erow) : List erow := rows.map fun r => { r with idx := r.idx + 1 }

/-- The row `editorInsertRow` stores at `E.row[at]` in front of the call of
`editorUpdateRow`. -/
def freshRow (a : Nat) (s : List Nat) (len : Nat) : erow :=
  { idx := a, size := len, rsize := 0, chars := s.take len, render := [], hl := [],
    hl_oc := false }

/-- The call `editorInsertRow(at, s, len)`; `s` lists the bytes at the pointer
`s`, of which the first `len` are copied (the callers pass a string whose
terminator is at `s[len]`). `E.numrows + 1` is an `int` sum: there is no result
when it exceeds `INT_MAX`. -/
def editorInsertRow (E : editorConfig) (at_ : Int) (s : List Nat) (len : Nat) :
    Option editorConfig :=
  if at_ > E.numrows then some E
  else if at_ < 0 then none
  else if E.numrows + 1 > INT_MAX then none
  else
    let a := at_.toNat
    let E1 := { E with
      row := E.row.take a ++ freshRow a s len :: bumpIdx ((E.row.drop a).take (E.numrows - a)) }
    match editorUpdateRow E1 a with
    | none => none
    | some E2 => some { E2 with numrows := E2.numrows + 1, dirty := E2.dirty + 1 }

/-- The call `editorDelRow(at)`: the rows behind `at` move one place down and
the loop then increments the `idx` of each of them. The stale copy the `memmove`
leaves in the last slot of the array is not kept. -/
def editorDelRow (E : editorConfig) (at_ : Int) : Option editorConfig :=
  if at_ ≥ E.numrows then some E
  else if at_ < 0 then none
  else
    let a := at_.toNat
    some { E with
      row := E.row.take a ++ bumpIdx ((E.row.drop (a + 1)).take (E.numrows - a - 1))
      numrows := E.numrows - 1
      dirty := E.dirty + 1 }

/-- The function `editorRowsToString`: the buffer and the value stored in
`*buflen`. `totlen` is an `int`; when the count of bytes, with the terminator
that `totlen++` adds, exceeds `INT_MAX` the additions overflow and there is no
result. -/
def editorRowsToString (E : editorConfig) : Option (List Nat × Nat) :=
  let totlen := (E.row.take E.numrows).foldl (fun totlen r => totlen + (r.size + 1)) 0
  if totlen + 1 > INT_MAX then none
  else some ((E.row.take E.numrows).foldl (fun buf r => buf ++ r.raw ++ [10]) [], totlen)

/-- The buffer part of `editorRowInsertChar`: pad with spaces when `at` is
behind the end, else make room in the middle; then `row->chars[at] = c`, which
converts the `int` to a `char`. -/
def rowInsertChar (row : erow) (a : Nat) (c : Nat) : erow :=
  if a > row.size then
    let padlen := a - row.size
    { row with
      chars := row.raw ++ List.replicate padlen 32 ++ [c % 256]
      size := row.size + (padlen + 1) }
  else
    { row with
      chars := row.raw.take a ++ (c % 256) :: row.raw.drop a
      size := row.size + 1 }

/-- The call `editorRowInsertChar(&E.row[k], at, c)`. The sizes `row->size +
padlen + 2` and `row->size + 2` passed to `realloc` are `int` sums, one more than
the new size: there is no result when they exceed `INT_MAX`. -/
def editorRowInsertChar (E : editorConfig) (k : Nat) (at_ : Int) (c : Nat) :
    Option editorConfig :=
  match E.row[k]? with
  | none => none
  | some row =>
    if at_ < 0 then none
    else if (rowInsertChar row at_.toNat c).size + 1 > INT_MAX then none
    else
      match editorUpdateRow (E.setRow k (rowInsertChar row at_.toNat c)) k with
      | none => none
      | some E1 => some { E1 with dirty := E1.dirty + 1 }

/-- The buffer part of `editorRowAppendString`: the first `len` bytes at `s` are
copied behind the content. -/
def rowAppendString (row : erow) (s : List Nat) (len : Nat) : erow :=
  { row with chars := row.raw ++ s.take len, size := row.size + len }

/-- The call `editorRowAppendString(&E.row[k], s, len)`. -/
def editorRowAppendString (E : editorConfig) (k : Nat) (s : List Nat) (len : Nat) :
    Option editorConfig :=
  match E.row[k]? with
  | none => none
  | some row =>
    match editorUpdateRow (E.setRow k (rowAppendString row s len)) k with
    | none => none
    | some E1 => some { E1 with dirty := E1.dirty + 1 }

/-- The call `editorRowDelChar(&E.row[k], at)`: the bytes behind `at`,
terminator included, move one place down; `editorUpdateRow` runs with the old
`size`, and only then `size` is decremented. -/
def editorRowDelChar (E : editorConfig) (k : Nat) (at_ : Int) : Option editorConfig :=
  match E.row[k]? with
  | none => none
  | some row =>
    if (row.size : Int) ≤ at_ then some E
    else if at_ < 0 then none
    else
      match editorUpdateRow
          (E.setRow k { row with chars := row.raw.eraseIdx at_.toNat }) k with
      | none => none
      | some E1 =>
        match E1.row[k]? with
        | none => none
        | some r1 =>
          some { E1.setRow k { r1 with size := r1.size - 1 } with dirty := E1.dirty + 1 }

/-! ## Editing at the cursor (`editor_input.c`) -/

/-- The loop `while (E.numrows <= filerow) editorInsertRow(E.numrows, "", 0);`
with a budget of iterations. -/
def insertEmptyRows : Nat → editorConfig → Int → Option editorConfig
  | 0, E, filerow => if (E.numrows : Int) ≤ filerow then none else some E
  | fuel + 1, E, filerow =>
    if (E.numrows : Int) ≤ filerow then
      match editorInsertRow E E.numrows [] 0 with
      | none => none
      | some E1 => insertEmptyRows fuel E1 filerow
    else some E

/-- The function `editorInsertChar(c)`. The loop that adds empty rows runs
`filerow + 1 - numrows` times. -/
def editorInsertChar (E : editorConfig) (c : Nat) : Option editorConfig :=
  let filerow := E.rowoff + E.cy
  let filecol := E.coloff + E.cx
  if filerow < 0 then none
  else
    match insertEmptyRows (filerow.toNat + 1 - E.numrows) E filerow with
    | none => none
    | some E1 =>
      match editorRowInsertChar E1 filerow.toNat filecol c with
      | none => none
      | some E2 =>
        let E3 :=
          if E2.cx = E2.screencols - 1 then { E2 with coloff := E2.coloff + 1 }
          else { E2 with cx := E2.cx + 1 }
        some { E3 with dirty := E3.dirty + 1 }

/-- The label `fixcursor` of `editorInsertNewline`. -/
def fixcursor (E : editorConfig) : editorConfig :=
  let E1 :=
    if E.cy = E.screenrows - 1 then { E with rowoff := E.rowoff + 1 }
    else { E with cy := E.cy + 1 }
  { E1 with cx := 0, coloff := 0 }

/-- The statements `row->chars[filecol] = 0; row->size = filecol;` of
`editorInsertNewline`. -/
def rowTruncate (row : erow) (fc : Nat) : erow :=
  { row with chars := row.raw.take fc, size := fc }

/-- The branch of `editorInsertNewline` that splits the row `row` at file row
`fr` in front of column `fc`, with `0 < fc ≤ size`. -/
def newlineSplit (E : editorConfig) (fr : Nat) (row : erow) (fc : Nat) : Option editorConfig :=
  match editorInsertRow E ((fr : Int) + 1) (row.raw.drop fc) (row.size - fc) with
  | none => none
  | some E1 =>
    match E1.row[fr]? with
    | none => none
    | some r1 =>
      match editorUpdateRow (E1.setRow fr (rowTruncate r1 fc)) fr with
      | none => none
      | some E2 => some (fixcursor E2)

/-- The function `editorInsertNewline()`. -/
def editorInsertNewline (E : editorConfig) : Option editorConfig :=
  let filerow := E.rowoff + E.cy
  let filecol := E.coloff + E.cx
  if filerow ≥ E.numrows then
    if filerow = E.numrows then
      match editorInsertRow E filerow [] 0 with
      | none => none
      | some E1 => some (fixcursor E1)
    else some E
  else if filerow < 0 then none
  else
    match E.row[filerow.toNat]? with
    | none => none
    | some row =>
      let filecol := if filecol ≥ row.size then (row.size : Int) else filecol
      if filecol = 0 then
        match editorInsertRow E filerow [] 0 with
        | none => none
        | some E1 => some (fixcursor E1)
      else if filecol < 0 then none
      else newlineSplit E filerow.toNat row filecol.toNat

/-- The branch `filecol == 0` of `editorDelChar`, on file row `fr`: the row
`row` at `fr` is appended to the row in front and removed, the cursor goes to the
old end of that row. -/
def delCharMerge (E : editorConfig) (fr : Nat) (row : erow) : Option editorConfig :=
  match E.row[fr - 1]? with
  | none => none
  | some prev =>
    let filecol : Int := prev.size
    match editorRowAppendString E (fr - 1) row.raw row.size with
    | none => none
    | some E1 =>
      match editorDelRow E1 fr with
      | none => none
      | some E2 =>
        let E3 :=
          if E2.cy = 0 then { E2 with rowoff := E2.rowoff - 1 }
          else { E2 with cy := E2.cy - 1 }
        let E4 := { E3 with cx := filecol }
        let E5 :=
          if E4.cx ≥ E4.screencols then
            let shift : Int := (E4.screencols - E4.cx) + 1
            { E4 with cx := E4.cx - shift, coloff := E4.coloff + shift }
          else E4
        some { E5 with dirty := E5.dirty + 1 }

/-- The branch `filecol != 0` of `editorDelChar`, on file row `fr`; the last two
statements of the function are included. -/
def delCharInRow (E : editorConfig) (fr : Nat) (filecol : Int) : Option editorConfig :=
  match editorRowDelChar E fr (filecol - 1) with
  | none => none
  | some E1 =>
    let E2 :=
      if E1.cx = 0 && E1.coloff != 0 then { E1 with coloff := E1.coloff - 1 }
      else { E1 with cx := E1.cx - 1 }
    match editorUpdateRow E2 fr with
    | none => none
    | some E3 => some { E3 with dirty := E3.dirty + 1 }

/-- The function `editorDelChar()`. -/
def editorDelChar (E : editorConfig) : Option editorConfig :=
  let filerow := E.rowoff + E.cy
  let filecol := E.coloff + E.cx
  if filerow ≥ E.numrows ∨ (filecol = 0 ∧ filerow = 0) then some E
  else if filerow < 0 then none
  else
    match E.row[filerow.toNat]? with
    | none => none
    | some row =>
      if filecol = 0 then delCharMerge E filerow.toNat row
      else delCharInRow E filerow.toNat filecol

/-- Modelled from the spec: the key codes of `kilo.h` that `editorMoveCursor`
switches on; section 4.4 names the four moves. -/
inductive Key where
  | ARROW_LEFT
  | ARROW_RIGHT
  | ARROW_UP
  | ARROW_DOWN
  deriving DecidableEq, Repr

/-- The value of `row ? row->size : 0` for
`row = (filerow >= E.numrows) ? NULL : &E.row[filerow]`; `none` when the pointer
is outside the array. -/
def rowlenAt (E : editorConfig) (filerow : Int) : Option (Option Nat) :=
  if filerow ≥ E.numrows then some none
  else if filerow < 0 then none
  else (E.row[filerow.toNat]?).map fun r => some r.size

/-- The `switch` of `editorMoveCursor`. -/
def moveSwitch (E : editorConfig) (key : Key) : Option editorConfig :=
  let filerow := E.rowoff + E.cy
  let filecol := E.coloff + E.cx
  match key with
  | .ARROW_LEFT =>
    if E.cx = 0 then
      if E.coloff ≠ 0 then some { E with coloff := E.coloff - 1 }
      else if filerow > 0 then
        match E.row[(filerow - 1).toNat]? with
        | none => none
        | some prev =>
          let E1 : editorConfig := { E with cy := E.cy - 1, cx := (prev.size : Int) }
          if E1.cx > E1.screencols - 1 then
            some { E1 with coloff := E1.cx - E1.screencols + 1, cx := E1.screencols - 1 }
          else some E1
      else some E
    else some { E with cx := E.cx - 1 }
  | .ARROW_RIGHT =>
    match rowlenAt E filerow with
    | none => none
    | some none => some E
    | some (some size) =>
      if filecol < size then
        if E.cx = E.screencols - 1 then some { E with coloff := E.coloff + 1 }
        else some { E with cx := E.cx + 1 }
      else if filecol = size then
        let E1 : editorConfig := { E with cx := 0, coloff := 0 }
        if E1.cy = E1.screenrows - 1 then some { E1 with rowoff := E1.rowoff + 1 }
        else some { E1 with cy := E1.cy + 1 }
      else some E
  | .ARROW_UP =>
    if E.cy = 0 then
      if E.rowoff ≠ 0 then some { E with rowoff := E.rowoff - 1 } else some E
    else some { E with cy := E.cy - 1 }
  | .ARROW_DOWN =>
    if filerow < E.numrows then
      if E.cy = E.screenrows - 1 then some { E with rowoff := E.rowoff + 1 }
      else some { E with cy := E.cy + 1 }
    else some E

/-- The end of `editorMoveCursor`: fix `cx` if the current line has not enough
bytes. -/
def moveClamp (E : editorConfig) : Option editorConfig :=
  let filerow := E.rowoff + E.cy
  let filecol := E.coloff + E.cx
  match rowlenAt E filerow with
  | none => none
  | some size? =>
    let rowlen : Int := (size?.getD 0 : Nat)
    if filecol > rowlen then
      let E1 : editorConfig := { E with cx := E.cx - (filecol - rowlen) }
      if E1.cx < 0 then some { E1 with coloff := E1.coloff + E1.cx, cx := 0 }
      else some E1
    else some E

/-- The function `editorMoveCursor(key)`. -/
def editorMoveCursor (E : editorConfig) (key : Key) : Option editorConfig :=
  match moveSwitch E key with
  | none => none
  | some E1 => moveClamp E1

/-! ## Notions used by the statements -/

/-- The measure that decreases with every iteration of the scan loop. -/
def scanMeasure (render : List Nat) (s : Scan) : Nat :=
  2 * (render.length - s.i) + (if s.prev_sep then 1 else 0)

/-- A row without its highlight. -/
def erow.strip (r : erow) : erow := { r with hl := [], hl_oc := false }

/-- The editor state without the highlight of its rows. -/
def editorConfig.strip (E : editorConfig) : editorConfig :=
  { E with row := E.row.map erow.strip }

/-- Every row of the array carries its offset as `idx`: the `idx` fields are
`0, 1, 2, ...` in order. -/
def Indexed (E : editorConfig) : Prop :=
  E.row.map erow.idx = List.range E.row.length

/-- The open-comment state `editorUpdateSyntax` reads for the row at offset `k`
when that row carries `idx = k`: that of the row in front, none for row `0`. -/
def seedAt (E : editorConfig) (k : Nat) : Bool :=
  match k with
  | 0 => false
  | j + 1 => ((E.row[j]?).map editorRowHasOpenComment).getD false

/-- What `editorUpdateSyntax` leaves in the row it is called on, for the seed
`seed`: all `HL_NORMAL` without a language; else the highlight of the scan, and
the new `hl_oc` unless the scan left by `return`; no result when the scan leaves
the buffers. -/
def syntaxRow (syn : Option editorSyntax) (seed : Bool) (row : erow) : Option erow :=
  match syn with
  | none => some { row with hl := List.replicate row.rsize HL_NORMAL }
  | some sy =>
    match scanRowOk sy row.render row.rsize row.size seed with
    | none => none
    | some (s, returned) =>
      some { row with
        hl := s.hl
        hl_oc := if returned then row.hl_oc
                 else editorRowHasOpenComment { row with hl := s.hl } }

/-- A raw content passes the test `allocsize > UINT32_MAX` of
`editorUpdateRow`. -/
def Fits (cs : List Nat) : Prop := allocsize cs.length (countTabs cs) ≤ UINT32_MAX

/-- The raw contents of the rows of the document, in order. -/
def editorConfig.lines (E : editorConfig) : List (List Nat) :=
  (E.row.take E.numrows).map erow.raw

/-- The row with its render brought up to date, as `editorUpdateRow` stores it
in front of the call of `editorUpdateSyntax`. -/
def erow.rendered (row : erow) : erow :=
  { row with render := renderBytes row.raw, rsize := (renderBytes row.raw).length }

instance instDecidableFits (cs : List Nat) : Decidable (Fits cs) := by
  unfold Fits
  infer_instance

/-- Modelled from the spec: `editorOpen` is not among the sources; section 6 has
`open` populate one row per input line, which is a call
`editorInsertRow(E.numrows, line, len)` for each line in order. -/
def insertLines : editorConfig → List (List Nat) → Option editorConfig
  | E, [] => some E
  | E, l :: ls =>
    match editorInsertRow E E.numrows l l.length with
    | none => none
    | some E1 => insertLines E1 ls

/-- An empty document on a screen of 24 rows and 80 columns, with the cursor at
the origin. -/
def emptyDoc (syn : Option editorSyntax) : editorConfig :=
  { cx := 0, cy := 0, rowoff := 0, coloff := 0, screenrows := 24, screencols := 80,
    numrows := 0, row := [], dirty := 0, syn := syn }

instance instDecidableIndexed (E : editorConfig) : Decidable (Indexed E) := by
  unfold Indexed
  infer_instance

/-- The `idx` of every row is at least the offset of the row in the array. The
empty document has the property and every operation of the editor keeps it:
`editorInsertRow` numbers the new row with its offset, and `editorDelRow`
increments the `idx` of the rows it moves down, so an `idx` can exceed the
offset but never falls below it. -/
def IdxAbove (E : editorConfig) : Prop :=
  ∀ j, j < E.row.length → ∀ row ∈ E.row[j]?, j ≤ row.idx

instance instDecidableIdxAbove (E : editorConfig) : Decidable (IdxAbove E) := by
  unfold IdxAbove
  infer_instance

/-- No scan of a row of the document leaves the buffers, whatever the seed it
starts with (nothing is asked without a language definition, where no row is
scanned). -/
def SafeRows (E : editorConfig) : Prop :=
  match E.syn with
  | none => True
  | some syn =>
    ∀ row ∈ E.row, ∀ seed : Bool,
      (scanRowOk syn row.render row.rsize row.size seed).isSome = true

instance instDecidableSafeRows (E : editorConfig) : Decidable (SafeRows E) := by
  unfold SafeRows
  split <;> infer_instance

/-- The document of the comment example after its first two rows, "/* start"
and "middle", were inserted with the C definition active. -/
def docComment : editorConfig :=
  (insertLines (emptyDoc HLDB.head?) [bytes "/* start", bytes "middle"]).getD (emptyDoc none)

/-- A language definition whose multi-line comments are written `(*` and `*)`. -/
def starSyntax : editorSyntax :=
  { filematch := [bytes ".ml"]
    keywords := []
    singleline_comment_start := bytes "--"
    multiline_comment_start := bytes "(*"
    multiline_comment_end := bytes "*)"
    flags := HL_HIGHLIGHT_STRINGS ||| HL_HIGHLIGHT_NUMBERS }

/-- The highlight and the open-comment state of each row, as a caller reads them
once the rows were inserted. -/
def highlightOf (E : Option editorConfig) : Option (List (List HL × Bool)) :=
  E.map fun E => E.row.map fun r => (r.hl, editorRowHasOpenComment r)

/-- The call `strstr(hay, needle)` on strings without NUL: the offset of the
first occurrence of `needle` in `hay`, `none` for `NULL`. -/
def strstr (hay needle : List Nat) : Option Nat :=
  (List.range (hay.length + 1)).find? fun i => (hay.drop i).take needle.length == needle

/-- The test of one pattern in `editorSelectSyntaxHighlight`: `strstr` finds the
pattern, and the pattern does not begin with `.` or the byte behind the
occurrence found is the terminator. -/
def patternSelects (filename pat : List Nat) : Bool :=
  match strstr filename pat with
  | none => false
  | some p => pat.getD 0 0 != 46 || filename.getD (p + pat.length) 0 == 0

/-- The two loops of `editorSelectSyntaxHighlight` over a registry: the first
definition one of whose patterns passes the test. -/
def selectSyntax (db : List editorSyntax) (filename : List Nat) : Option editorSyntax :=
  db.find? fun s => s.filematch.any (patternSelects filename)

/-- The function `editorSelectSyntaxHighlight(filename)`: `E.syntax` is assigned
when a definition is selected and left as it is otherwise. -/
def editorSelectSyntaxHighlight (E : editorConfig) (filename : List Nat) : editorConfig :=
  match selectSyntax HLDB filename with
  | some s => { E with syn := some s }
  | none => E

/-- The argument of `malloc` in `editorUpdateRow`: `row->size + tabs * 8 +
nonprint * 9 + 1` is an `unsigned int` expression, computed modulo `2 ^ 32`;
`nonprint` stays `0`. -/
def renderAlloc (size tabs : Nat) : Nat := (size + tabs * 8 + 0 * 9 + 1) % 2 ^ 32

/-- The keys the properties about sequences of operations range over. -/
inductive Op where
  | move (key : Key)
  | insertChar (c : Nat)
  | insertNewline
  | delChar
  deriving DecidableEq, Repr

/-- The operation a key stands for. -/
def applyOp (E : editorConfig) : Op → Option editorConfig
  | .move key => editorMoveCursor E key
  | .insertChar c => editorInsertChar E c
  | .insertNewline => editorInsertNewline E
  | .delChar => editorDelChar E

/-- A finite sequence of operations, applied in order. -/
def applyOps : editorConfig → List Op → Option editorConfig
  | E, [] => some E
  | E, op :: ops =>
    match applyOp E op with
    | none => none
    | some E1 => applyOps E1 ops

/-- The state in which the flags of the active definition, if there is one, are
replaced by `f`. -/
def withFlags (E : editorConfig) (f : Nat) : editorConfig :=
  { E with syn := E.syn.map fun s => { s with flags := f } }

/-- The function `editorUpdateSyntaxFuel` together with the offsets of the rows
on which `editorUpdateSyntax` is entered, in the order of the calls. -/
def editorUpdateSyntaxTrace : Nat → editorConfig → Nat → Option (editorConfig × List Nat)
  | 0, _, _ => none
  | fuel + 1, E, k =>
    match E.row[k]? with
    | none => none
    | some row =>
      let row0 := { row with hl := List.replicate row.rsize HL_NORMAL }
      let E0 := E.setRow k row0
      match E.syn with
      | none => some (E0, [k])
      | some syn =>
        let seed : Option Bool :=
          if row.idx > 0 then (E0.row[row.idx - 1]?).map editorRowHasOpenComment
          else some false
        match seed with
        | none => none
        | some sd =>
          match scanRowOk syn row.render row.rsize row.size sd with
          | none => none
          | some (s, returned) =>
            let row1 := { row0 with hl := s.hl }
            let E1 := E.setRow k row1
            if returned then some (E1, [k])
            else
              let oc := editorRowHasOpenComment row1
              if row.hl_oc != oc && decide (row.idx + 1 < E.numrows) then
                match editorUpdateSyntaxTrace fuel E1 (row.idx + 1) with
                | none => none
                | some (E2, calls) =>
                  match E2.row[k]? with
                  | none => none
                  | some r2 => some (E2.setRow k { r2 with hl_oc := oc }, k :: calls)
              else some (E.setRow k { row1 with hl_oc := oc }, [k])

/-- The document of the cascade example: the rows "/*", "b" and "c" with the C
definition active, every byte still `HL_NORMAL` and no row recorded as open, as
after the first row was changed and in front of its `editorUpdateSyntax`. -/
def docCascade : editorConfig :=
  { emptyDoc HLDB.head? with
    numrows := 3
    row := [{ idx := 0, size := 2, rsize := 2, chars := bytes "/*", render := bytes "/*",
              hl := [HL_NORMAL, HL_NORMAL], hl_oc := false },
            { idx := 1, size := 1, rsize := 1, chars := bytes "b", render := bytes "b",
              hl := [HL_NORMAL], hl_oc := false },
            { idx := 2, size := 1, rsize := 1, chars := bytes "c", render := bytes "c",
              hl := [HL_NORMAL], hl_oc := false }] }

/-- The states in which the body of the scan loop is entered, in order: the
iterations of `scanLoop` from the state `s` on. -/
def scanStates (syn : editorSyntax) (render : List Nat) (size : Nat) :
    Nat → Scan → List Scan
  | 0, _ => []
  | fuel + 1, s =>
    if s.overrun then []
    else if render.length < s.i then []
    else if render.getD s.i 0 = 0 then []
    else
      match scanStep syn render size s with
      | .ret _ => [s]
      | .next s1 => s :: scanStates syn render size fuel s1

/-- The state an iteration of the scan loop ends in. -/
def ScanStep.state : ScanStep → Scan
  | .next s => s
  | .ret s => s

/-- The highlight class is one of the two keyword classes. -/
def isKeywordClass (v : HL) : Prop := v = HL_KEYWORD1 ∨ v = HL_KEYWORD2

/-- The highlight `h1` has the length of `h`, and differs from it only at
offsets from `a` on, where the new class satisfies `P`. -/
def OnlyFrom (a : Nat) (P : HL → Prop) (h h1 : List HL) : Prop :=
  h1.length = h.length ∧ ∀ n w, h1[n]? = some w → h[n]? = some w ∨ (a ≤ n ∧ P w)

/-- The byte at offset `j` of the highlight `hl` lies in a keyword run written
by the iteration entered in state `t`: `prev_sep` is set there, `kw` is the first
entry of the keyword list that matches at `t.i`, and the whole run is in `hl`
with the class of `kw`. -/
def KeywordRun (syn : editorSyntax) (render : List Nat) (t : Scan) (hl : List HL) (j : Nat)
    (kw : List Nat) : Prop :=
  t.prev_sep = true ∧ syn.keywords.find? (kwMatches render t.i) = some kw ∧
    t.i ≤ j ∧ j < t.i + kwLen kw ∧
    ∀ n, t.i ≤ n → n < t.i + kwLen kw → n < hl.length → hl[n]? = some (kwClass kw)

/-- What one iteration of the scan loop, from state `s` to state `s1`, does to
the highlight: `p` does not move back, the bytes in front of `p` keep their
class, and a byte has a keyword class afterwards only if it had it before or
lies in the keyword run this iteration wrote. -/
def StepOK (syn : editorSyntax) (render : List Nat) (s s1 : Scan) : Prop :=
  s.i ≤ s1.i ∧ s1.hl.length = s.hl.length ∧ (∀ n, n < s.i → s1.hl[n]? = s.hl[n]?) ∧
    ∀ j v, isKeywordClass v → s1.hl[j]? = some v →
      s.hl[j]? = some v ∨ ∃ kw, KeywordRun syn render s s1.hl j kw ∧ s1.i = s.i + kwLen kw

/-- The document of the keyword example: the single row "int x return;", C
definition active, not yet highlighted. -/
def docKeywords : editorConfig :=
  { emptyDoc HLDB.head? with
    numrows := 1
    row := [{ idx := 0, size := 13, rsize := 13, chars := bytes "int x return;",
              render := bytes "int x return;", hl := List.replicate 13 HL_NORMAL,
              hl_oc := false }] }

/-- The highlight of `row` is the one the scan of its render writes when it
starts with `in_comment = seed`, and that scan stays inside the buffers. -/
def HlOk (syn : editorSyntax) (seed : Bool) (row : erow) : Prop :=
  (scanRowOk syn row.render row.rsize row.size seed).map (fun r => r.1.hl) = some row.hl

instance instDecidableHlOk (syn : editorSyntax) (seed : Bool) (row : erow) :
    Decidable (HlOk syn seed row) := by
  unfold HlOk
  infer_instance

/-- Highlight consistency of a document for the language `syn`: the highlight of
every row is the scan of its render seeded with the open-comment state
`editorRowHasOpenComment` now reports for the row in front of it (no open
comment for row `0`). -/
def Consistent (syn : editorSyntax) (E : editorConfig) : Prop :=
  ∀ j, j < E.row.length → ∀ row ∈ E.row[j]?, HlOk syn (seedAt E j) row

instance instDecidableConsistent (syn : editorSyntax) (E : editorConfig) :
    Decidable (Consistent syn E) := by
  unfold Consistent
  infer_instance

/-- A row without its `idx` and its `hl_oc`, the two fields the scan and
`editorRowHasOpenComment` do not read. -/
def erow.core (r : erow) : erow := { r with idx := 0, hl_oc := false }

/-- The document "/* a", "b" with the C definition, highlighted. -/
def docOpenTail : editorConfig :=
  (insertLines (emptyDoc HLDB.head?) [bytes "/* a", bytes "b"]).getD (emptyDoc none)

/-- The state in which `editorInsertRow(a, s, len)` calls `editorUpdateSyntax`
on the new row: the row is in place and rendered, the rows behind it carry an
`idx` one larger, and `numrows` is not yet incremented. -/
def insertingState (E : editorConfig) (a : Nat) (s : List Nat) (len : Nat) : editorConfig :=
  { E with row := E.row.take a ++ (freshRow a s len).rendered :: bumpIdx (E.row.drop a) }

/-- The value of `editorRowHasOpenComment` for a row with the render `render`,
`rsize` its length, and the highlight `hl`. -/
def openAt (render : List Nat) (hl : List HL) : Bool :=
  editorRowHasOpenComment
    { idx := 0, size := 0, rsize := render.length, chars := [], render := render, hl := hl,
      hl_oc := false }

/-- The scan of the render `render` (raw size `size`) with the definition `syn`
and the seed `seed`: the value of `in_comment` when the loop is left, whether it
was left by `return`, and what `editorRowHasOpenComment` then reports. -/
def scanFlag (syn : editorSyntax) (render : List Nat) (size : Nat) (seed : Bool) :
    Option (Bool × Bool × Bool) :=
  (scanRow syn render render.length size seed).map fun r =>
    (r.1.in_comment, r.2, openAt render r.1.hl)

/-- The bytes in front of offset `i` do not end in `*` with `/` at offset `i`,
unless that `*` is the second byte of a `/*` that sits right in front of `i`. -/
def TailOk (render : List Nat) (i : Nat) : Prop :=
  (2 ≤ i ∧ render.getD (i - 2) 0 = 47 ∧ render.getD (i - 1) 0 = 42) ∨
    ¬ (1 ≤ i ∧ render.getD (i - 1) 0 = 42 ∧ render.getD i 0 = 47)

/-- What the scan loop keeps true of its state for the open-comment test: the
highlight has the length of the render, no byte from `p` on is `HL_MLCOMMENT`,
and inside a comment the bytes in front of `p` satisfy `TailOk`. -/
def CommentInv (render : List Nat) (s : Scan) : Prop :=
  s.hl.length = render.length ∧ (∀ j, s.i ≤ j → s.hl[j]? ≠ some HL_MLCOMMENT) ∧
    (s.in_comment = true → TailOk render s.i)

/-- The row "a /* b", rendered, not yet highlighted. -/
def rowOpenTail : erow :=
  { idx := 0, size := 6, rsize := 6, chars := bytes "a /* b", render := bytes "a /* b",
    hl := List.replicate 6 HL_NORMAL, hl_oc := false }

/-- The state in which the scan of the row "a /* b" leaves its loop. -/
def scanOpenTail : Scan :=
  { i := 6, prev_sep := false, in_string := 0, in_comment := true,
    hl := [HL_NORMAL, HL_NORMAL, HL_MLCOMMENT, HL_MLCOMMENT, HL_MLCOMMENT, HL_MLCOMMENT],
    overrun := false }

/-- The open-comment state `editorUpdateSyntax` reads for the row `row` at
offset `k`, after it has reset the highlight of that row: that of the row
`E.row[row->idx - 1]`, none for `idx = 0`; no value when that row is outside the
array. -/
def seedRead (E : editorConfig) (k : Nat) (row : erow) : Option Bool :=
  if row.idx > 0 then
    ((E.setRow k { row with hl := List.replicate row.rsize HL_NORMAL }).row[row.idx - 1]?).map
      editorRowHasOpenComment
  else some false

/-- The row "int x return;", rendered, with the highlight `hl`. -/
def rowKeywords (hl : List HL) : erow :=
  { idx := 0, size := 13, rsize := 13, chars := bytes "int x return;",
    render := bytes "int x return;", hl := hl, hl_oc := false }

/-- The highlight of the row "int x return;" with the C definition. -/
def hlKeywords : List HL :=
  List.replicate 3 HL_KEYWORD2 ++ List.replicate 3 HL_NORMAL ++
    List.replicate 6 HL_KEYWORD1 ++ [HL_NORMAL]

/-- The list `l` of `idx` values, read as those of the rows from offset `n` on:
every value is at least the offset of its row. -/
def AboveFrom (n : Nat) (l : List Nat) : Prop :=
  ∀ j v, l[j]? = some v → n + j ≤ v

/-- The state in which the first call of `editorUpdateSyntax` on row 0 of
`docCascade` leaves the document. -/
def docCascadeDone : editorConfig :=
  (editorUpdateSyntax docCascade 0).getD docCascade

/-- The function `editorUpdateRow` together with the offsets of the rows on
which `editorUpdateSyntax` is entered, in the order of the calls. -/
def editorUpdateRowTrace (E : editorConfig) (k : Nat) : Option (editorConfig × List Nat) :=
  match E.row[k]? with
  | none => none
  | some row =>
    if row.size > INT_MAX then none
    else if allocsize row.size (countTabs row.raw) > UINT32_MAX then none
    else if (renderBytes row.raw).length > INT_MAX then none
    else
      let render := renderBytes row.raw
      editorUpdateSyntaxTrace (E.numrows + 1)
        (E.setRow k { row with render := render, rsize := render.length }) k

/-- The function `editorRowDelChar` together with the offsets of the rows on
which `editorUpdateSyntax` is entered, in the order of the calls. -/
def editorRowDelCharTrace (E : editorConfig) (k : Nat) (at_ : Int) :
    Option (editorConfig × List Nat) :=
  match E.row[k]? with
  | none => none
  | some row =>
    if (row.size : Int) ≤ at_ then some (E, [])
    else if at_ < 0 then none
    else
      match editorUpdateRowTrace
          (E.setRow k { row with chars := row.raw.eraseIdx at_.toNat }) k with
      | none => none
      | some (E1, calls) =>
        match E1.row[k]? with
        | none => none
        | some r1 =>
          some ({ E1.setRow k { r1 with size := r1.size - 1 } with dirty := E1.dirty + 1 },
            calls)

/-- The branch `filecol != 0` of `editorDelChar` (the function `delCharInRow`)
together with the offsets of the rows on which `editorUpdateSyntax` is entered,
in the order of the calls: those of `editorRowDelChar`, then those of the call
of `editorUpdateRow` that follows it. -/
def delCharInRowTrace (E : editorConfig) (fr : Nat) (filecol : Int) :
    Option (editorConfig × List Nat) :=
  match editorRowDelCharTrace E fr (filecol - 1) with
  | none => none
  | some (E1, calls1) =>
    let E2 :=
      if E1.cx = 0 && E1.coloff != 0 then { E1 with coloff := E1.coloff - 1 }
      else { E1 with cx := E1.cx - 1 }
    match editorUpdateRowTrace E2 fr with
    | none => none
    | some (E3, calls2) => some ({ E3 with dirty := E3.dirty + 1 }, calls1 ++ calls2)

/-- The document "/* abc", "b", "c" with the C definition, highlighted, on a
screen of 24 rows and 80 columns, with the cursor on row 0 behind the two bytes
of the comment marker. -/
def docCommentAbc : editorConfig :=
  { (insertLines (emptyDoc HLDB.head?) [bytes "/* abc", bytes "b", bytes "c"]).getD
      (emptyDoc none) with cx := 2 }

/-- The document "x */", "y" with the C definition, highlighted. -/
def docCloseY : editorConfig :=
  (insertLines (emptyDoc HLDB.head?) [bytes "x */", bytes "y"]).getD (emptyDoc none)

/-- The document `docCloseY` after `editorInsertRow(0, "/* a", 4)`. -/
def docCloseYDone : editorConfig :=
  (editorInsertRow docCloseY 0 (bytes "/* a") 4).getD docCloseY

/-! # Theorems -/

/-! ## The scan loop terminates -/

@[simp] theorem Scan.put_i (s : Scan) (j : Nat) (v : HL) : (s.put j v).i = s.i := by
  unfold Scan.put; split <;> rfl

@[simp] theorem Scan.put_prev_sep (s : Scan) (j : Nat) (v : HL) :
    (s.put j v).prev_sep = s.prev_sep := by
  unfold Scan.put; split <;> rfl

@[simp] theorem Scan.put_length (s : Scan) (j : Nat) (v : HL) :
    (s.put j v).hl.length = s.hl.length := by
  unfold Scan.put; split <;> simp

@[simp] theorem Scan.fill_length (s : Scan) (j n : Nat) (v : HL) :
    (s.fill j n v).hl.length = s.hl.length := by
  simp only [Scan.fill, List.length_append, List.length_take, List.length_replicate,
    List.length_drop]
  omega

theorem scanMeasure_lt_of_advance (render : List Nat) (s s1 : Scan) (hi : s.i < render.length)
    (h : s.i < s1.i) : scanMeasure render s1 < scanMeasure render s := by
  unfold scanMeasure
  split_ifs <;> omega

theorem scanWord_progress (syn : editorSyntax) (render : List Nat) (c : Nat) (s : Scan)
    (hi : s.i < render.length) :
    scanMeasure render (scanWord syn render c s) < scanMeasure render s ∧
      (scanWord syn render c s).hl.length = s.hl.length := by
  unfold scanWord
  generalize hs0 : (if (isdigit c && !s.prev_sep && s.i == 0) = true then
    ({ s with overrun := true } : Scan) else s) = s0
  have hlen : s0.hl.length = s.hl.length := by
    rw [← hs0]; split_ifs <;> rfl
  simp only []
  split_ifs with hnum hp
  · exact ⟨scanMeasure_lt_of_advance _ _ _ hi (by simp), by simp [hlen]⟩
  · cases hk : List.find? (kwMatches render s.i) syn.keywords with
    | none => exact ⟨scanMeasure_lt_of_advance _ _ _ hi (by simp), by simp [hlen]⟩
    | some kw =>
      refine ⟨?_, by simp [hlen]⟩
      simp only [scanMeasure, hp, if_true]
      simp
      omega
  · exact ⟨scanMeasure_lt_of_advance _ _ _ hi (by simp), by simp [hlen]⟩

theorem scanStep_progress (syn : editorSyntax) (render : List Nat) (size : Nat) (s : Scan)
    (hi : s.i < render.length) :
    match scanStep syn render size s with
    | .ret s1 => s1.hl.length = s.hl.length
    | .next s1 => scanMeasure render s1 < scanMeasure render s ∧ s1.hl.length = s.hl.length := by
  unfold scanStep
  simp only []
  split_ifs
  · simp only [scanLineComment]; split_ifs <;> simp
  · refine ⟨scanMeasure_lt_of_advance _ _ _ hi ?_, ?_⟩ <;>
      (simp only [scanInComment]; split_ifs <;> simp)
  · exact ⟨scanMeasure_lt_of_advance _ _ _ hi (by simp [scanOpenComment]),
      by simp [scanOpenComment]⟩
  · refine ⟨scanMeasure_lt_of_advance _ _ _ hi ?_, ?_⟩ <;>
      (simp only [scanInString]; split_ifs <;> simp)
  · exact ⟨scanMeasure_lt_of_advance _ _ _ hi (by simp [scanQuote]), by simp [scanQuote]⟩
  · exact ⟨scanMeasure_lt_of_advance _ _ _ hi (by simp [scanNonprint]), by simp [scanNonprint]⟩
  · exact scanWord_progress syn render _ s hi

theorem getD_ne_zero_lt (l : List Nat) (i : Nat) (h : l.getD i 0 ≠ 0) : i < l.length := by
  by_contra hc
  exact h (List.getD_eq_default _ _ (Nat.le_of_not_lt hc))

theorem scanLoop_some (syn : editorSyntax) (render : List Nat) (size : Nat) :
    ∀ (fuel : Nat) (s : Scan), scanMeasure render s < fuel →
      ∃ r, scanLoop syn render size fuel s = some r ∧ r.1.hl.length = s.hl.length := by
  intro fuel
  induction fuel with
  | zero => intro s h; omega
  | succ n ih =>
    intro s h
    unfold scanLoop
    split_ifs with hov hlt h0
    · exact ⟨_, rfl, rfl⟩
    · exact ⟨_, rfl, rfl⟩
    · exact ⟨_, rfl, rfl⟩
    · have hi := getD_ne_zero_lt _ _ h0
      have hp := scanStep_progress syn render size s hi
      cases hs : scanStep syn render size s with
      | ret s1 =>
        rw [hs] at hp
        exact ⟨_, rfl, hp⟩
      | next s1 =>
        rw [hs] at hp
        obtain ⟨r, hr, hl⟩ := ih s1 (by omega)
        exact ⟨r, hr, by rw [hl, hp.2]⟩

theorem scanRow_some (syn : editorSyntax) (render : List Nat) (rsize size : Nat) (seed : Bool) :
    ∃ r, scanRow syn render rsize size seed = some r ∧ r.1.hl.length = rsize := by
  obtain ⟨r, hr, hl⟩ := scanLoop_some syn render size (2 * render.length + 2)
    (scanInit render rsize seed) (by unfold scanMeasure; split_ifs <;> omega)
  exact ⟨r, hr, by simpa [scanInit] using hl⟩

/-! ## The highlight cascade -/

theorem setRow_strip (E : editorConfig) (k : Nat) (row r : erow) (hk : E.row[k]? = some row)
    (hr : r.strip = row.strip) : (E.setRow k r).strip = E.strip := by
  unfold editorConfig.strip editorConfig.setRow
  simp only [List.map_set, hr]
  congr 1
  apply List.ext_getElem?
  intro n
  by_cases hn : k = n
  · subst hn
    rw [List.getElem?_set_self']
    simp [hk]
  · rw [List.getElem?_set_ne hn]

theorem strip_row_getElem? (E E' : editorConfig) (h : E'.strip = E.strip) (k : Nat) :
    (E'.row[k]?).map erow.strip = (E.row[k]?).map erow.strip := by
  have h2 : E'.strip.row = E.strip.row := by rw [h]
  simp only [editorConfig.strip] at h2
  have := congrArg (fun l => l[k]?) h2
  simpa using this

theorem strip_length (E E' : editorConfig) (h : E'.strip = E.strip) :
    E'.row.length = E.row.length := by
  have h2 : E'.strip.row = E.strip.row := by rw [h]
  simp only [editorConfig.strip] at h2
  have := congrArg List.length h2
  simpa using this

theorem editorUpdateSyntaxFuel_strip :
    ∀ (fuel : Nat) (E : editorConfig) (k : Nat) (E' : editorConfig),
      editorUpdateSyntaxFuel fuel E k = some E' → E'.strip = E.strip := by
  intro fuel
  induction fuel with
  | zero => intro E k E' h; simp [editorUpdateSyntaxFuel] at h
  | succ n ih =>
    intro E k E' h
    unfold editorUpdateSyntaxFuel at h
    cases hrow : E.row[k]? with
    | none => simp [hrow] at h
    | some row =>
      simp only [hrow] at h
      cases hsyn : E.syn with
      | none =>
        simp only [hsyn] at h
        injection h with h
        rw [← h]
        exact setRow_strip E k row _ hrow rfl
      | some syn =>
        simp only [hsyn] at h
        split at h
        · exact absurd h (by simp)
        · rename_i sd hsd
          split at h
          · exact absurd h (by simp)
          · rename_i s returned hscan
            split_ifs at h with hret hcas
            · injection h with h
              rw [← h]
              exact setRow_strip E k row _ hrow rfl
            · split at h
              · exact absurd h (by simp)
              · rename_i E2 hE2
                have h2 := ih _ _ _ hE2
                split at h
                · exact absurd h (by simp)
                · rename_i r2 hr2
                  injection h with h
                  rw [← h]
                  have h3 : (E.setRow k { row with hl := s.hl }).strip = E.strip :=
                    setRow_strip E k row _ hrow rfl
                  refine Eq.trans (setRow_strip E2 k r2 _ hr2 ?_) (h2.trans h3)
                  rfl
            · injection h with h
              rw [← h]
              exact setRow_strip E k row _ hrow rfl

theorem strip_row_map (E E' : editorConfig) (h : E'.strip = E.strip) :
    E'.row.map erow.strip = E.row.map erow.strip := by
  have h2 : E'.strip.row = E.strip.row := by rw [h]
  simpa [editorConfig.strip] using h2

theorem Indexed_of_strip (E E' : editorConfig) (h : E'.strip = E.strip) (hi : Indexed E) :
    Indexed E' := by
  unfold Indexed at *
  have h1 := congrArg (List.map erow.idx) (strip_row_map E E' h)
  simp only [List.map_map] at h1
  have h2 : erow.idx ∘ erow.strip = erow.idx := rfl
  rw [h2] at h1
  rw [h1, hi, strip_length E E' h]

theorem Indexed_idx (E : editorConfig) (hi : Indexed E) (j : Nat) (r : erow)
    (hr : E.row[j]? = some r) : r.idx = j := by
  unfold Indexed at hi
  have h1 := congrArg (fun l => l[j]?) hi
  simp only [List.getElem?_map, hr, Option.map_some'] at h1
  obtain ⟨hj, -⟩ := List.getElem?_eq_some.1 hr
  rw [List.getElem?_range hj] at h1
  exact Option.some.inj h1

theorem setRow_getElem?_ne (E : editorConfig) (k j : Nat) (r : erow) (h : k ≠ j) :
    (E.setRow k r).row[j]? = E.row[j]? := by
  simp [editorConfig.setRow, List.getElem?_set_ne h]

theorem setRow_getElem?_self (E : editorConfig) (k : Nat) (r : erow) (h : k < E.row.length) :
    (E.setRow k r).row[k]? = some r := by
  simp [editorConfig.setRow, List.getElem?_set_self h]

theorem IdxAbove_idx (E : editorConfig) (hi : IdxAbove E) (j : Nat) (r : erow)
    (hr : E.row[j]? = some r) : j ≤ r.idx :=
  hi j (List.getElem?_eq_some.1 hr).1 r hr

theorem IdxAbove_of_Indexed (E : editorConfig) (hi : Indexed E) : IdxAbove E := by
  intro j _ r hr
  exact Nat.le_of_eq (Indexed_idx E hi j r hr).symm

theorem IdxAbove_of_idx (E E' : editorConfig) (h : E'.row.map erow.idx = E.row.map erow.idx)
    (hi : IdxAbove E) : IdxAbove E' := by
  intro j _ r hr
  have h1 := congrArg (fun l => l[j]?) h
  simp only [List.getElem?_map] at h1
  have hr' : E'.row[j]? = some r := hr
  rw [hr'] at h1
  cases h2 : E.row[j]? with
  | none => rw [h2] at h1; cases h1
  | some r0 =>
    rw [h2] at h1
    have h3 : r.idx = r0.idx := by simpa using h1
    rw [h3]
    exact IdxAbove_idx E hi j r0 h2

theorem IdxAbove_of_strip (E E' : editorConfig) (h : E'.strip = E.strip) (hi : IdxAbove E) :
    IdxAbove E' := by
  apply IdxAbove_of_idx E E' _ hi
  have h1 := congrArg (List.map erow.idx) (strip_row_map E E' h)
  simp only [List.map_map] at h1
  have h2 : erow.idx ∘ erow.strip = erow.idx := rfl
  rw [h2] at h1
  exact h1

theorem editorUpdateSyntaxFuel_below :
    ∀ (fuel : Nat) (E : editorConfig) (k : Nat) (E' : editorConfig),
      editorUpdateSyntaxFuel fuel E k = some E' → IdxAbove E →
      ∀ j, j < k → E'.row[j]? = E.row[j]? := by
  intro fuel
  induction fuel with
  | zero => intro E k E' h; simp [editorUpdateSyntaxFuel] at h
  | succ n ih =>
    intro E k E' h hidx j hj
    have hne : k ≠ j := by omega
    unfold editorUpdateSyntaxFuel at h
    cases hrow : E.row[k]? with
    | none => simp [hrow] at h
    | some row =>
      have hrk := IdxAbove_idx E hidx k row hrow
      simp only [hrow] at h
      cases hsyn : E.syn with
      | none =>
        simp only [hsyn] at h
        injection h with h
        rw [← h]
        exact setRow_getElem?_ne _ _ _ _ hne
      | some syn =>
        simp only [hsyn] at h
        split at h
        · exact absurd h (by simp)
        · split at h
          · exact absurd h (by simp)
          · rename_i s returned hscan
            split_ifs at h with hret hcas
            · injection h with h
              rw [← h]
              exact setRow_getElem?_ne _ _ _ _ hne
            · split at h
              · exact absurd h (by simp)
              · rename_i E2 hE2
                have h3 : (E.setRow k { row with hl := s.hl }).strip = E.strip :=
                  setRow_strip E k row _ hrow rfl
                have h2 := ih _ _ _ hE2 (IdxAbove_of_strip _ _ h3 hidx) j (by omega)
                split at h
                · exact absurd h (by simp)
                · injection h with h
                  rw [← h, setRow_getElem?_ne _ _ _ _ hne]
                  exact h2.trans (setRow_getElem?_ne _ _ _ _ hne)
            · injection h with h
              rw [← h]
              exact setRow_getElem?_ne _ _ _ _ hne

theorem mem_of_getElem?_some {α : Type} (l : List α) (j : Nat) (x : α) (h : l[j]? = some x) :
    x ∈ l := by
  obtain ⟨hj, hx⟩ := List.getElem?_eq_some.1 h
  rw [← hx]
  exact List.getElem_mem hj

theorem strip_syn (E E' : editorConfig) (h : E'.strip = E.strip) : E'.syn = E.syn := by
  have := congrArg editorConfig.syn h
  simpa [editorConfig.strip] using this

theorem strip_fields (r r' : erow) (h : r'.strip = r.strip) :
    r'.render = r.render ∧ r'.rsize = r.rsize ∧ r'.size = r.size ∧ r'.idx = r.idx := by
  have h1 := congrArg erow.render h
  have h2 := congrArg erow.rsize h
  have h3 := congrArg erow.size h
  have h4 := congrArg erow.idx h
  exact ⟨h1, h2, h3, h4⟩

theorem SafeRows_of_strip (E E' : editorConfig) (h : E'.strip = E.strip) (hs : SafeRows E) :
    SafeRows E' := by
  unfold SafeRows at *
  rw [strip_syn E E' h]
  cases hsyn : E.syn with
  | none => trivial
  | some syn =>
    rw [hsyn] at hs
    intro row hrow seed
    obtain ⟨j, hj, hjr⟩ := List.getElem_of_mem hrow
    have h1 := strip_row_getElem? E E' h j
    rw [List.getElem?_eq_getElem hj, hjr] at h1
    cases h2 : E.row[j]? with
    | none => rw [h2] at h1; cases h1
    | some r =>
      rw [h2] at h1
      have h3 : row.strip = r.strip := by simpa using h1
      obtain ⟨e1, e2, e3, -⟩ := strip_fields r row h3
      rw [e1, e2, e3]
      exact hs r (mem_of_getElem?_some _ _ _ h2) seed

theorem SafeRows_scan (E : editorConfig) (hs : SafeRows E) (syn : editorSyntax)
    (hsyn : E.syn = some syn) (k : Nat) (row : erow) (hrow : E.row[k]? = some row)
    (sd : Bool) : ∃ r, scanRowOk syn row.render row.rsize row.size sd = some r := by
  unfold SafeRows at hs
  rw [hsyn] at hs
  exact Option.isSome_iff_exists.1 (hs row (mem_of_getElem?_some _ _ _ hrow) sd)

theorem editorUpdateSyntaxFuel_some :
    ∀ (fuel : Nat) (E : editorConfig) (k : Nat), Indexed E → k < E.row.length →
      E.numrows ≤ E.row.length → SafeRows E → 0 < fuel → E.numrows < fuel + k →
      ∃ E', editorUpdateSyntaxFuel fuel E k = some E' := by
  intro fuel
  induction fuel with
  | zero => intro E k _ _ _ _ h; omega
  | succ n ih =>
    intro E k hidx hk hlen hsafe _ hn
    unfold editorUpdateSyntaxFuel
    obtain ⟨row, hrow⟩ : ∃ row, E.row[k]? = some row := ⟨_, List.getElem?_eq_getElem hk⟩
    have hrk := Indexed_idx E hidx k row hrow
    simp only [hrow]
    cases hsyn : E.syn with
    | none => exact ⟨_, rfl⟩
    | some syn =>
      simp only []
      have hseed : ∃ sd, (if row.idx > 0 then
          ((E.setRow k { row with hl := List.replicate row.rsize HL_NORMAL }).row[row.idx - 1]?).map
            editorRowHasOpenComment else some false) = some sd := by
        split_ifs with h0
        · have : row.idx - 1 < (E.setRow k
              { row with hl := List.replicate row.rsize HL_NORMAL }).row.length := by
            simp [editorConfig.setRow]; omega
          rw [List.getElem?_eq_getElem this]
          exact ⟨_, rfl⟩
        · exact ⟨_, rfl⟩
      obtain ⟨sd, hsd⟩ := hseed
      rw [hsd]
      simp only []
      obtain ⟨⟨s, returned⟩, hscan⟩ := SafeRows_scan E hsafe syn hsyn k row hrow sd
      rw [hscan]
      simp only []
      split_ifs with hret hcas
      · exact ⟨_, rfl⟩
      · have h3 : (E.setRow k { row with hl := s.hl }).strip = E.strip :=
          setRow_strip E k row _ hrow rfl
        simp only [Bool.and_eq_true, decide_eq_true_eq] at hcas
        have hl1 : (E.setRow k { row with hl := s.hl }).row.length = E.row.length :=
          strip_length _ _ h3
        obtain ⟨E2, hE2⟩ := ih (E.setRow k { row with hl := s.hl }) (row.idx + 1)
          (Indexed_of_strip _ _ h3 hidx) (by rw [hl1]; omega)
          (by rw [hl1]; exact hlen) (SafeRows_of_strip _ _ h3 hsafe) (by omega)
          (by show E.numrows < n + (row.idx + 1); omega)
        rw [hE2]
        simp only []
        have hl2 : E2.row.length = E.row.length :=
          (strip_length _ _ (editorUpdateSyntaxFuel_strip _ _ _ _ hE2)).trans hl1
        rw [List.getElem?_eq_getElem (by omega : k < E2.row.length)]
        exact ⟨_, rfl⟩
      · exact ⟨_, rfl⟩

theorem seed_eq_seedAt (E : editorConfig) (k : Nat) (row r0 : erow) (hidx : row.idx = k) :
    ∀ sd, (if row.idx > 0 then ((E.setRow k r0).row[row.idx - 1]?).map editorRowHasOpenComment
      else some false) = some sd → sd = seedAt E k := by
  intro sd h
  subst hidx
  cases hk : row.idx with
  | zero => simp [hk] at h; simp [seedAt, h]
  | succ j =>
    simp only [hk, gt_iff_lt, Nat.zero_lt_succ, if_true, Nat.add_sub_cancel] at h
    rw [setRow_getElem?_ne _ _ _ _ (by omega)] at h
    simp [seedAt, h]

theorem editorUpdateSyntaxFuel_row (fuel : Nat) (E : editorConfig) (k : Nat)
    (E' : editorConfig) (row : erow) (h : editorUpdateSyntaxFuel fuel E k = some E')
    (hidx : Indexed E) (hrow : E.row[k]? = some row) :
    E'.row[k]? = syntaxRow E.syn (seedAt E k) row := by
  have hk : k < E.row.length := (List.getElem?_eq_some.1 hrow).1
  have hrk := Indexed_idx E hidx k row hrow
  cases fuel with
  | zero => simp [editorUpdateSyntaxFuel] at h
  | succ n =>
    unfold editorUpdateSyntaxFuel at h
    simp only [hrow] at h
    cases hsyn : E.syn with
    | none =>
      simp only [hsyn] at h
      injection h with h
      rw [← h, setRow_getElem?_self _ _ _ hk]
      rfl
    | some syn =>
      simp only [hsyn] at h
      split at h
      · exact absurd h (by simp)
      · rename_i sd hsd
        have hsd2 := seed_eq_seedAt E k row _ hrk sd hsd
        subst hsd2
        split at h
        · exact absurd h (by simp)
        · rename_i s returned hscan
          simp only [syntaxRow, hscan]
          split_ifs at h with hret hcas
          · injection h with h
            rw [← h, setRow_getElem?_self _ _ _ hk]
            simp [hret]
          · split at h
            · exact absurd h (by simp)
            · rename_i E2 hE2
              have h3 : (E.setRow k { row with hl := s.hl }).strip = E.strip :=
                setRow_strip E k row _ hrow rfl
              have h2 := editorUpdateSyntaxFuel_below _ _ _ _ hE2
                (IdxAbove_of_strip _ _ h3 (IdxAbove_of_Indexed E hidx)) k (by omega)
              rw [setRow_getElem?_self _ _ _ hk] at h2
              simp only [h2] at h
              injection h with h
              have hl2 : k < E2.row.length := (List.getElem?_eq_some.1 h2).1
              rw [← h, setRow_getElem?_self _ _ _ hl2]
              simp [hret]
          · injection h with h
            rw [← h, setRow_getElem?_self _ _ _ hk]
            simp [hret]

/-! ## The flags of the language definition -/

theorem scanStep_flags (syn : editorSyntax) (f : Nat) (render : List Nat) (size : Nat)
    (s : Scan) : scanStep { syn with flags := f } render size s = scanStep syn render size s :=
  rfl

theorem scanLoop_flags (syn : editorSyntax) (f : Nat) (render : List Nat) (size : Nat) :
    ∀ (fuel : Nat) (s : Scan),
      scanLoop { syn with flags := f } render size fuel s = scanLoop syn render size fuel s := by
  intro fuel
  induction fuel with
  | zero => intro s; rfl
  | succ n ih =>
    intro s
    unfold scanLoop
    rw [scanStep_flags]
    split_ifs
    · rfl
    · rfl
    · rfl
    · cases scanStep syn render size s with
      | ret s1 => rfl
      | next s1 => exact ih s1

theorem scanRow_flags (syn : editorSyntax) (f : Nat) (render : List Nat) (rsize size : Nat)
    (seed : Bool) :
    scanRow { syn with flags := f } render rsize size seed = scanRow syn render rsize size seed :=
  scanLoop_flags syn f render size _ _

theorem scanRowOk_flags (syn : editorSyntax) (f : Nat) (render : List Nat) (rsize size : Nat)
    (seed : Bool) :
    scanRowOk { syn with flags := f } render rsize size seed =
      scanRowOk syn render rsize size seed := by
  unfold scanRowOk
  rw [scanRow_flags]

theorem editorUpdateSyntaxFuel_flags (f : Nat) :
    ∀ (fuel : Nat) (E : editorConfig) (k : Nat),
      editorUpdateSyntaxFuel fuel (withFlags E f) k =
        (editorUpdateSyntaxFuel fuel E k).map (withFlags · f) := by
  intro fuel
  induction fuel with
  | zero => intro E k; rfl
  | succ n ih =>
    intro E k
    unfold editorUpdateSyntaxFuel
    have hrow : (withFlags E f).row = E.row := rfl
    rw [hrow]
    cases hr : E.row[k]? with
    | none => rfl
    | some row =>
      simp only []
      cases hsyn : E.syn with
      | none =>
        have : (withFlags E f).syn = none := by simp [withFlags, hsyn]
        rw [this]
        simp only [Option.map_some']
        rfl
      | some syn =>
        have : (withFlags E f).syn = some { syn with flags := f } := by simp [withFlags, hsyn]
        rw [this]
        simp only []
        have hE0 : ((withFlags E f).setRow k
            { row with hl := List.replicate row.rsize HL_NORMAL }).row =
            (E.setRow k { row with hl := List.replicate row.rsize HL_NORMAL }).row := rfl
        rw [hE0]
        cases hseed : (if row.idx > 0 then
            ((E.setRow k { row with hl := List.replicate row.rsize HL_NORMAL }).row[row.idx - 1]?).map
              editorRowHasOpenComment else some false) with
        | none => rfl
        | some sd =>
          simp only []
          rw [scanRowOk_flags]
          cases hscan : scanRowOk syn row.render row.rsize row.size sd with
          | none => rfl
          | some r =>
            obtain ⟨s, returned⟩ := r
            simp only []
            have hnum : (withFlags E f).numrows = E.numrows := rfl
            rw [hnum]
            split_ifs with hret hcas
            · rfl
            · have hE1 : (withFlags E f).setRow k { row with hl := s.hl } =
                  withFlags (E.setRow k { row with hl := s.hl }) f := rfl
              rw [hE1, ih]
              cases hE2 : editorUpdateSyntaxFuel n (E.setRow k { row with hl := s.hl })
                  (row.idx + 1) with
              | none => rfl
              | some E2 =>
                simp only [Option.map_some']
                have : (withFlags E2 f).row = E2.row := rfl
                rw [this]
                cases hr2 : E2.row[k]? with
                | none => rfl
                | some r2 => rfl
            · rfl

/-- C13, as amended: `editorUpdateSyntax` does not consult the flags of the
language definition. For every document, every row and every value `f` of the
flags, the call with the flags replaced by `f` returns exactly when the call
with the original flags does, and leaves the same rows, hence the same classes
`HL_NUMBER` and `HL_STRING`. -/
theorem editorUpdateSyntax_ignores_flags (E : editorConfig) (k f : Nat) :
    (editorUpdateSyntax (withFlags E f) k).map editorConfig.row =
      (editorUpdateSyntax E k).map editorConfig.row := by
  unfold editorUpdateSyntax
  have hnum : (withFlags E f).numrows = E.numrows := rfl
  rw [hnum, editorUpdateSyntaxFuel_flags, Option.map_map]
  rfl

/-- C13 fails as stated: with the C definition of the registry and its flags
set to 0, so that neither number nor string highlighting is enabled, the row
`1 "a"` has its digit classified `HL_NUMBER` and its quoted string
`HL_STRING`. -/
theorem editorUpdateSyntax_flags_off :
    (HLDB.head?.map fun s => ({ s with flags := 0 } : editorSyntax).flags) = some 0 ∧
    highlightOf (insertLines (emptyDoc (HLDB.head?.map fun s => { s with flags := 0 }))
        [bytes "1 \"a\""]) =
      some [([HL_NUMBER, HL_NORMAL, HL_STRING, HL_STRING, HL_STRING], false)] := by
  decide

/-! ## Rendering, row deletion and the cursor: evaluations -/

theorem tabPad_eq (n : Nat) : ∀ (r : List Nat), 7 - r.length % 8 ≤ n →
    tabPad n r = r ++ List.replicate (7 - r.length % 8) 32 := by
  induction n with
  | zero =>
    intro r h
    have : 7 - r.length % 8 = 0 := by omega
    simp [tabPad, this]
  | succ n ih =>
    intro r h
    unfold tabPad
    split_ifs with h0
    · rw [ih (r ++ [32]) (by simp; omega)]
      have : 7 - r.length % 8 = (7 - (r ++ [32]).length % 8) + 1 := by simp; omega
      rw [this, List.replicate_succ]
      simp
    · have : 7 - r.length % 8 = 0 := by omega
      simp [this]

theorem renderByte_tab (r : List Nat) :
    renderByte r TAB = r ++ List.replicate (8 - (r.length + 1) % 8) 32 := by
  unfold renderByte
  rw [if_pos rfl, tabPad_eq 8 _ (by omega)]
  have : 8 - (r.length + 1) % 8 = (7 - (r ++ [32]).length % 8) + 1 := by simp; omega
  rw [this, List.replicate_succ]
  simp

/-- C3 (what the code does instead): a row that holds a single tab is rendered
by `editorUpdateRow` to seven spaces, not eight, and in general the render
column right behind an expanded tab is congruent to 7 modulo 8, so it is never a
multiple of 8. -/
theorem editorUpdateRow_tab_seven :
    (insertLines (emptyDoc none) [[TAB]]).map
        (fun E => E.row.map fun r => (r.render, r.rsize)) =
      some [(List.replicate 7 32, 7)] ∧
    ∀ r : List Nat, (renderByte r TAB).length % 8 = 7 := by
  refine ⟨by decide, ?_⟩
  intro r
  rw [renderByte_tab]
  simp
  omega

/-- C4 (what the code does instead): `editorUpdateRow` copies every byte other
than a tab into the render unchanged, printable or not; the row that holds the
single byte 1 is rendered to that same byte, which is not printable. -/
theorem editorUpdateRow_nonprint_kept :
    (insertLines (emptyDoc none) [[1]]).map
        (fun E => E.row.map fun r => (r.render, r.rsize)) = some [([1], 1)] ∧
    isprint 1 = false ∧
    ∀ (r : List Nat) (c : Nat), c ≠ TAB → renderByte r c = r ++ [c] := by
  refine ⟨by decide, by decide, ?_⟩
  intro r c hc
  simp [renderByte, hc]

/-- C2 (where the code departs from the claim): in the document with the rows
"a" and "b", which carry `idx` 0 and 1, `editorDelRow(0)` leaves the single row
"b" with `idx = 2` at offset 0, since the loop over the moved rows increments
`idx`. -/
theorem editorDelRow_idx_off :
    (insertLines (emptyDoc none) [[97], [98]]).map
        (fun E => E.row.map fun r => (r.idx, r.chars)) = some [(0, [97]), (1, [98])] ∧
    ((insertLines (emptyDoc none) [[97], [98]]).bind fun E => editorDelRow E 0).map
        (fun E => (E.numrows, E.row.map fun r => (r.idx, r.chars))) = some (1, [(2, [98])]) := by
  decide

/-- C6 (where the code departs from the claim): on the row "ab",
`editorRowDelChar(row, 0)` leaves the raw content "b" of size 1, but the stored
render is "b" followed by a NUL byte with `rsize = 2` and two highlight classes,
while the render of "b" is "b" alone: `editorUpdateRow` runs in front of
`row->size--`. -/
theorem editorRowDelChar_render_stale :
    ((insertLines (emptyDoc none) [[97, 98]]).bind fun E => editorRowDelChar E 0 0).map
        (fun E => E.row.map fun r => (r.raw, r.size, r.render, r.rsize, r.hl.length)) =
      some [([98], 1, [98, 0], 2, 2)] ∧
    renderBytes [98] = [98] := by
  decide

/-- C11 (where the code departs from the claim): with the C definition active,
the row "//", tab, "x" has 4 raw bytes and 8 render bytes; the scan meets the
marker at render index 0 and the `memset` classifies `size - i = 4` bytes, so
the render bytes 4 to 7 stay `HL_NORMAL`. In the row tab, "// y" the marker is
met at render index 7, behind `size = 5`: the count of the `memset` is negative
and the write runs past the array. -/
theorem editorUpdateSyntax_comment_tail_short :
    (insertLines (emptyDoc HLDB.head?) [[47, 47, TAB, 120]]).map
        (fun E => E.row.map fun r => (r.size, r.rsize, r.hl)) =
      some [(4, 8, List.replicate 4 HL_COMMENT ++ List.replicate 4 HL_NORMAL)] ∧
    (HLDB.head?.bind fun syn =>
        scanRow syn (renderBytes (TAB :: bytes "// y")) 11 5 false).map
        (fun r => (r.1.i, r.2, r.1.overrun)) = some (7, true, true) := by
  decide

/-- C14 (where the code departs from the claim): the filename "a.c.c" ends in
".c", yet `editorSelectSyntaxHighlight` selects nothing for it: `strstr` returns
the first occurrence of ".c", which is not at the end, and no other occurrence
is tried. The filename "a.c" selects the C definition. -/
theorem editorSelectSyntaxHighlight_first_occurrence :
    (editorSelectSyntaxHighlight (emptyDoc none) (bytes "a.c.c")).syn = none ∧
    strstr (bytes "a.c.c") (bytes ".c") = some 1 ∧
    (editorSelectSyntaxHighlight (emptyDoc none) (bytes "a.c")).syn = HLDB.head? ∧
    HLDB.head?.isSome = true := by
  decide

/-- C15 (where the code departs from the claim): on a screen of 24 rows and 10
columns, with the document of a row of 15 bytes and an empty row and the cursor
at the origin, the keys Down and Backspace leave `coloff = -4` (and `cx = 19`):
in the merge branch of `editorDelChar` the shift `(screencols - cx) + 1` is
negative. -/
theorem editorDelChar_coloff_negative :
    ((insertLines { emptyDoc none with screencols := 10 } [List.replicate 15 97, []]).bind
        fun E => applyOps E [.move .ARROW_DOWN, .delChar]).map
        (fun E => (E.cx, E.cy, E.rowoff, E.coloff, E.lines.map List.length)) =
      some (19, 0, 0, -4, [15]) := by
  decide

/-- C16 (where the code departs from the claim): with the C definition active,
the render of the two bytes quote, backslash (`n = 2`) ends inside a string with
a trailing backslash; the scan writes `hl[i + 1]` at index 2, outside `[0, 2)`,
and moves `p` to index 3, past the terminator at index 2. -/
theorem scanRow_trailing_backslash_overrun :
    (HLDB.head?.bind fun syn => scanRow syn [34, 92] 2 2 false).map
        (fun r => (r.1.i, r.1.overrun, r.1.hl)) =
      some (3, true, [HL_STRING, HL_STRING]) := by
  decide

theorem renderFrom_tabs_length (n : Nat) : ∀ r : List Nat, r.length % 8 = 7 →
    (renderFrom r (List.replicate n TAB)).length = r.length + 8 * n := by
  induction n with
  | zero => intro r _; rfl
  | succ n ih =>
    intro r hr
    have h1 : renderFrom r (List.replicate (n + 1) TAB) =
        renderFrom (renderByte r TAB) (List.replicate n TAB) := rfl
    have h2 : (renderByte r TAB).length = r.length + 8 := by
      rw [renderByte_tab, List.length_append, List.length_replicate]
      omega
    rw [h1, ih _ (by omega), h2]
    omega

theorem renderBytes_tabs_length (n : Nat) :
    (renderBytes (List.replicate (n + 1) TAB)).length = 8 * n + 7 := by
  have h1 : renderBytes (List.replicate (n + 1) TAB) =
      renderFrom (renderByte [] TAB) (List.replicate n TAB) := rfl
  have h2 : (renderByte [] TAB).length = 7 := by
    rw [renderByte_tab, List.length_append, List.length_replicate]
    rfl
  rw [h1, renderFrom_tabs_length n _ (by omega), h2]
  omega

theorem countTabs_replicate (n : Nat) : countTabs (List.replicate n TAB) = n := by
  unfold countTabs
  exact List.count_replicate_self TAB n

/-- C20 (where the code departs from the claim): a row of `2 ^ 29` tab bytes
passes the size guard of `editorUpdateRow`, because the product `tabs * 8` is
computed in `unsigned int` and wraps around to 0; `2 ^ 29 + 1` bytes are
reserved for the render, which has `2 ^ 32 - 1` bytes. -/
theorem editorUpdateRow_guard_wraps :
    Fits (List.replicate 536870912 TAB) ∧
    allocsize 536870912 (countTabs (List.replicate 536870912 TAB)) = 536870913 ∧
    renderAlloc 536870912 (countTabs (List.replicate 536870912 TAB)) = 536870913 ∧
    (renderBytes (List.replicate 536870912 TAB)).length = 4294967295 := by
  have hc := countTabs_replicate 536870912
  have hl := renderBytes_tabs_length 536870911
  refine ⟨?_, ?_, ?_, ?_⟩
  · unfold Fits
    rw [hc, List.length_replicate]
    decide
  · rw [hc]
    decide
  · rw [hc]
    decide
  · exact hl

/-- C22 (where the code departs from the claim). (1) On a screen of 2 rows and
80 columns, with the document "a", "b", "c" and the cursor at the origin, the
keys Down, Down, Up leave the view scrolled by one row with the cursor on the
top screen row at column 0 (`rowoff = 1`, `cy = 0`, `cx = 0`, `coloff = 0`); the
key Left then runs `E.cy--` and leaves `cy = -1`. (2) On a screen of 24 rows and
10 columns, with a row of 15 bytes and an empty row, the keys Down and Backspace
merge the rows and leave `cx = 19`, behind the last screen column. -/
theorem editorMoveCursor_cursor_off_screen :
    ((insertLines { emptyDoc none with screenrows := 2 } [bytes "a", bytes "b", bytes "c"]).bind
        fun E => applyOps E [.move .ARROW_DOWN, .move .ARROW_DOWN, .move .ARROW_UP]).map
        (fun E => (E.cx, E.cy, E.rowoff, E.coloff)) =
      some (0, 0, 1, 0) ∧
    ((insertLines { emptyDoc none with screenrows := 2 } [bytes "a", bytes "b", bytes "c"]).bind
        fun E => applyOps E [.move .ARROW_DOWN, .move .ARROW_DOWN, .move .ARROW_UP,
          .move .ARROW_LEFT]).map
        (fun E => (E.cx, E.cy, E.rowoff, E.coloff)) =
      some (1, -1, 1, 0) ∧
    ((insertLines { emptyDoc none with screencols := 10 } [List.replicate 15 97, []]).bind
        fun E => applyOps E [.move .ARROW_DOWN, .delChar]).map
        (fun E => (E.cx, E.cy, E.rowoff, E.coloff)) =
      some (19, 0, 0, -4) := by
  decide

/-! ## Keyword runs -/

theorem OnlyFrom_refl (a : Nat) (P : HL → Prop) (h : List HL) : OnlyFrom a P h h :=
  ⟨rfl, fun _ _ hw => Or.inl hw⟩

theorem OnlyFrom_trans {a b : Nat} {P : HL → Prop} {h h1 h2 : List HL}
    (h01 : OnlyFrom a P h h1) (h12 : OnlyFrom b P h1 h2) (hab : a ≤ b) : OnlyFrom a P h h2 := by
  refine ⟨h12.1.trans h01.1, fun n w hw => ?_⟩
  rcases h12.2 n w hw with h' | ⟨hb, hp⟩
  · exact h01.2 n w h'
  · exact Or.inr ⟨by omega, hp⟩

theorem OnlyFrom_before {a : Nat} {P : HL → Prop} {h h1 : List HL} (h01 : OnlyFrom a P h h1)
    (n : Nat) (hn : n < a) : h1[n]? = h[n]? := by
  cases hw : h1[n]? with
  | some w =>
    rcases h01.2 n w hw with h' | ⟨ha, _⟩
    · exact h'.symm
    · omega
  | none =>
    have h1' : h1.length ≤ n := List.getElem?_eq_none_iff.1 hw
    exact (List.getElem?_eq_none_iff.2 (by rw [← h01.1]; exact h1')).symm

theorem Scan.put_only (s : Scan) (j : Nat) (v : HL) (P : HL → Prop) (hv : P v) (a : Nat)
    (ha : a ≤ j) : OnlyFrom a P s.hl (s.put j v).hl := by
  refine ⟨Scan.put_length s j v, fun n w hw => ?_⟩
  unfold Scan.put at hw
  split_ifs at hw with hj
  · by_cases hn : n = j
    · subst hn
      simp only [List.getElem?_set_self hj] at hw
      injection hw with hw
      exact Or.inr ⟨ha, hw ▸ hv⟩
    · simp only [List.getElem?_set_ne (Ne.symm hn)] at hw
      exact Or.inl hw
  · exact Or.inl hw

theorem Scan.fill_getElem? (s : Scan) (j n : Nat) (v : HL) (m : Nat) :
    (s.fill j n v).hl[m]? =
      if j ≤ m ∧ m < j + n ∧ m < s.hl.length then some v else s.hl[m]? := by
  simp only [Scan.fill]
  by_cases hm : m < s.hl.length
  · by_cases h1 : m < j
    · rw [List.append_assoc, List.getElem?_append_left (by simp; omega)]
      rw [List.getElem?_take_of_lt h1]
      rw [if_neg (by omega)]
    · by_cases h2 : m < j + n
      · rw [List.getElem?_append_left (by simp; omega)]
        rw [List.getElem?_append_right (by simp; omega)]
        rw [if_pos ⟨by omega, h2, hm⟩]
        rw [List.getElem?_replicate_of_lt (by simp; omega)]
      · rw [List.getElem?_append_right (by simp; omega)]
        rw [if_neg (by omega)]
        simp only [List.length_append, List.length_take, List.length_replicate,
          List.getElem?_drop]
        congr 1
        omega
  · rw [if_neg (by omega)]
    rw [List.getElem?_eq_none_iff.2 (by simp; omega), List.getElem?_eq_none_iff.2 (by omega)]

theorem Scan.fill_only (s : Scan) (j n : Nat) (v : HL) (P : HL → Prop) (hv : P v) (a : Nat)
    (ha : a ≤ j) : OnlyFrom a P s.hl (s.fill j n v).hl := by
  refine ⟨Scan.fill_length s j n v, fun m w hw => ?_⟩
  rw [Scan.fill_getElem?] at hw
  split_ifs at hw with h
  · injection hw with hw
    exact Or.inr ⟨by omega, hw ▸ hv⟩
  · exact Or.inl hw

theorem StepOK_of_only (syn : editorSyntax) (render : List Nat) (s s1 : Scan)
    (h : OnlyFrom s.i (fun w => ¬ isKeywordClass w) s.hl s1.hl) (hi : s.i ≤ s1.i) :
    StepOK syn render s s1 := by
  refine ⟨hi, h.1, fun n hn => OnlyFrom_before h n hn, fun j v hv hj => ?_⟩
  rcases h.2 j v hj with h' | ⟨_, hnk⟩
  · exact Or.inl h'
  · exact absurd hv hnk

theorem Scan.put_hl_congr (s0 s : Scan) (h : s0.hl = s.hl) (j : Nat) (v : HL) :
    (s0.put j v).hl = (s.put j v).hl := by
  unfold Scan.put
  rw [h]
  split_ifs <;> simp [h]

theorem Scan.fill_hl_congr (s0 s : Scan) (h : s0.hl = s.hl) (j n : Nat) (v : HL) :
    (s0.fill j n v).hl = (s.fill j n v).hl := by
  simp [Scan.fill, h]

theorem not_kw_string : ¬ isKeywordClass HL_STRING := by unfold isKeywordClass; simp

theorem not_kw_mlcomment : ¬ isKeywordClass HL_MLCOMMENT := by unfold isKeywordClass; simp

theorem not_kw_comment : ¬ isKeywordClass HL_COMMENT := by unfold isKeywordClass; simp

theorem not_kw_nonprint : ¬ isKeywordClass HL_NONPRINT := by unfold isKeywordClass; simp

theorem not_kw_number : ¬ isKeywordClass HL_NUMBER := by unfold isKeywordClass; simp

theorem put_put_only (s : Scan) (v : HL) (hv : ¬ isKeywordClass v) :
    OnlyFrom s.i (fun w => ¬ isKeywordClass w) s.hl ((s.put s.i v).put (s.i + 1) v).hl :=
  OnlyFrom_trans (Scan.put_only s s.i v _ hv s.i (Nat.le_refl _))
    (Scan.put_only (s.put s.i v) (s.i + 1) v _ hv s.i (by omega)) (Nat.le_refl _)

theorem scanWord_ok (syn : editorSyntax) (render : List Nat) (c : Nat) (s : Scan) :
    StepOK syn render s (scanWord syn render c s) := by
  unfold scanWord
  generalize hs0 : (if (isdigit c && !s.prev_sep && s.i == 0) = true then
    ({ s with overrun := true } : Scan) else s) = s0
  have hhl : s0.hl = s.hl := by
    rw [← hs0]; split_ifs <;> rfl
  simp only []
  split_ifs with hnum hp
  · apply StepOK_of_only
    · show OnlyFrom s.i _ s.hl (s0.put s.i HL_NUMBER).hl
      rw [Scan.put_hl_congr s0 s hhl]
      exact Scan.put_only s s.i _ _ not_kw_number s.i (Nat.le_refl _)
    · show s.i ≤ s.i + 1
      omega
  · cases hk : List.find? (kwMatches render s.i) syn.keywords with
    | none =>
      apply StepOK_of_only
      · show OnlyFrom s.i _ s.hl s0.hl
        rw [hhl]; exact OnlyFrom_refl _ _ _
      · show s.i ≤ s.i + 1
        omega
    | some kw =>
      simp only []
      have hfill : ∀ m, (s0.fill s.i (kwLen kw) (kwClass kw)).hl[m]? =
          if s.i ≤ m ∧ m < s.i + kwLen kw ∧ m < s.hl.length then some (kwClass kw)
          else s.hl[m]? := by
        intro m
        rw [Scan.fill_hl_congr s0 s hhl, Scan.fill_getElem?]
      refine ⟨?_, ?_, ?_, ?_⟩
      · show s.i ≤ s.i + kwLen kw
        omega
      · show (s0.fill s.i (kwLen kw) (kwClass kw)).hl.length = s.hl.length
        rw [Scan.fill_length, hhl]
      · intro n hn
        show (s0.fill s.i (kwLen kw) (kwClass kw)).hl[n]? = s.hl[n]?
        rw [hfill, if_neg (by omega)]
      · intro j v hv hj
        change (s0.fill s.i (kwLen kw) (kwClass kw)).hl[j]? = some v at hj
        rw [hfill] at hj
        split_ifs at hj with hr
        · refine Or.inr ⟨kw, ⟨hp, hk, hr.1, hr.2.1, ?_⟩, rfl⟩
          intro n hn1 hn2 hn3
          show (s0.fill s.i (kwLen kw) (kwClass kw)).hl[n]? = some (kwClass kw)
          have : (s0.fill s.i (kwLen kw) (kwClass kw)).hl.length = s.hl.length := by
            rw [Scan.fill_length, hhl]
          change n < (s0.fill s.i (kwLen kw) (kwClass kw)).hl.length at hn3
          rw [hfill, if_pos ⟨hn1, hn2, by omega⟩]
        · exact Or.inl hj
  · apply StepOK_of_only
    · show OnlyFrom s.i _ s.hl s0.hl
      rw [hhl]; exact OnlyFrom_refl _ _ _
    · show s.i ≤ s.i + 1
      omega

theorem scanStep_ok (syn : editorSyntax) (render : List Nat) (size : Nat) (s : Scan) :
    StepOK syn render s (scanStep syn render size s).state := by
  unfold scanStep
  simp only []
  split_ifs
  · apply StepOK_of_only
    · show OnlyFrom s.i _ s.hl (scanLineComment size s).hl
      unfold scanLineComment
      split_ifs
      · exact Scan.fill_only s s.i _ _ _ not_kw_comment s.i (Nat.le_refl _)
      · exact Scan.fill_only s s.i _ _ _ not_kw_comment s.i (Nat.le_refl _)
    · show s.i ≤ (scanLineComment size s).i
      unfold scanLineComment
      split_ifs <;> exact Nat.le_refl _
  · apply StepOK_of_only
    · show OnlyFrom s.i _ s.hl (scanInComment syn _ _ s).hl
      unfold scanInComment
      split_ifs
      · exact put_put_only s _ not_kw_mlcomment
      · exact Scan.put_only s s.i _ _ not_kw_mlcomment s.i (Nat.le_refl _)
    · show s.i ≤ (scanInComment syn _ _ s).i
      unfold scanInComment
      split_ifs <;> simp
  · apply StepOK_of_only
    · exact put_put_only s _ not_kw_mlcomment
    · show s.i ≤ s.i + 2
      omega
  · apply StepOK_of_only
    · show OnlyFrom s.i _ s.hl (scanInString _ s).hl
      unfold scanInString
      split_ifs
      all_goals first
        | exact put_put_only s _ not_kw_string
        | exact Scan.put_only s s.i _ _ not_kw_string s.i (Nat.le_refl _)
    · show s.i ≤ (scanInString _ s).i
      unfold scanInString
      split_ifs <;> simp
  · apply StepOK_of_only
    · exact Scan.put_only s s.i _ _ not_kw_string s.i (Nat.le_refl _)
    · show s.i ≤ s.i + 1
      omega
  · apply StepOK_of_only
    · exact Scan.put_only s s.i _ _ not_kw_nonprint s.i (Nat.le_refl _)
    · show s.i ≤ s.i + 1
      omega
  · exact scanWord_ok syn render _ s

theorem scanStep_ok_of_eq (syn : editorSyntax) (render : List Nat) (size : Nat) (s s1 : Scan)
    (h : scanStep syn render size s = .next s1 ∨ scanStep syn render size s = .ret s1) :
    StepOK syn render s s1 := by
  have hok := scanStep_ok syn render size s
  rcases h with h | h <;> (rw [h] at hok; exact hok)

theorem scanLoop_before (syn : editorSyntax) (render : List Nat) (size : Nat) :
    ∀ (fuel : Nat) (s res : Scan) (ret : Bool),
      scanLoop syn render size fuel s = some (res, ret) →
      res.hl.length = s.hl.length ∧ ∀ n, n < s.i → res.hl[n]? = s.hl[n]? := by
  intro fuel
  induction fuel with
  | zero => intro s res ret h; simp [scanLoop] at h
  | succ f ih =>
    intro s res ret h
    unfold scanLoop at h
    split_ifs at h with hov hlt h0
    · injection h with h
      injection h with h1 h2
      subst h1
      exact ⟨rfl, fun _ _ => rfl⟩
    · injection h with h
      injection h with h1 h2
      subst h1
      exact ⟨rfl, fun _ _ => rfl⟩
    · injection h with h
      injection h with h1 h2
      subst h1
      exact ⟨rfl, fun _ _ => rfl⟩
    · cases hs : scanStep syn render size s with
      | ret s1 =>
        rw [hs] at h
        injection h with h
        injection h with h1 h2
        subst h1
        have hok := scanStep_ok_of_eq syn render size s s1 (Or.inr hs)
        exact ⟨hok.2.1, hok.2.2.1⟩
      | next s1 =>
        rw [hs] at h
        have hok := scanStep_ok_of_eq syn render size s s1 (Or.inl hs)
        obtain ⟨hl, hb⟩ := ih s1 res ret h
        exact ⟨hl.trans hok.2.1, fun n hn => (hb n (by have := hok.1; omega)).trans
          (hok.2.2.1 n hn)⟩

theorem scanLoop_keyword (syn : editorSyntax) (render : List Nat) (size : Nat) :
    ∀ (fuel : Nat) (s res : Scan) (ret : Bool),
      scanLoop syn render size fuel s = some (res, ret) →
      ∀ j v, isKeywordClass v → res.hl[j]? = some v →
        s.hl[j]? = some v ∨
          ∃ t ∈ scanStates syn render size fuel s, ∃ kw, KeywordRun syn render t res.hl j kw := by
  intro fuel
  induction fuel with
  | zero => intro s res ret h; simp [scanLoop] at h
  | succ f ih =>
    intro s res ret h j v hv hj
    unfold scanLoop at h
    unfold scanStates
    split_ifs at h with hov hlt h0
    · injection h with h
      injection h with h1 h2
      subst h1
      exact Or.inl hj
    · injection h with h
      injection h with h1 h2
      subst h1
      exact Or.inl hj
    · injection h with h
      injection h with h1 h2
      subst h1
      exact Or.inl hj
    · rw [if_neg hov, if_neg hlt, if_neg h0]
      cases hs : scanStep syn render size s with
      | ret s1 =>
        rw [hs] at h
        injection h with h
        injection h with h1 h2
        subst h1
        have hok := scanStep_ok_of_eq syn render size s s1 (Or.inr hs)
        rcases hok.2.2.2 j v hv hj with h' | ⟨kw, hrun, _⟩
        · exact Or.inl h'
        · exact Or.inr ⟨s, by simp, kw, hrun⟩
      | next s1 =>
        rw [hs] at h
        have hok := scanStep_ok_of_eq syn render size s s1 (Or.inl hs)
        simp only []
        rcases ih s1 res ret h j v hv hj with h' | ⟨t, ht, kw, hrun⟩
        · rcases hok.2.2.2 j v hv h' with h'' | ⟨kw, hrun, hi1⟩
          · exact Or.inl h''
          · refine Or.inr ⟨s, by simp, kw, hrun.1, hrun.2.1, hrun.2.2.1, hrun.2.2.2.1, ?_⟩
            intro n hn1 hn2 hn3
            obtain ⟨hl, hb⟩ := scanLoop_before syn render size f s1 res ret h
            rw [hb n (by omega)]
            exact hrun.2.2.2.2 n hn1 hn2 (by omega)
        · exact Or.inr ⟨t, by simp [ht], kw, hrun⟩

theorem kwClass_eq_iff (kw : List Nat) : kwClass kw = HL_KEYWORD2 ↔ kw.getLast? = some 124 := by
  unfold kwClass
  split_ifs with h <;> simp [h]

/-! ## The open-comment test and the state of the scan -/

theorem getD_ne_zero_of_mem (render : List Nat) (hnul : ∀ c ∈ render, c ≠ 0) (i : Nat)
    (hi : i < render.length) : render.getD i 0 ≠ 0 := by
  rw [List.getD_eq_getElem _ _ hi]
  exact hnul _ (List.getElem_mem hi)

theorem take_set_self {α : Type} (l : List α) (i : Nat) (a : α) :
    (l.set i a).take i = l.take i := by
  rw [List.set_take, List.set_eq_of_length_le (by simp)]

theorem openAt_eq (render : List Nat) (hl : List HL) :
    openAt render hl =
      (render.length != 0 && hl.getD (render.length - 1) HL_NORMAL == HL_MLCOMMENT &&
        (decide (render.length < 2) ||
          (render.getD (render.length - 2) 0 != 42 ||
            render.getD (render.length - 1) 0 != 47))) := rfl

theorem openAt_false_of (render : List Nat) (hl : List HL)
    (h : hl[render.length - 1]? ≠ some HL_MLCOMMENT) : openAt render hl = false := by
  rw [openAt_eq]
  have h1 : (hl.getD (render.length - 1) HL_NORMAL == HL_MLCOMMENT) = false := by
    rw [List.getD_eq_getElem?_getD]
    cases hx : hl[render.length - 1]? with
    | none => rfl
    | some v =>
      rw [hx] at h
      simp only [Option.getD_some, beq_eq_false_iff_ne, ne_eq]
      exact fun hv => h (by rw [hv])
  rw [h1]
  simp

theorem openAt_false_end (render : List Nat) (hl : List HL) (hn : 2 ≤ render.length)
    (h1 : render.getD (render.length - 2) 0 = 42) (h2 : render.getD (render.length - 1) 0 = 47) :
    openAt render hl = false := by
  rw [openAt_eq, h1, h2]
  have : decide (render.length < 2) = false := by simp; omega
  rw [this]
  simp

theorem openAt_true_of (render : List Nat) (hl : List HL) (hn : 1 ≤ render.length)
    (h : hl[render.length - 1]? = some HL_MLCOMMENT)
    (hend : ¬ (2 ≤ render.length ∧ render.getD (render.length - 2) 0 = 42 ∧
      render.getD (render.length - 1) 0 = 47)) : openAt render hl = true := by
  rw [openAt_eq]
  have h1 : (hl.getD (render.length - 1) HL_NORMAL == HL_MLCOMMENT) = true := by
    rw [List.getD_eq_getElem?_getD, h]
    rfl
  have h0 : (render.length != 0) = true := by
    simp only [bne_iff_ne, ne_eq]
    omega
  rw [h1, h0]
  simp only [Bool.and_self, Bool.true_and, Bool.or_eq_true, decide_eq_true_eq, bne_iff_ne, ne_eq]
  by_cases h2 : render.length < 2
  · exact Or.inl h2
  · right
    by_contra hc
    push_neg at hc
    exact hend ⟨by omega, hc.1, hc.2⟩

theorem Scan.put_getElem?_ne (s : Scan) (k j : Nat) (v : HL) (h : k ≠ j) :
    (s.put k v).hl[j]? = s.hl[j]? := by
  unfold Scan.put
  split_ifs
  · exact List.getElem?_set_ne h
  · rfl

theorem Scan.put_getElem?_self (s : Scan) (k : Nat) (v : HL) (h : k < s.hl.length) :
    (s.put k v).hl[k]? = some v := by
  unfold Scan.put
  rw [if_pos h]
  exact List.getElem?_set_self h

theorem leadingSpace_isspace (render : List Nat) :
    ∀ j, j < leadingSpace render → isspace (render.getD j 0) = true := by
  induction render with
  | nil => intro j hj; simp [leadingSpace] at hj
  | cons c cs ih =>
    intro j hj
    unfold leadingSpace at hj
    by_cases hc : (c != 0 && isspace c) = true
    · rw [List.takeWhile_cons, if_pos hc] at hj
      cases j with
      | zero =>
        simp only [Bool.and_eq_true] at hc
        simpa using hc.2
      | succ m =>
        have hm : m < leadingSpace cs := by
          unfold leadingSpace
          simp only [List.length_cons] at hj
          omega
        simpa using ih m hm
    · rw [List.takeWhile_cons, if_neg hc] at hj
      simp at hj

@[simp] theorem Scan.put_in_comment (s : Scan) (j : Nat) (v : HL) :
    (s.put j v).in_comment = s.in_comment := by
  unfold Scan.put; split <;> rfl

theorem CommentInv_of_only (render : List Nat) (s s1 : Scan) (hinv : CommentInv render s)
    (hi : s.i < render.length) (hic : s1.in_comment = false)
    (honly : OnlyFrom s.i (fun w => w ≠ HL_MLCOMMENT) s.hl s1.hl) (hmono : s.i ≤ s1.i) :
    CommentInv render s1 ∧ openAt render s1.hl = s1.in_comment := by
  have hno : ∀ j, s.i ≤ j → s1.hl[j]? ≠ some HL_MLCOMMENT := by
    intro j hj hc
    rcases honly.2 j _ hc with h | ⟨_, h⟩
    · exact hinv.2.1 j hj h
    · exact h rfl
  refine ⟨⟨honly.1.trans hinv.1, fun j hj => hno j (by omega), ?_⟩, ?_⟩
  · intro h
    rw [hic] at h
    exact absurd h (by decide)
  · rw [hic]
    exact openAt_false_of render s1.hl (hno _ (by omega))

theorem Scan.put_overrun (s : Scan) (j : Nat) (v : HL) (h : j < s.hl.length) :
    (s.put j v).overrun = s.overrun := by
  unfold Scan.put
  rw [if_pos h]

theorem scanInComment_overrun (syn : editorSyntax) (render : List Nat) (s : Scan)
    (hmce : syn.multiline_comment_end = [42, 47]) (hlen : s.hl.length = render.length)
    (hi : render.getD s.i 0 ≠ 0) :
    (scanInComment syn (render.getD s.i 0) (render.getD (s.i + 1) 0) s).overrun = s.overrun := by
  have hin : s.i < render.length := getD_ne_zero_lt _ _ hi
  have h0 : syn.multiline_comment_end.getD 0 0 = 42 := by rw [hmce]; rfl
  have h1 : syn.multiline_comment_end.getD 1 0 = 47 := by rw [hmce]; rfl
  unfold scanInComment
  rw [h0, h1]
  by_cases hend : (render.getD s.i 0 == 42 && render.getD (s.i + 1) 0 == 47) = true
  · rw [if_pos hend]
    simp only [Bool.and_eq_true, beq_iff_eq] at hend
    have hin1 : s.i + 1 < render.length := getD_ne_zero_lt _ _ (by rw [hend.2]; decide)
    show ((s.put s.i HL_MLCOMMENT).put (s.i + 1) HL_MLCOMMENT).overrun = _
    rw [Scan.put_overrun _ _ _ (by simp [hlen]; omega), Scan.put_overrun _ _ _ (by omega)]
  · rw [if_neg hend]
    show (s.put s.i HL_MLCOMMENT).overrun = _
    rw [Scan.put_overrun _ _ _ (by omega)]

theorem scanOpenComment_overrun (render : List Nat) (s : Scan)
    (hlen : s.hl.length = render.length) (hi : render.getD s.i 0 ≠ 0)
    (hc1 : render.getD (s.i + 1) 0 = 42) : (scanOpenComment s).overrun = s.overrun := by
  have hin : s.i < render.length := getD_ne_zero_lt _ _ hi
  have hin1 : s.i + 1 < render.length := getD_ne_zero_lt _ _ (by rw [hc1]; decide)
  unfold scanOpenComment
  show ((s.put s.i HL_MLCOMMENT).put (s.i + 1) HL_MLCOMMENT).overrun = _
  rw [Scan.put_overrun _ _ _ (by simp [hlen]; omega), Scan.put_overrun _ _ _ (by omega)]

theorem scanInComment_inv (syn : editorSyntax) (render : List Nat) (s : Scan)
    (hmce : syn.multiline_comment_end = [42, 47])
    (hslip : ¬ (3 ≤ render.length ∧ render.getD (render.length - 3) 0 = 47 ∧
      render.getD (render.length - 2) 0 = 42 ∧ render.getD (render.length - 1) 0 = 47))
    (hinv : CommentInv render s) (hic : s.in_comment = true) (hi : render.getD s.i 0 ≠ 0) :
    CommentInv render (scanInComment syn (render.getD s.i 0) (render.getD (s.i + 1) 0) s) ∧
      (render.length ≤ (scanInComment syn (render.getD s.i 0) (render.getD (s.i + 1) 0) s).i →
        openAt render (scanInComment syn (render.getD s.i 0) (render.getD (s.i + 1) 0) s).hl =
          (scanInComment syn (render.getD s.i 0) (render.getD (s.i + 1) 0) s).in_comment) := by
  have hin : s.i < render.length := getD_ne_zero_lt _ _ hi
  obtain ⟨hlen, hno, htail⟩ := hinv
  have h0 : syn.multiline_comment_end.getD 0 0 = 42 := by rw [hmce]; rfl
  have h1 : syn.multiline_comment_end.getD 1 0 = 47 := by rw [hmce]; rfl
  unfold scanInComment
  rw [h0, h1]
  by_cases hend : (render.getD s.i 0 == 42 && render.getD (s.i + 1) 0 == 47) = true
  · rw [if_pos hend]
    simp only [Bool.and_eq_true, beq_iff_eq] at hend
    have hin1 : s.i + 1 < render.length := getD_ne_zero_lt _ _ (by rw [hend.2]; decide)
    refine ⟨⟨?_, ?_, ?_⟩, ?_⟩
    · show ((s.put s.i HL_MLCOMMENT).put (s.i + 1) HL_MLCOMMENT).hl.length = _
      simp [hlen]
    · intro j hj
      show ((s.put s.i HL_MLCOMMENT).put (s.i + 1) HL_MLCOMMENT).hl[j]? ≠ _
      have hj' : s.i + 2 ≤ j := hj
      rw [Scan.put_getElem?_ne _ _ _ _ (by omega), Scan.put_getElem?_ne _ _ _ _ (by omega)]
      exact hno j (by omega)
    · intro h
      have h' : false = true := h
      cases h'
    · intro hn
      have hn' : render.length ≤ s.i + 2 := hn
      have hn2 : render.length = s.i + 2 := by omega
      show openAt render _ = false
      apply openAt_false_end render _ (by omega)
      · rw [hn2]; exact hend.1
      · rw [hn2]; exact hend.2
  · rw [if_neg hend]
    simp only [Bool.and_eq_true, beq_iff_eq] at hend
    refine ⟨⟨?_, ?_, ?_⟩, ?_⟩
    · show (s.put s.i HL_MLCOMMENT).hl.length = _
      simp [hlen]
    · intro j hj
      show (s.put s.i HL_MLCOMMENT).hl[j]? ≠ _
      have hj' : s.i + 1 ≤ j := hj
      rw [Scan.put_getElem?_ne _ _ _ _ (by omega)]
      exact hno j (by omega)
    · intro _
      right
      show ¬ (1 ≤ s.i + 1 ∧ render.getD (s.i + 1 - 1) 0 = 42 ∧ render.getD (s.i + 1) 0 = 47)
      rw [Nat.add_sub_cancel]
      exact fun hc => hend ⟨hc.2.1, hc.2.2⟩
    · intro hn
      have hn' : render.length ≤ s.i + 1 := hn
      have hn2 : render.length = s.i + 1 := by omega
      show openAt render (s.put s.i HL_MLCOMMENT).hl = (s.put s.i HL_MLCOMMENT).in_comment
      rw [Scan.put_in_comment, hic]
      apply openAt_true_of render _ (by omega)
      · rw [hn2, Nat.add_sub_cancel]
        exact Scan.put_getElem?_self s s.i _ (by omega)
      · intro hc
        rw [hn2] at hc
        have e1 : s.i + 1 - 2 = s.i - 1 := by omega
        rw [e1, Nat.add_sub_cancel] at hc
        rcases htail hic with ⟨ht1, ht2, ht3⟩ | ht
        · apply hslip
          rw [hn2]
          have e3 : s.i + 1 - 3 = s.i - 2 := by omega
          rw [e3, e1, Nat.add_sub_cancel]
          exact ⟨by omega, ht2, hc.2.1, hc.2.2⟩
        · exact ht ⟨by omega, hc.2.1, hc.2.2⟩

theorem scanOpenComment_inv (render : List Nat) (s : Scan) (hinv : CommentInv render s)
    (hc : render.getD s.i 0 = 47) (hc1 : render.getD (s.i + 1) 0 = 42) :
    CommentInv render (scanOpenComment s) ∧
      (render.length ≤ (scanOpenComment s).i →
        openAt render (scanOpenComment s).hl = (scanOpenComment s).in_comment) := by
  obtain ⟨hlen, hno, -⟩ := hinv
  have hin1 : s.i + 1 < render.length := getD_ne_zero_lt _ _ (by rw [hc1]; decide)
  unfold scanOpenComment
  refine ⟨⟨?_, ?_, ?_⟩, ?_⟩
  · show ((s.put s.i HL_MLCOMMENT).put (s.i + 1) HL_MLCOMMENT).hl.length = _
    simp [hlen]
  · intro j hj
    show ((s.put s.i HL_MLCOMMENT).put (s.i + 1) HL_MLCOMMENT).hl[j]? ≠ _
    have hj' : s.i + 2 ≤ j := hj
    rw [Scan.put_getElem?_ne _ _ _ _ (by omega), Scan.put_getElem?_ne _ _ _ _ (by omega)]
    exact hno j (by omega)
  · intro _
    left
    show 2 ≤ s.i + 2 ∧ render.getD (s.i + 2 - 2) 0 = 47 ∧ render.getD (s.i + 2 - 1) 0 = 42
    exact ⟨by omega, by simpa using hc, by simpa using hc1⟩
  · intro hn
    have hn' : render.length ≤ s.i + 2 := hn
    have hn2 : render.length = s.i + 2 := by omega
    show openAt render ((s.put s.i HL_MLCOMMENT).put (s.i + 1) HL_MLCOMMENT).hl = true
    apply openAt_true_of render _ (by omega)
    · rw [hn2]
      exact Scan.put_getElem?_self _ (s.i + 1) _ (by simp [hlen]; omega)
    · intro hcc
      rw [hn2] at hcc
      have e : s.i + 2 - 1 = s.i + 1 := by omega
      rw [e, hc1] at hcc
      exact absurd hcc.2.2 (by decide)

theorem put_put_noml (s : Scan) (v : HL) (hv : v ≠ HL_MLCOMMENT) :
    OnlyFrom s.i (fun w => w ≠ HL_MLCOMMENT) s.hl ((s.put s.i v).put (s.i + 1) v).hl :=
  OnlyFrom_trans (Scan.put_only s s.i v _ hv s.i (Nat.le_refl _))
    (Scan.put_only (s.put s.i v) (s.i + 1) v _ hv s.i (by omega)) (Nat.le_refl _)

theorem kwClass_ne_mlcomment (kw : List Nat) : kwClass kw ≠ HL_MLCOMMENT := by
  unfold kwClass
  split_ifs <;> decide

theorem scanInString_noml (c : Nat) (s : Scan) :
    OnlyFrom s.i (fun w => w ≠ HL_MLCOMMENT) s.hl (scanInString c s).hl ∧
      (scanInString c s).in_comment = s.in_comment ∧ s.i ≤ (scanInString c s).i := by
  unfold scanInString
  split_ifs
  all_goals refine ⟨?_, by simp, by simp⟩
  all_goals first
    | exact put_put_noml s _ (by decide)
    | exact Scan.put_only s s.i _ _ (by decide) s.i (Nat.le_refl _)

theorem scanQuote_noml (c : Nat) (s : Scan) :
    OnlyFrom s.i (fun w => w ≠ HL_MLCOMMENT) s.hl (scanQuote c s).hl ∧
      (scanQuote c s).in_comment = s.in_comment ∧ s.i ≤ (scanQuote c s).i := by
  unfold scanQuote
  exact ⟨Scan.put_only s s.i _ _ (by decide) s.i (Nat.le_refl _), by simp, by simp⟩

theorem scanNonprint_noml (s : Scan) :
    OnlyFrom s.i (fun w => w ≠ HL_MLCOMMENT) s.hl (scanNonprint s).hl ∧
      (scanNonprint s).in_comment = s.in_comment ∧ s.i ≤ (scanNonprint s).i := by
  unfold scanNonprint
  exact ⟨Scan.put_only s s.i _ _ (by decide) s.i (Nat.le_refl _), by simp, by simp⟩

theorem scanWord_noml (syn : editorSyntax) (render : List Nat) (c : Nat) (s : Scan) :
    OnlyFrom s.i (fun w => w ≠ HL_MLCOMMENT) s.hl (scanWord syn render c s).hl ∧
      (scanWord syn render c s).in_comment = s.in_comment ∧
      s.i ≤ (scanWord syn render c s).i := by
  unfold scanWord
  generalize hs0 : (if (isdigit c && !s.prev_sep && s.i == 0) = true then
    ({ s with overrun := true } : Scan) else s) = s0
  have hhl : s0.hl = s.hl := by
    rw [← hs0]; split_ifs <;> rfl
  have hic : s0.in_comment = s.in_comment := by
    rw [← hs0]; split_ifs <;> rfl
  simp only []
  split_ifs with hnum hp
  · refine ⟨?_, ?_, ?_⟩
    · show OnlyFrom s.i _ s.hl (s0.put s.i HL_NUMBER).hl
      rw [Scan.put_hl_congr s0 s hhl]
      exact Scan.put_only s s.i _ _ (by decide) s.i (Nat.le_refl _)
    · show (s0.put s.i HL_NUMBER).in_comment = _
      rw [Scan.put_in_comment, hic]
    · show s.i ≤ s.i + 1
      omega
  · cases hk : List.find? (kwMatches render s.i) syn.keywords with
    | none =>
      refine ⟨?_, hic, ?_⟩
      · show OnlyFrom s.i _ s.hl s0.hl
        rw [hhl]; exact OnlyFrom_refl _ _ _
      · show s.i ≤ s.i + 1
        omega
    | some kw =>
      refine ⟨?_, hic, ?_⟩
      · show OnlyFrom s.i _ s.hl (s0.fill s.i (kwLen kw) (kwClass kw)).hl
        rw [Scan.fill_hl_congr s0 s hhl]
        exact Scan.fill_only s s.i (kwLen kw) (kwClass kw) (fun w => w ≠ HL_MLCOMMENT)
          (kwClass_ne_mlcomment kw) s.i (Nat.le_refl _)
      · show s.i ≤ s.i + kwLen kw
        omega
  · refine ⟨?_, hic, ?_⟩
    · show OnlyFrom s.i _ s.hl s0.hl
      rw [hhl]; exact OnlyFrom_refl _ _ _
    · show s.i ≤ s.i + 1
      omega

theorem scanStep_comment_inv (syn : editorSyntax) (render : List Nat) (size : Nat) (s s1 : Scan)
    (hmcs : syn.multiline_comment_start = [47, 42])
    (hmce : syn.multiline_comment_end = [42, 47])
    (hslip : ¬ (3 ≤ render.length ∧ render.getD (render.length - 3) 0 = 47 ∧
      render.getD (render.length - 2) 0 = 42 ∧ render.getD (render.length - 1) 0 = 47))
    (hinv : CommentInv render s) (hi : render.getD s.i 0 ≠ 0) (hov : s.overrun = false)
    (hstep : scanStep syn render size s = .next s1) :
    CommentInv render s1 ∧
      ((render.length ≤ s1.i ∨ s1.overrun = true) → openAt render s1.hl = s1.in_comment) := by
  have hin : s.i < render.length := getD_ne_zero_lt _ _ hi
  have h0 : syn.multiline_comment_start.getD 0 0 = 47 := by rw [hmcs]; rfl
  have h1 : syn.multiline_comment_start.getD 1 0 = 42 := by rw [hmcs]; rfl
  unfold scanStep at hstep
  simp only [] at hstep
  split_ifs at hstep with hsl hic hop hstr hq hnp
  · injection hstep with hstep
    rw [← hstep]
    have h := scanInComment_inv syn render s hmce hslip hinv hic hi
    refine ⟨h.1, fun hc => ?_⟩
    rcases hc with hc | hc
    · exact h.2 hc
    · rw [scanInComment_overrun syn render s hmce hinv.1 hi, hov] at hc
      cases hc
  · injection hstep with hstep
    rw [← hstep]
    rw [h0, h1] at hop
    simp only [Bool.and_eq_true, beq_iff_eq] at hop
    have h := scanOpenComment_inv render s hinv hop.1 hop.2
    refine ⟨h.1, fun hc => ?_⟩
    rcases hc with hc | hc
    · exact h.2 hc
    · rw [scanOpenComment_overrun render s hinv.1 hi hop.2, hov] at hc
      cases hc
  · injection hstep with hstep
    rw [← hstep]
    obtain ⟨ho, hc, hm⟩ := scanInString_noml (render.getD s.i 0) s
    have h := CommentInv_of_only render s _ hinv hin (by rw [hc]; simpa using hic) ho hm
    exact ⟨h.1, fun _ => h.2⟩
  · injection hstep with hstep
    rw [← hstep]
    obtain ⟨ho, hc, hm⟩ := scanQuote_noml (render.getD s.i 0) s
    have h := CommentInv_of_only render s _ hinv hin (by rw [hc]; simpa using hic) ho hm
    exact ⟨h.1, fun _ => h.2⟩
  · injection hstep with hstep
    rw [← hstep]
    obtain ⟨ho, hc, hm⟩ := scanNonprint_noml s
    have h := CommentInv_of_only render s _ hinv hin (by rw [hc]; simpa using hic) ho hm
    exact ⟨h.1, fun _ => h.2⟩
  · injection hstep with hstep
    rw [← hstep]
    obtain ⟨ho, hc, hm⟩ := scanWord_noml syn render (render.getD s.i 0) s
    have h := CommentInv_of_only render s _ hinv hin (by rw [hc]; simpa using hic) ho hm
    exact ⟨h.1, fun _ => h.2⟩

theorem scanLoop_comment_inv (syn : editorSyntax) (render : List Nat) (size : Nat)
    (hmcs : syn.multiline_comment_start = [47, 42])
    (hmce : syn.multiline_comment_end = [42, 47])
    (hslip : ¬ (3 ≤ render.length ∧ render.getD (render.length - 3) 0 = 47 ∧
      render.getD (render.length - 2) 0 = 42 ∧ render.getD (render.length - 1) 0 = 47))
    (hnul : ∀ c ∈ render, c ≠ 0) :
    ∀ (fuel : Nat) (s res : Scan), CommentInv render s →
      ((render.length ≤ s.i ∨ s.overrun = true) → openAt render s.hl = s.in_comment) →
      scanLoop syn render size fuel s = some (res, false) →
      openAt render res.hl = res.in_comment := by
  intro fuel
  induction fuel with
  | zero => intro s res _ _ h; simp [scanLoop] at h
  | succ f ih =>
    intro s res hinv hfin h
    unfold scanLoop at h
    split_ifs at h with hov hlt h0
    · injection h with h
      injection h with h1 h2
      subst h1
      exact hfin (Or.inr hov)
    · injection h with h
      injection h with h1 h2
      subst h1
      exact hfin (Or.inl (by omega))
    · injection h with h
      injection h with h1 h2
      subst h1
      apply hfin
      left
      by_contra hc
      exact getD_ne_zero_of_mem render hnul s.i (by omega) h0
    · cases hs : scanStep syn render size s with
      | ret s1 =>
        rw [hs] at h
        injection h with h
        injection h with h1 h2
        exact absurd h2 (by decide)
      | next s1 =>
        rw [hs] at h
        obtain ⟨hinv1, hfin1⟩ := scanStep_comment_inv syn render size s s1 hmcs hmce hslip
          hinv h0 (by simpa using hov) hs
        exact ih s1 res hinv1 hfin1 h

theorem suffix_of_getD (render : List Nat) (h3 : 3 ≤ render.length)
    (ha : render.getD (render.length - 3) 0 = 47) (hb : render.getD (render.length - 2) 0 = 42)
    (hc : render.getD (render.length - 1) 0 = 47) : [47, 42, 47] <:+ render := by
  have hget : ∀ i, i < render.length → render[i]? = some (render.getD i 0) := by
    intro i hi
    rw [List.getD_eq_getElem?_getD, List.getElem?_eq_getElem hi]
    rfl
  have hdrop : render.drop (render.length - 3) = [47, 42, 47] := by
    apply List.ext_getElem?
    intro j
    rw [List.getElem?_drop]
    match j with
    | 0 => rw [Nat.add_zero, hget _ (by omega), ha]; rfl
    | 1 =>
      have e : render.length - 3 + 1 = render.length - 2 := by omega
      rw [e, hget _ (by omega), hb]; rfl
    | 2 =>
      have e : render.length - 3 + 2 = render.length - 1 := by omega
      rw [e, hget _ (by omega), hc]; rfl
    | j + 3 =>
      rw [List.getElem?_eq_none_iff.2 (by omega)]
      rfl
  exact ⟨render.take (render.length - 3), by rw [← hdrop, List.take_append_drop]⟩

theorem scanRow_open_agrees (syn : editorSyntax) (render : List Nat) (size : Nat) (seed : Bool)
    (s : Scan) (hmcs : syn.multiline_comment_start = [47, 42])
    (hmce : syn.multiline_comment_end = [42, 47]) (hnul : ∀ c ∈ render, c ≠ 0)
    (hw : leadingSpace render < render.length) (hslip : ¬ [47, 42, 47] <:+ render)
    (hscan : scanRow syn render render.length size seed = some (s, false)) :
    openAt render s.hl = s.in_comment := by
  apply scanLoop_comment_inv syn render size hmcs hmce
    (fun hc => hslip (suffix_of_getD render hc.1 hc.2.1 hc.2.2.1 hc.2.2.2)) hnul _ _ s ?_ ?_ hscan
  · refine ⟨by simp [scanInit], ?_, ?_⟩
    · intro j _ hc
      simp only [scanInit] at hc
      by_cases hj : j < render.length
      · rw [List.getElem?_replicate_of_lt hj] at hc
        exact absurd hc (by decide)
      · rw [List.getElem?_eq_none_iff.2 (by simp; omega)] at hc
        exact absurd hc (by simp)
    · intro _
      right
      intro hc
      have hsp := leadingSpace_isspace render (leadingSpace render - 1)
        (by have := hc.1; simp only [scanInit] at this; omega)
      have h42 : render.getD (leadingSpace render - 1) 0 = 42 := hc.2.1
      rw [h42] at hsp
      exact absurd hsp (by decide)
  · intro hc
    rcases hc with hc | hc
    · have hc' : render.length ≤ leadingSpace render := hc
      omega
    · cases hc

/-- C21, as amended: with a language definition whose multi-line comment markers
are "/*" and "*/" active, take a row whose render (of length `rsize`) holds no
NUL byte, has a byte that is not white space and does not end in the three bytes
"/*/", and a scan of it that runs to the end of the render (the loop is not left
by the `return` of the single-line branch). Then `editorRowHasOpenComment`, on
the row with the highlight the scan wrote, is true exactly when the scan
finished with `in_comment` set. For the row "a /* b" both are true, for the row
"a /* b */" both are false. -/
theorem editorRowHasOpenComment_agrees :
    (∀ (syn : editorSyntax) (row : erow) (seed : Bool) (s : Scan),
      syn.multiline_comment_start = bytes "/*" → syn.multiline_comment_end = bytes "*/" →
      row.rsize = row.render.length → (∀ c ∈ row.render, c ≠ 0) →
      leadingSpace row.render < row.render.length → ¬ bytes "/*/" <:+ row.render →
      scanRow syn row.render row.rsize row.size seed = some (s, false) →
      editorRowHasOpenComment { row with hl := s.hl } = s.in_comment) ∧
    HLDB.head?.bind (fun syn => scanFlag syn (bytes "a /* b") 6 false) =
      some (true, false, true) ∧
    HLDB.head?.bind (fun syn => scanFlag syn (bytes "a /* b */") 9 false) =
      some (false, false, false) := by
  refine ⟨?_, by decide, by decide⟩
  intro syn row seed s hmcs hmce hrs hnul hw hslip hscan
  rw [hrs] at hscan
  have h := scanRow_open_agrees syn row.render row.size seed s hmcs hmce hnul hw hslip hscan
  rw [← h]
  unfold openAt editorRowHasOpenComment
  simp only [hrs]

theorem editorRowHasOpenComment_agrees_witness :
    scanRow (HLDB.headD starSyntax) rowOpenTail.render rowOpenTail.rsize rowOpenTail.size false =
      some (scanOpenTail, false) ∧
    editorRowHasOpenComment { rowOpenTail with hl := scanOpenTail.hl } =
      scanOpenTail.in_comment :=
  ⟨by decide, editorRowHasOpenComment_agrees.1 (HLDB.headD starSyntax) rowOpenTail false
    scanOpenTail (by decide) (by decide) (by decide) (by decide) (by decide) (by decide)
    (by decide)⟩

/-- C21 fails as stated. With the C definition active and the scan running to
the end of the render in each case: (1) the row "/*/" opens a comment and never
closes it, the scan finishes with `in_comment` set, and
`editorRowHasOpenComment` is false, because the last two bytes read `*/`;
(2) the empty row behind an open comment: the scan finishes with `in_comment`
set and `editorRowHasOpenComment` is false (`rsize` is 0); (3) the same for a
row of two blanks, which the scan skips. (4) With a definition whose markers are
`(*` and `*)`, the row "(* a */" finishes with `in_comment` set and
`editorRowHasOpenComment` is false. -/
theorem editorRowHasOpenComment_disagrees :
    HLDB.head?.bind (fun syn => scanFlag syn (bytes "/*/") 3 false) =
      some (true, false, false) ∧
    HLDB.head?.bind (fun syn => scanFlag syn [] 0 true) = some (true, false, false) ∧
    HLDB.head?.bind (fun syn => scanFlag syn (bytes "  ") 2 true) =
      some (true, false, false) ∧
    scanFlag starSyntax (bytes "(* a */") 7 false = some (true, false, false) := by
  decide

/-! ## Editing operations on rows whose scan leaves the buffers -/

/-- C1 (where the code departs from the claim): with the C definition active,
opening the one-line document tab, "//" has no result. The render of the line
is seven blanks and "//", the scan meets the marker at render index 7, behind
`size = 3`, and the count `row->size - i` of the `memset` is negative: the call
of `editorInsertRow` does not return, and `editorRowsToString` is never
reached. Without a language definition the same line is opened and serialised
to the line and a newline, of length 4. -/
theorem editorRowsToString_tab_comment_line :
    insertLines (emptyDoc HLDB.head?) [TAB :: bytes "//"] = none ∧
    (HLDB.head?.bind fun syn => scanRow syn (renderBytes (TAB :: bytes "//")) 9 3 false).map
        (fun r => (r.1.i, r.2, r.1.overrun)) = some (7, true, true) ∧
    (insertLines (emptyDoc none) [TAB :: bytes "//"]).bind editorRowsToString =
      some (TAB :: bytes "//" ++ [10], 4) := by
  decide

/-- C5 (where the code departs from the claim): with the C definition active and
the single row tab, "/" (which is opened and highlighted without harm),
`editorRowInsertChar(row, 2, '/')` has no result: the new content tab, "//" is
rendered to seven blanks and "//", and the scan runs the `memset` of the `//`
branch with the negative count `3 - 7`. The claim asks for the row tab, "//" of
size 3, which is what the call leaves without a language definition. -/
theorem editorRowInsertChar_tab_comment :
    (insertLines (emptyDoc HLDB.head?) [[TAB, 47]]).map
        (fun E => E.row.map fun r => (r.raw, r.size)) = some [([TAB, 47], 2)] ∧
    ((insertLines (emptyDoc HLDB.head?) [[TAB, 47]]).bind fun E =>
        editorRowInsertChar E 0 2 47) = none ∧
    ((insertLines (emptyDoc none) [[TAB, 47]]).bind fun E => editorRowInsertChar E 0 2 47).map
        (fun E => E.row.map fun r => (r.raw, r.size)) = some [([TAB, 47, 47], 3)] := by
  decide

/-- C7 (where the code departs from the claim). (1) On a screen of 10 columns,
without a language definition, take the rows "aaaaaaaaaaaaaaa" (15 bytes), "",
"b", "" and the keys Down, Backspace, Down, Down: the cursor is then at
`cx = 4`, `coloff = -4` on the last of three rows, file position (2, 0).
Backspace merges the empty row 2 into row 1, which holds "b" of size 1,
and leaves `cx = 1`, `coloff = -4`: the file position is (1, -3), not (1, 1).
(2) With the C definition active and the rows tab, "/" and "/", Backspace at the
start of row 1 has no result: the merged row tab, "//" makes the scan run the
`memset` of the `//` branch with a negative count. -/
theorem editorDelChar_merge_column :
    ((insertLines { emptyDoc none with screencols := 10 }
          [List.replicate 15 97, [], bytes "b", []]).bind
        fun E => applyOps E [.move .ARROW_DOWN, .delChar, .move .ARROW_DOWN,
          .move .ARROW_DOWN]).map
        (fun E => ([E.cx, E.coloff, E.rowoff + E.cy, E.coloff + E.cx],
          (E.row.take E.numrows).map erow.raw)) =
      some ([4, -4, 2, 0], [List.replicate 15 97, bytes "b", []]) ∧
    ((insertLines { emptyDoc none with screencols := 10 }
          [List.replicate 15 97, [], bytes "b", []]).bind
        fun E => applyOps E [.move .ARROW_DOWN, .delChar, .move .ARROW_DOWN,
          .move .ARROW_DOWN, .delChar]).map
        (fun E => ([E.cx, E.coloff, E.rowoff + E.cy, E.coloff + E.cx],
          (E.row.take E.numrows).map erow.raw)) =
      some ([1, -4, 1, -3], [List.replicate 15 97, bytes "b"]) ∧
    ((insertLines (emptyDoc HLDB.head?) [[TAB, 47], [47]]).bind
        fun E => applyOps E [.move .ARROW_DOWN]).map
        (fun E => (E.rowoff + E.cy, E.coloff + E.cx, E.numrows)) = some (1, 0, 2) ∧
    ((insertLines (emptyDoc HLDB.head?) [[TAB, 47], [47]]).bind
        fun E => applyOps E [.move .ARROW_DOWN, .delChar]) = none := by
  decide

/-- C8 (where the code departs from the claim): with the C definition active,
the row of twenty "a", a tab and "//" is opened without harm (the marker sits at
render index 23, which is its `size`). With the cursor moved to column 20 by
twenty presses of Right, `editorInsertNewline` has no result: the row it
inserts holds tab, "//", and the scan of that row runs the `memset` of the `//`
branch with the negative count `3 - 7`. Without a language definition the same
keys leave the rows of twenty "a" and of tab, "//" with the cursor at file
position (1, 0), as the claim asks. -/
theorem editorInsertNewline_tab_comment :
    ((insertLines (emptyDoc HLDB.head?) [List.replicate 20 97 ++ TAB :: bytes "//"]).bind
        fun E => applyOps E (List.replicate 20 (.move .ARROW_RIGHT))).map
        (fun E => (E.rowoff + E.cy, E.coloff + E.cx, E.numrows)) = some (0, 20, 1) ∧
    ((insertLines (emptyDoc HLDB.head?) [List.replicate 20 97 ++ TAB :: bytes "//"]).bind
        fun E => applyOps E (List.replicate 20 (.move .ARROW_RIGHT) ++ [.insertNewline])) =
      none ∧
    ((insertLines (emptyDoc none) [List.replicate 20 97 ++ TAB :: bytes "//"]).bind
        fun E => applyOps E (List.replicate 20 (.move .ARROW_RIGHT) ++ [.insertNewline])).map
        (fun E => (E.rowoff + E.cy, E.coloff + E.cx, E.numrows,
          (E.row.take E.numrows).map erow.raw)) =
      some (1, 0, 2, [List.replicate 20 97, TAB :: bytes "//"]) := by
  decide

/-- C9 (where the code departs from the claim): with the C definition active, on
the empty document, the keys tab and "/" are inserted without harm and leave the
row tab, "/" with the cursor at column 2. The third key "/" has no result:
`editorInsertChar` makes the row tab, "//", whose scan runs the `memset` of the
`//` branch with the negative count `3 - 7`. The claim asks for the row tab,
"//" and the cursor at column 3, which is what the three keys leave without a
language definition. -/
theorem editorInsertChar_tab_comment :
    (applyOps (emptyDoc HLDB.head?) [.insertChar TAB, .insertChar 47]).map
        (fun E => (E.rowoff + E.cy, E.coloff + E.cx, (E.row.take E.numrows).map erow.raw)) =
      some (0, 2, [[TAB, 47]]) ∧
    applyOps (emptyDoc HLDB.head?) [.insertChar TAB, .insertChar 47, .insertChar 47] = none ∧
    (applyOps (emptyDoc none) [.insertChar TAB, .insertChar 47, .insertChar 47]).map
        (fun E => (E.rowoff + E.cy, E.coloff + E.cx, (E.row.take E.numrows).map erow.raw)) =
      some (0, 3, [[TAB, 47, 47]]) := by
  decide

/-! ## One call of `editorUpdateSyntax` -/

/-- What a call of `editorUpdateSyntax` that returns has done, with a language
definition active: it read a seed, scanned the row inside the buffers, and
either stored the row (with the new `hl_oc`, unless the scan left by `return`),
or went on into the row `idx + 1` in front of storing `hl_oc`. -/
theorem editorUpdateSyntaxFuel_step (f : Nat) (E : editorConfig) (k : Nat) (E' : editorConfig)
    (syn : editorSyntax) (row : erow) (hsyn : E.syn = some syn) (hrow : E.row[k]? = some row)
    (h : editorUpdateSyntaxFuel (f + 1) E k = some E') :
    ∃ sd s ret, seedRead E k row = some sd ∧
      scanRowOk syn row.render row.rsize row.size sd = some (s, ret) ∧
      ((ret = true ∧ E' = E.setRow k { row with hl := s.hl }) ∨
       (ret = false ∧
          ¬ (row.hl_oc ≠ editorRowHasOpenComment { row with hl := s.hl } ∧
            row.idx + 1 < E.numrows) ∧
          E' = E.setRow k { row with
            hl := s.hl, hl_oc := editorRowHasOpenComment { row with hl := s.hl } }) ∨
       (ret = false ∧ row.hl_oc ≠ editorRowHasOpenComment { row with hl := s.hl } ∧
          row.idx + 1 < E.numrows ∧
          ∃ E2 r2, editorUpdateSyntaxFuel f (E.setRow k { row with hl := s.hl }) (row.idx + 1) =
              some E2 ∧ E2.row[k]? = some r2 ∧
            E' = E2.setRow k { r2 with
              hl_oc := editorRowHasOpenComment { row with hl := s.hl } })) := by
  unfold editorUpdateSyntaxFuel at h
  simp only [hrow, hsyn] at h
  cases hseed : seedRead E k row with
  | none =>
    unfold seedRead at hseed
    rw [hseed] at h
    exact absurd h (by simp)
  | some sd =>
    unfold seedRead at hseed
    rw [hseed] at h
    simp only [] at h
    cases hscan : scanRowOk syn row.render row.rsize row.size sd with
    | none => rw [hscan] at h; exact absurd h (by simp)
    | some res =>
      obtain ⟨s, ret⟩ := res
      rw [hscan] at h
      simp only [] at h
      refine ⟨sd, s, ret, rfl, hscan, ?_⟩
      cases ret with
      | true =>
        simp only [if_true] at h
        injection h with h
        exact Or.inl ⟨rfl, h.symm⟩
      | false =>
        simp only [Bool.false_eq_true, if_false] at h
        split_ifs at h with hcas
        · simp only [Bool.and_eq_true, bne_iff_ne, ne_eq, decide_eq_true_eq] at hcas
          cases hE2 : editorUpdateSyntaxFuel f (E.setRow k { row with hl := s.hl })
              (row.idx + 1) with
          | none => simp [hE2] at h
          | some E2 =>
            simp only [hE2] at h
            cases hr2 : E2.row[k]? with
            | none => simp [hr2] at h
            | some r2 =>
              simp only [hr2] at h
              injection h with h
              exact Or.inr (Or.inr ⟨rfl, hcas.1, hcas.2, E2, r2, rfl, hr2, h.symm⟩)
        · simp only [Bool.and_eq_true, bne_iff_ne, ne_eq, decide_eq_true_eq] at hcas
          injection h with h
          exact Or.inr (Or.inl ⟨rfl, hcas, h.symm⟩)

/-- A call of `editorUpdateSyntax` without a language definition stores the row
with every byte `HL_NORMAL`. -/
theorem editorUpdateSyntaxFuel_nosyn (f : Nat) (E : editorConfig) (k : Nat) (row : erow)
    (hsyn : E.syn = none) (hrow : E.row[k]? = some row) :
    editorUpdateSyntaxFuel (f + 1) E k =
      some (E.setRow k { row with hl := List.replicate row.rsize HL_NORMAL }) := by
  unfold editorUpdateSyntaxFuel
  simp only [hrow, hsyn]

theorem setRow_syn (E : editorConfig) (k : Nat) (r : erow) : (E.setRow k r).syn = E.syn := rfl

theorem setRow_length (E : editorConfig) (k : Nat) (r : erow) :
    (E.setRow k r).row.length = E.row.length := by
  simp [editorConfig.setRow]

/-- After a call of `editorUpdateSyntax` that returns, the highlight of every row
is either what it was or the result of a scan of that row inside the buffers,
and the highlight of the row the call was made on is the result of such a
scan. -/
theorem editorUpdateSyntaxFuel_scanned (syn : editorSyntax) :
    ∀ (fuel : Nat) (E : editorConfig) (k : Nat) (E' : editorConfig),
      E.syn = some syn → editorUpdateSyntaxFuel fuel E k = some E' →
      (∀ (j : Nat) (r' : erow), E'.row[j]? = some r' → ∃ r : erow, E.row[j]? = some r ∧
          r'.strip = r.strip ∧
        (r'.hl = r.hl ∨ ∃ sd s ret,
          scanRowOk syn r.render r.rsize r.size sd = some (s, ret) ∧ r'.hl = s.hl)) ∧
      (∀ row r' : erow, E.row[k]? = some row → E'.row[k]? = some r' → ∃ sd s ret,
          scanRowOk syn row.render row.rsize row.size sd = some (s, ret) ∧ r'.hl = s.hl) := by
  intro fuel
  induction fuel with
  | zero => intro E k E' _ h; simp [editorUpdateSyntaxFuel] at h
  | succ f ih =>
    intro E k E' hsyn h
    cases hrow : E.row[k]? with
    | none =>
      unfold editorUpdateSyntaxFuel at h
      simp [hrow] at h
    | some row =>
      have hk : k < E.row.length := (List.getElem?_eq_some.1 hrow).1
      obtain ⟨sd, s, ret, -, hscan, hcase⟩ := editorUpdateSyntaxFuel_step f E k E' syn row hsyn
        hrow h
      have key : ∀ (X : erow), X.strip = row.strip → X.hl = s.hl →
          (∀ (j : Nat) (r' : erow), (E.setRow k X).row[j]? = some r' → ∃ r : erow,
            E.row[j]? = some r ∧
            r'.strip = r.strip ∧ (r'.hl = r.hl ∨ ∃ sd s ret,
              scanRowOk syn r.render r.rsize r.size sd = some (s, ret) ∧ r'.hl = s.hl)) ∧
          (∀ row' r' : erow, some row = some row' → (E.setRow k X).row[k]? = some r' →
            ∃ sd s ret,
            scanRowOk syn row'.render row'.rsize row'.size sd = some (s, ret) ∧
              r'.hl = s.hl) := by
        intro X hX1 hX2
        constructor
        · intro j r' hj
          by_cases hjk : k = j
          · subst hjk
            rw [setRow_getElem?_self _ _ _ hk] at hj
            injection hj with hj
            subst hj
            exact ⟨row, hrow, hX1, Or.inr ⟨sd, s, ret, hscan, hX2⟩⟩
          · rw [setRow_getElem?_ne _ _ _ _ hjk] at hj
            exact ⟨r', hj, rfl, Or.inl rfl⟩
        · intro row' r' hr hj
          injection hr with hr
          subst hr
          rw [setRow_getElem?_self _ _ _ hk] at hj
          injection hj with hj
          subst hj
          exact ⟨sd, s, ret, hscan, hX2⟩
      rcases hcase with ⟨-, hE⟩ | ⟨-, -, hE⟩ | ⟨-, -, -, E2, r2, hE2, hr2, hE⟩
      · rw [hE]; exact key _ rfl rfl
      · rw [hE]; exact key _ rfl rfl
      · obtain ⟨ihA, -⟩ := ih _ _ _ (by rw [setRow_syn]; exact hsyn) hE2
        have hk2 : k < E2.row.length := (List.getElem?_eq_some.1 hr2).1
        have hrowk : ∀ r', E'.row[k]? = some r' → ∃ sd s ret,
            scanRowOk syn row.render row.rsize row.size sd = some (s, ret) ∧ r'.hl = s.hl := by
          intro r' hj
          rw [hE, setRow_getElem?_self _ _ _ hk2] at hj
          injection hj with hj
          subst hj
          obtain ⟨r, hr, hst, hhl⟩ := ihA k r2 hr2
          rw [setRow_getElem?_self _ _ _ hk] at hr
          injection hr with hr
          subst hr
          rcases hhl with hhl | ⟨sd', s', ret', hsc', hhl⟩
          · exact ⟨sd, s, ret, hscan, hhl⟩
          · exact ⟨sd', s', ret', hsc', hhl⟩
        constructor
        · intro j r' hj
          by_cases hjk : k = j
          · subst hjk
            obtain ⟨sd', s', ret', hsc', hhl⟩ := hrowk r' hj
            refine ⟨row, hrow, ?_, Or.inr ⟨sd', s', ret', hsc', hhl⟩⟩
            rw [hE, setRow_getElem?_self _ _ _ hk2] at hj
            injection hj with hj
            subst hj
            obtain ⟨r, hr, hst, -⟩ := ihA k r2 hr2
            rw [setRow_getElem?_self _ _ _ hk] at hr
            injection hr with hr
            subst hr
            exact hst
          · rw [hE, setRow_getElem?_ne _ _ _ _ hjk] at hj
            obtain ⟨r, hr, hst, hhl⟩ := ihA j r' hj
            rw [setRow_getElem?_ne _ _ _ _ hjk] at hr
            exact ⟨r, hr, hst, hhl⟩
        · intro row' r' hr hj
          injection hr with hr
          subst hr
          exact hrowk r' hj

theorem scanRowOk_eq_some (syn : editorSyntax) (render : List Nat) (rsize size : Nat)
    (seed : Bool) (r : Scan × Bool) (h : scanRowOk syn render rsize size seed = some r) :
    scanRow syn render rsize size seed = some r ∧ r.1.overrun = false := by
  unfold scanRowOk at h
  cases hs : scanRow syn render rsize size seed with
  | none => rw [hs] at h; exact absurd h (by simp)
  | some r0 =>
    rw [hs] at h
    simp only [] at h
    split_ifs at h with hov
    injection h with h
    subst h
    exact ⟨rfl, by simpa using hov⟩

theorem scanRowOk_length (syn : editorSyntax) (render : List Nat) (rsize size : Nat)
    (seed : Bool) (r : Scan × Bool) (h : scanRowOk syn render rsize size seed = some r) :
    r.1.hl.length = rsize := by
  obtain ⟨h1, -⟩ := scanRowOk_eq_some syn render rsize size seed r h
  obtain ⟨r0, hr0, hl⟩ := scanRow_some syn render rsize size seed
  rw [h1] at hr0
  injection hr0 with hr0
  rw [hr0]
  exact hl

/-- C12: with a language definition active, after a call of `editorUpdateSyntax`
on a row that returns, every byte `j` of that row classified `HL_KEYWORD1` or
`HL_KEYWORD2` lies in a run written by one iteration of the scan loop (for the
seed the highlight of the row was written with): the iteration is entered with
`prev_sep` set at an offset `t.i`, `kw` is the first entry of the keyword list
that matches at `t.i`, the run `[t.i, t.i + klen)` holds the text of `kw`
(without the type marker), the byte behind it is a separator (NUL at the end of
the row), every byte of the run has the class of `kw`, and the class is
`HL_KEYWORD2` exactly when `kw` ends in the marker `|`. For the row
"int x return;" the bytes of `int` are `HL_KEYWORD2`, those of `return` are
`HL_KEYWORD1`, and `x`, `;` and the blanks are `HL_NORMAL`; the row "intX" is all
`HL_NORMAL`; the row "auto", listed both without and with the marker, takes the
class of the first entry, `HL_KEYWORD1`. -/
theorem editorUpdateSyntax_keyword_runs :
    (∀ (E E' : editorConfig) (k : Nat) (syn : editorSyntax) (row r' : erow),
      E.syn = some syn → E.row[k]? = some row → editorUpdateSyntax E k = some E' →
      E'.row[k]? = some r' →
      ∀ j v, v = HL_KEYWORD1 ∨ v = HL_KEYWORD2 → r'.hl[j]? = some v →
        ∃ seed, ∃ t ∈ scanStates syn row.render row.size (2 * row.render.length + 2)
              (scanInit row.render row.rsize seed),
            ∃ kw, t.prev_sep = true ∧
              syn.keywords.find? (kwMatches row.render t.i) = some kw ∧
              t.i ≤ j ∧ j < t.i + kwLen kw ∧
              (row.render.drop t.i).take (kwLen kw) = kw.take (kwLen kw) ∧
              is_separator (row.render.getD (t.i + kwLen kw) 0) = true ∧
              (∀ n, t.i ≤ n → n < t.i + kwLen kw → n < row.rsize →
                r'.hl[n]? = some (kwClass kw)) ∧
              (v = HL_KEYWORD2 ↔ kw.getLast? = some 124)) ∧
    highlightOf (insertLines (emptyDoc HLDB.head?) [bytes "int x return;"]) =
      some [(List.replicate 3 HL_KEYWORD2 ++ List.replicate 3 HL_NORMAL ++
        List.replicate 6 HL_KEYWORD1 ++ [HL_NORMAL], false)] ∧
    highlightOf (insertLines (emptyDoc HLDB.head?) [bytes "intX"]) =
      some [(List.replicate 4 HL_NORMAL, false)] ∧
    highlightOf (insertLines (emptyDoc HLDB.head?) [bytes "auto"]) =
      some [(List.replicate 4 HL_KEYWORD1, false)] := by
  refine ⟨?_, by decide, by decide, by decide⟩
  intro E E' k syn row r' hsyn hrow hE' hr' j v hv hj
  obtain ⟨sd, s, returned, hok, hhl⟩ :=
    (editorUpdateSyntaxFuel_scanned syn _ E k E' hsyn hE').2 row r' hrow hr'
  obtain ⟨hscan, -⟩ := scanRowOk_eq_some _ _ _ _ _ _ hok
  have hlen' : s.hl.length = row.rsize := scanRowOk_length _ _ _ _ _ _ hok
  rw [hhl] at hj
  have hjl : j < s.hl.length := (List.getElem?_eq_some.1 hj).1
  refine ⟨sd, ?_⟩
  rcases scanLoop_keyword syn row.render row.size _ _ s returned hscan j v hv hj with
    h' | ⟨t, ht, kw, hp, hfind, h1, h2, hall⟩
  · exfalso
    simp only [scanInit] at h'
    rw [List.getElem?_replicate_of_lt (by rw [← hlen']; exact hjl)] at h'
    injection h' with h'
    rcases hv with hv | hv <;> (rw [hv] at h'; exact absurd h' (by decide))
  · have hm := List.find?_some hfind
    simp only [kwMatches, Bool.and_eq_true, beq_iff_eq] at hm
    refine ⟨t, ht, kw, hp, hfind, h1, h2, hm.1, hm.2, ?_, ?_⟩
    · intro n hn1 hn2 hn3
      rw [hhl]
      exact hall n hn1 hn2 (by omega)
    · have hvj := hall j h1 h2 hjl
      rw [hj] at hvj
      injection hvj with hvj
      rw [hvj]
      exact kwClass_eq_iff kw

theorem editorUpdateSyntax_keyword_runs_witness :
    editorUpdateSyntax docKeywords 0 = some { docKeywords with row := [rowKeywords hlKeywords] } ∧
    ∀ j v, v = HL_KEYWORD1 ∨ v = HL_KEYWORD2 → hlKeywords[j]? = some v →
      ∃ seed, ∃ t ∈ scanStates (HLDB.headD starSyntax) (bytes "int x return;") 13
          (2 * (bytes "int x return;").length + 2)
          (scanInit (bytes "int x return;") 13 seed),
        ∃ kw, t.prev_sep = true ∧
          (HLDB.headD starSyntax).keywords.find? (kwMatches (bytes "int x return;") t.i) =
            some kw ∧
          t.i ≤ j ∧ j < t.i + kwLen kw ∧
          ((bytes "int x return;").drop t.i).take (kwLen kw) = kw.take (kwLen kw) ∧
          is_separator ((bytes "int x return;").getD (t.i + kwLen kw) 0) = true ∧
          (∀ n, t.i ≤ n → n < t.i + kwLen kw → n < 13 →
            hlKeywords[n]? = some (kwClass kw)) ∧
          (v = HL_KEYWORD2 ↔ kw.getLast? = some 124) :=
  ⟨by decide, editorUpdateSyntax_keyword_runs.1 docKeywords
    { docKeywords with row := [rowKeywords hlKeywords] } 0 (HLDB.headD starSyntax)
    (rowKeywords (List.replicate 13 HL_NORMAL)) (rowKeywords hlKeywords)
    (by decide) (by decide) (by decide) (by decide)⟩

/-! ## Idempotence of the highlighter -/

theorem editorUpdateSyntaxTrace_fst :
    ∀ (fuel : Nat) (E : editorConfig) (k : Nat),
      (editorUpdateSyntaxTrace fuel E k).map Prod.fst = editorUpdateSyntaxFuel fuel E k := by
  intro fuel
  induction fuel with
  | zero => intro E k; rfl
  | succ n ih =>
    intro E k
    unfold editorUpdateSyntaxTrace editorUpdateSyntaxFuel
    cases hr : E.row[k]? with
    | none => rfl
    | some row =>
      simp only []
      cases hsyn : E.syn with
      | none => rfl
      | some syn =>
        simp only []
        cases hseed : (if row.idx > 0 then
            ((E.setRow k { row with hl := List.replicate row.rsize HL_NORMAL }).row[row.idx - 1]?).map
              editorRowHasOpenComment else some false) with
        | none => rfl
        | some sd =>
          simp only []
          cases hscan : scanRowOk syn row.render row.rsize row.size sd with
          | none => rfl
          | some r =>
            obtain ⟨s, returned⟩ := r
            simp only []
            split_ifs with hret hcas
            · rfl
            · rw [← ih]
              cases hE2 : editorUpdateSyntaxTrace n (E.setRow k { row with hl := s.hl })
                  (row.idx + 1) with
              | none => rfl
              | some r2 =>
                obtain ⟨E2, calls⟩ := r2
                simp only [Option.map_some']
                cases hr2 : E2.row[k]? with
                | none => rfl
                | some r3 => rfl
            · rfl

theorem editorUpdateSyntaxTrace_strip (fuel : Nat) (E : editorConfig) (k : Nat)
    (E' : editorConfig) (calls : List Nat)
    (h : editorUpdateSyntaxTrace fuel E k = some (E', calls)) : E'.strip = E.strip := by
  have h1 := editorUpdateSyntaxTrace_fst fuel E k
  rw [h] at h1
  exact editorUpdateSyntaxFuel_strip fuel E k E' h1.symm

theorem setRow_self (E : editorConfig) (k : Nat) (r : erow) (h : E.row[k]? = some r) :
    E.setRow k r = E := by
  have hk : k < E.row.length := (List.getElem?_eq_some.1 h).1
  have hr : E.row[k] = r := by
    have := List.getElem?_eq_getElem hk
    rw [h] at this
    exact (Option.some.inj this).symm
  unfold editorConfig.setRow
  have hset : E.row.set k r = E.row := by
    apply List.ext_getElem? 
    intro j
    by_cases hj : j = k
    · subst hj; rw [List.getElem?_set_self hk, h]
    · rw [List.getElem?_set_ne (Ne.symm hj)]
  rw [hset]

theorem open_reset (row : erow) :
    editorRowHasOpenComment { row with hl := List.replicate row.rsize HL_NORMAL } = false := by
  unfold editorRowHasOpenComment
  have : (List.replicate row.rsize HL_NORMAL).getD (row.rsize - 1) HL_NORMAL = HL_NORMAL := by
    rw [List.getD_eq_getElem?_getD]
    by_cases h : row.rsize - 1 < row.rsize
    · rw [List.getElem?_replicate_of_lt h]; rfl
    · rw [List.getElem?_eq_none_iff.2 (by simp; omega)]; rfl
  simp only [this]
  simp

theorem seedRead_eq (E : editorConfig) (k : Nat) (row : erow) :
    seedRead E k row =
      if row.idx = 0 then some false
      else if row.idx - 1 = k then (if k < E.row.length then some false else none)
      else (E.row[row.idx - 1]?).map editorRowHasOpenComment := by
  unfold seedRead
  by_cases h0 : row.idx = 0
  · rw [if_neg (by omega), if_pos h0]
  · rw [if_pos (by omega), if_neg h0]
    by_cases h1 : row.idx - 1 = k
    · rw [if_pos h1, h1]
      by_cases hk : k < E.row.length
      · rw [if_pos hk, setRow_getElem?_self _ _ _ hk]
        simp only [Option.map_some']
        rw [open_reset]
      · rw [if_neg hk, List.getElem?_eq_none_iff.2 (by rw [setRow_length]; omega)]
        rfl
    · rw [if_neg h1, setRow_getElem?_ne _ _ _ _ (Ne.symm h1)]

theorem seedRead_congr (E E' : editorConfig) (k : Nat) (row row' : erow)
    (hi : row'.idx = row.idx) (hl : E'.row.length = E.row.length)
    (hp : row.idx - 1 ≠ k → E'.row[row.idx - 1]? = E.row[row.idx - 1]?) :
    seedRead E' k row' = seedRead E k row := by
  rw [seedRead_eq, seedRead_eq, hi, hl]
  split_ifs with h0 h1
  · rfl
  · rfl
  · rfl
  · rw [hp h1]

theorem erow_eta_hl (row : erow) (hl : List HL) (h : row.hl = hl) :
    ({ row with hl := hl } : erow) = row := by
  subst h
  rfl

/-- A call of `editorUpdateSyntax` on a row that already carries the highlight
and the `hl_oc` the call computes returns the state unchanged and enters no other
row. -/
theorem editorUpdateSyntaxTrace_stay (f : Nat) (E : editorConfig) (k : Nat)
    (syn : editorSyntax) (row : erow) (sd : Bool) (s : Scan) (ret : Bool)
    (hsyn : E.syn = some syn) (hrow : E.row[k]? = some row)
    (hseed : seedRead E k row = some sd)
    (hscan : scanRowOk syn row.render row.rsize row.size sd = some (s, ret))
    (hhl : row.hl = s.hl) (hoc : ret = false → row.hl_oc = editorRowHasOpenComment row) :
    editorUpdateSyntaxTrace (f + 1) E k = some (E, [k]) := by
  unfold seedRead at hseed
  unfold editorUpdateSyntaxTrace
  simp only [hrow, hsyn, hseed, hscan]
  have e1 : ({ row with hl := s.hl } : erow) = row := erow_eta_hl row s.hl hhl
  cases ret with
  | true =>
    simp only [if_true]
    rw [e1, setRow_self E k row hrow]
  | false =>
    simp only [Bool.false_eq_true, if_false]
    have e2 : editorRowHasOpenComment { row with hl := s.hl } = row.hl_oc := by
      rw [e1]; exact (hoc rfl).symm
    rw [e2]
    simp only [bne_self_eq_false, Bool.false_and, Bool.false_eq_true, if_false]
    have e3 : ({ row with hl := s.hl, hl_oc := row.hl_oc } : erow) = row := by
      rw [← hhl]
    rw [e3, setRow_self E k row hrow]

theorem editorUpdateSyntaxTrace_fixed (fuel : Nat) (E E' : editorConfig) (k : Nat)
    (hidx : IdxAbove E) (h : editorUpdateSyntaxFuel fuel E k = some E') :
    ∀ f, editorUpdateSyntaxTrace (f + 1) E' k = some (E', [k]) := by
  intro f
  obtain ⟨n, rfl⟩ : ∃ n, fuel = n + 1 := by
    cases fuel with
    | zero => simp [editorUpdateSyntaxFuel] at h
    | succ n => exact ⟨n, rfl⟩
  cases hrow : E.row[k]? with
  | none =>
    unfold editorUpdateSyntaxFuel at h
    simp [hrow] at h
  | some row =>
    have hk : k < E.row.length := (List.getElem?_eq_some.1 hrow).1
    have hrk := IdxAbove_idx E hidx k row hrow
    cases hsyn : E.syn with
    | none =>
      rw [editorUpdateSyntaxFuel_nosyn n E k row hsyn hrow] at h
      injection h with h
      subst h
      unfold editorUpdateSyntaxTrace
      simp only [setRow_getElem?_self _ _ _ hk, setRow_syn, hsyn]
      rw [setRow_self]
      exact setRow_getElem?_self _ _ _ hk
    | some syn =>
      obtain ⟨sd, s, ret, hseed, hscan, hcase⟩ :=
        editorUpdateSyntaxFuel_step n E k E' syn row hsyn hrow h
      rcases hcase with ⟨hret, hE⟩ | ⟨hret, -, hE⟩ | ⟨hret, -, -, E2, r2, hE2, hr2, hE⟩
      · subst hE
        refine editorUpdateSyntaxTrace_stay f _ k syn { row with hl := s.hl } sd s ret
          hsyn (setRow_getElem?_self _ _ _ hk) ?_ hscan rfl ?_
        · rw [← hseed]
          exact seedRead_congr E _ k row _ rfl (setRow_length _ _ _)
            (fun hne => setRow_getElem?_ne _ _ _ _ (Ne.symm hne))
        · intro hc; rw [hret] at hc; cases hc
      · subst hE
        refine editorUpdateSyntaxTrace_stay f _ k syn
          { row with hl := s.hl, hl_oc := editorRowHasOpenComment { row with hl := s.hl } }
          sd s ret hsyn (setRow_getElem?_self _ _ _ hk) ?_ hscan rfl ?_
        · rw [← hseed]
          exact seedRead_congr E _ k row _ rfl (setRow_length _ _ _)
            (fun hne => setRow_getElem?_ne _ _ _ _ (Ne.symm hne))
        · intro _; rfl
      · have h3 : (E.setRow k { row with hl := s.hl }).strip = E.strip :=
          setRow_strip E k row _ hrow rfl
        have hb := editorUpdateSyntaxFuel_below _ _ _ _ hE2 (IdxAbove_of_strip _ _ h3 hidx)
        have hr2' := hb k (by omega)
        rw [hr2, setRow_getElem?_self _ _ _ hk] at hr2'
        injection hr2' with hr2'
        subst hr2'
        have hl2 : E2.row.length = E.row.length :=
          (strip_length _ _ (editorUpdateSyntaxFuel_strip _ _ _ _ hE2)).trans
            (setRow_length _ _ _)
        have hk2 : k < E2.row.length := by omega
        subst hE
        refine editorUpdateSyntaxTrace_stay f _ k syn
          { row with hl := s.hl, hl_oc := editorRowHasOpenComment { row with hl := s.hl } }
          sd s ret ?_ (setRow_getElem?_self _ _ _ hk2) ?_ hscan rfl ?_
        · rw [setRow_syn, strip_syn _ _ (editorUpdateSyntaxFuel_strip _ _ _ _ hE2)]
          exact hsyn
        · rw [← hseed]
          refine seedRead_congr E _ k row _ rfl ?_ ?_
          · rw [setRow_length]; exact hl2
          · intro hne
            rw [setRow_getElem?_ne _ _ _ _ (Ne.symm hne), hb _ (by omega),
              setRow_getElem?_ne _ _ _ _ (Ne.symm hne)]
        · intro _; rfl

/-- C18: idempotence of the highlighter. Take a document in which the `idx` of
every row is at least its offset (as in every state the editor reaches), a row
`k`, and a call of `editorUpdateSyntax` on row `k` that returns the state `E1`.
Then a second call on row `k` of `E1` returns, and returns `E1` again: the
highlight and `hl_oc` of the row (and of every other row) are those left by the
first run; and the second run enters `editorUpdateSyntax` for row `k` only, so
no later row is rescanned. -/
theorem editorUpdateSyntax_idempotent (E E1 : editorConfig) (k : Nat) (hidx : IdxAbove E)
    (h : editorUpdateSyntax E k = some E1) :
    editorUpdateSyntax E1 k = some E1 ∧
      ∀ fuel, 0 < fuel → editorUpdateSyntaxTrace fuel E1 k = some (E1, [k]) := by
  have hfix := editorUpdateSyntaxTrace_fixed (E.numrows + 1) E E1 k hidx h
  refine ⟨?_, ?_⟩
  · have h2 := editorUpdateSyntaxTrace_fst (E1.numrows + 1) E1 k
    rw [hfix E1.numrows] at h2
    exact h2.symm
  · intro fuel hf
    obtain ⟨f, rfl⟩ : ∃ f, fuel = f + 1 := ⟨fuel - 1, by omega⟩
    exact hfix f

theorem editorUpdateSyntax_idempotent_witness :
    IdxAbove docCascade ∧ editorUpdateSyntax docCascade 0 = some docCascadeDone ∧
    (editorUpdateSyntax docCascadeDone 0 = some docCascadeDone ∧
      ∀ fuel, 0 < fuel → editorUpdateSyntaxTrace fuel docCascadeDone 0 =
        some (docCascadeDone, [0])) ∧
    (editorUpdateSyntaxTrace 4 docCascade 0).map Prod.snd = some [0, 1, 2] ∧
    highlightOf (some docCascadeDone) =
      some [([HL_MLCOMMENT, HL_MLCOMMENT], true), ([HL_MLCOMMENT], true),
        ([HL_MLCOMMENT], true)] :=
  ⟨by decide, by decide,
    editorUpdateSyntax_idempotent docCascade docCascadeDone 0 (by decide) (by decide),
    by decide, by decide⟩

/-! ## The `idx` fields in the states the editor reaches -/

theorem IdxAbove_iff (E : editorConfig) : IdxAbove E ↔ AboveFrom 0 (E.row.map erow.idx) := by
  constructor
  · intro h j v hv
    rw [List.getElem?_map] at hv
    cases hr : E.row[j]? with
    | none => rw [hr] at hv; cases hv
    | some r =>
      rw [hr] at hv
      injection hv with hv
      rw [← hv, Nat.zero_add]
      exact IdxAbove_idx E h j r hr
  · intro h j _ r hr
    have := h j r.idx (by rw [List.getElem?_map]; rw [show E.row[j]? = some r from hr]; rfl)
    omega

theorem AboveFrom_mono (m n : Nat) (l : List Nat) (hmn : m ≤ n) (h : AboveFrom n l) :
    AboveFrom m l := by
  intro j v hv
  have := h j v hv
  omega

theorem AboveFrom_append (n : Nat) (l1 l2 : List Nat) (h1 : AboveFrom n l1)
    (h2 : AboveFrom (n + l1.length) l2) : AboveFrom n (l1 ++ l2) := by
  intro j v hv
  by_cases hj : j < l1.length
  · rw [List.getElem?_append_left hj] at hv
    exact h1 j v hv
  · rw [List.getElem?_append_right (by omega)] at hv
    have := h2 _ v hv
    omega

theorem AboveFrom_take (n m : Nat) (l : List Nat) (h : AboveFrom n l) :
    AboveFrom n (l.take m) := by
  intro j v hv
  rw [List.getElem?_take] at hv
  split_ifs at hv with hj
  exact h j v hv

theorem AboveFrom_drop (n m : Nat) (l : List Nat) (h : AboveFrom n l) :
    AboveFrom (n + m) (l.drop m) := by
  intro j v hv
  rw [List.getElem?_drop] at hv
  have := h _ v hv
  omega

theorem AboveFrom_succ (n : Nat) (l : List Nat) (h : AboveFrom n l) :
    AboveFrom (n + 1) (l.map (· + 1)) := by
  intro j v hv
  rw [List.getElem?_map] at hv
  cases hr : l[j]? with
  | none => rw [hr] at hv; cases hv
  | some w =>
    rw [hr] at hv
    injection hv with hv
    have hv' : w + 1 = v := hv
    have := h j w hr
    omega

theorem map_idx_bumpIdx (l : List erow) :
    (bumpIdx l).map erow.idx = (l.map erow.idx).map (· + 1) := by
  simp [bumpIdx, List.map_map, Function.comp_def]

theorem map_idx_setRow (E : editorConfig) (k : Nat) (row r : erow)
    (hrow : E.row[k]? = some row) (hr : r.idx = row.idx) :
    (E.setRow k r).row.map erow.idx = E.row.map erow.idx := by
  show (E.row.set k r).map erow.idx = _
  rw [List.map_set, hr]
  apply List.ext_getElem?
  intro j
  by_cases hj : k = j
  · subst hj
    rw [List.getElem?_set_self (by simpa using (List.getElem?_eq_some.1 hrow).1),
      List.getElem?_map, hrow]
    rfl
  · rw [List.getElem?_set_ne hj]

theorem map_idx_of_strip (E E' : editorConfig) (h : E'.strip = E.strip) :
    E'.row.map erow.idx = E.row.map erow.idx := by
  have h1 := congrArg (List.map erow.idx) (strip_row_map E E' h)
  simp only [List.map_map] at h1
  have h2 : erow.idx ∘ erow.strip = erow.idx := rfl
  rw [h2] at h1
  exact h1

theorem editorUpdateRow_idx (E E' : editorConfig) (k : Nat)
    (h : editorUpdateRow E k = some E') : E'.row.map erow.idx = E.row.map erow.idx := by
  unfold editorUpdateRow at h
  cases hrow : E.row[k]? with
  | none => rw [hrow] at h; cases h
  | some row =>
    rw [hrow] at h
    simp only [] at h
    split_ifs at h
    rw [map_idx_of_strip _ _ (editorUpdateSyntaxFuel_strip _ _ _ _ h)]
    exact map_idx_setRow E k row _ hrow rfl

theorem IdxAbove_editorUpdateRow (E E' : editorConfig) (k : Nat) (hi : IdxAbove E)
    (h : editorUpdateRow E k = some E') : IdxAbove E' :=
  IdxAbove_of_idx E E' (editorUpdateRow_idx E E' k h) hi

theorem IdxAbove_setRow (E : editorConfig) (k : Nat) (row r : erow) (hi : IdxAbove E)
    (hrow : E.row[k]? = some row) (hr : r.idx = row.idx) : IdxAbove (E.setRow k r) :=
  IdxAbove_of_idx E _ (map_idx_setRow E k row r hrow hr) hi

theorem IdxAbove_emptyDoc (syn : Option editorSyntax) : IdxAbove (emptyDoc syn) := by
  intro j hj
  simp [emptyDoc] at hj

theorem IdxAbove_editorInsertRow (E E' : editorConfig) (a : Int) (s : List Nat) (len : Nat)
    (hi : IdxAbove E) (h : editorInsertRow E a s len = some E') : IdxAbove E' := by
  unfold editorInsertRow at h
  split_ifs at h with h1 h2
  · injection h with h; rw [← h]; exact hi
  · simp only [] at h
    split at h
    · cases h
    · rename_i E2 hE2
      injection h with h
      have hidx := editorUpdateRow_idx _ _ _ hE2
      have hab := (IdxAbove_iff E).1 hi
      rw [IdxAbove_iff, ← h]
      show AboveFrom 0 (E2.row.map erow.idx)
      rw [hidx]
      show AboveFrom 0 ((E.row.take a.toNat ++ freshRow a.toNat s len ::
        bumpIdx ((E.row.drop a.toNat).take (E.numrows - a.toNat))).map erow.idx)
      rw [List.map_append, List.map_cons, map_idx_bumpIdx, List.map_take, List.map_take,
        List.map_drop]
      apply AboveFrom_append
      · exact AboveFrom_take _ _ _ hab
      · have hlen : (List.take a.toNat (E.row.map erow.idx)).length ≤ a.toNat := by
          rw [List.length_take]; omega
        intro j v hv
        cases j with
        | zero =>
          simp only [List.getElem?_cons_zero, Option.some.injEq] at hv
          rw [← hv]
          show _ ≤ a.toNat
          omega
        | succ j =>
          rw [List.getElem?_cons_succ] at hv
          have := AboveFrom_succ _ _ (AboveFrom_take _ (E.numrows - a.toNat) _
            (AboveFrom_drop 0 a.toNat _ hab)) j v hv
          omega

theorem IdxAbove_editorDelRow (E E' : editorConfig) (a : Int) (hi : IdxAbove E)
    (h : editorDelRow E a = some E') : IdxAbove E' := by
  unfold editorDelRow at h
  split_ifs at h with h1 h2
  · injection h with h; rw [← h]; exact hi
  · injection h with h
    have hab := (IdxAbove_iff E).1 hi
    rw [IdxAbove_iff, ← h]
    show AboveFrom 0 ((E.row.take a.toNat ++
      bumpIdx ((E.row.drop (a.toNat + 1)).take (E.numrows - a.toNat - 1))).map erow.idx)
    rw [List.map_append, map_idx_bumpIdx, List.map_take, List.map_take, List.map_drop]
    apply AboveFrom_append
    · exact AboveFrom_take _ _ _ hab
    · have hlen : (List.take a.toNat (E.row.map erow.idx)).length ≤ a.toNat := by
        rw [List.length_take]; omega
      apply AboveFrom_mono _ (0 + (a.toNat + 1) + 1)
      · omega
      · exact AboveFrom_succ _ _ (AboveFrom_take _ _ _ (AboveFrom_drop 0 (a.toNat + 1) _ hab))

theorem IdxAbove_dirty (E : editorConfig) (d : Nat) (hi : IdxAbove E) :
    IdxAbove { E with dirty := d } := hi

theorem IdxAbove_editorRowInsertChar (E E' : editorConfig) (k : Nat) (a : Int) (c : Nat)
    (hi : IdxAbove E) (h : editorRowInsertChar E k a c = some E') : IdxAbove E' := by
  unfold editorRowInsertChar at h
  cases hrow : E.row[k]? with
  | none => rw [hrow] at h; cases h
  | some row =>
    rw [hrow] at h
    simp only [] at h
    split_ifs at h
    split at h
    · cases h
    · rename_i E1 hE1
      injection h with h
      rw [← h]
      refine IdxAbove_editorUpdateRow _ E1 k (IdxAbove_setRow E k row _ hi hrow ?_) hE1
      unfold rowInsertChar
      split_ifs <;> rfl

theorem IdxAbove_editorRowAppendString (E E' : editorConfig) (k : Nat) (s : List Nat)
    (len : Nat) (hi : IdxAbove E) (h : editorRowAppendString E k s len = some E') :
    IdxAbove E' := by
  unfold editorRowAppendString at h
  cases hrow : E.row[k]? with
  | none => rw [hrow] at h; cases h
  | some row =>
    rw [hrow] at h
    simp only [] at h
    split at h
    · cases h
    · rename_i E1 hE1
      injection h with h
      rw [← h]
      exact IdxAbove_editorUpdateRow _ E1 k
        (IdxAbove_setRow E k row (rowAppendString row s len) hi hrow rfl) hE1

theorem IdxAbove_editorRowDelChar (E E' : editorConfig) (k : Nat) (a : Int)
    (hi : IdxAbove E) (h : editorRowDelChar E k a = some E') : IdxAbove E' := by
  unfold editorRowDelChar at h
  cases hrow : E.row[k]? with
  | none => rw [hrow] at h; cases h
  | some row =>
    rw [hrow] at h
    simp only [] at h
    split_ifs at h
    · injection h with h; rw [← h]; exact hi
    · split at h
      · cases h
      · rename_i E1 hE1
        split at h
        · cases h
        · rename_i r1 hr1
          injection h with h
          rw [← h]
          have h1 := IdxAbove_editorUpdateRow _ E1 k
            (IdxAbove_setRow E k row { row with chars := row.raw.eraseIdx a.toNat } hi hrow rfl)
            hE1
          exact IdxAbove_setRow E1 k r1 _ h1 hr1 rfl

theorem IdxAbove_insertEmptyRows (fuel : Nat) :
    ∀ (E E' : editorConfig) (fr : Int), IdxAbove E → insertEmptyRows fuel E fr = some E' →
      IdxAbove E' := by
  induction fuel with
  | zero =>
    intro E E' fr hi h
    unfold insertEmptyRows at h
    split_ifs at h
    injection h with h; rw [← h]; exact hi
  | succ n ih =>
    intro E E' fr hi h
    unfold insertEmptyRows at h
    split_ifs at h
    · split at h
      · cases h
      · rename_i E1 hE1
        exact ih E1 E' fr (IdxAbove_editorInsertRow E E1 _ _ _ hi hE1) h
    · injection h with h; rw [← h]; exact hi

theorem IdxAbove_row (E E' : editorConfig) (h : E'.row = E.row) (hi : IdxAbove E) :
    IdxAbove E' :=
  IdxAbove_of_idx E E' (by rw [h]) hi

theorem IdxAbove_editorInsertChar (E E' : editorConfig) (c : Nat) (hi : IdxAbove E)
    (h : editorInsertChar E c = some E') : IdxAbove E' := by
  unfold editorInsertChar at h
  simp only [] at h
  split_ifs at h
  split at h
  · cases h
  · rename_i E1 hE1
    split at h
    · cases h
    · rename_i E2 hE2
      injection h with h
      have h2 := IdxAbove_editorRowInsertChar E1 E2 _ _ _
        (IdxAbove_insertEmptyRows _ E E1 _ hi hE1) hE2
      rw [← h]
      refine IdxAbove_row E2 _ ?_ h2
      split_ifs <;> rfl

theorem fixcursor_row (E : editorConfig) : (fixcursor E).row = E.row := by
  unfold fixcursor
  simp only []
  split_ifs <;> rfl

theorem IdxAbove_newlineSplit (E E' : editorConfig) (fr : Nat) (row : erow) (fc : Nat)
    (hi : IdxAbove E) (h : newlineSplit E fr row fc = some E') : IdxAbove E' := by
  unfold newlineSplit at h
  split at h
  · cases h
  · rename_i E1 hE1
    split at h
    · cases h
    · rename_i r1 hr1
      split at h
      · cases h
      · rename_i E2 hE2
        injection h with h
        rw [← h]
        refine IdxAbove_row E2 _ (fixcursor_row E2) ?_
        exact IdxAbove_editorUpdateRow _ E2 fr (IdxAbove_setRow E1 fr r1 (rowTruncate r1 fc)
          (IdxAbove_editorInsertRow E E1 _ _ _ hi hE1) hr1 rfl) hE2

theorem IdxAbove_insertRow_fixcursor (E E' : editorConfig) (a : Int) (hi : IdxAbove E)
    (h : (match editorInsertRow E a [] 0 with
      | none => none
      | some E1 => some (fixcursor E1)) = some E') : IdxAbove E' := by
  split at h
  · cases h
  · rename_i E1 hE1
    injection h with h
    rw [← h]
    exact IdxAbove_row E1 _ (fixcursor_row E1) (IdxAbove_editorInsertRow E E1 _ _ _ hi hE1)

theorem IdxAbove_editorInsertNewline (E E' : editorConfig) (hi : IdxAbove E)
    (h : editorInsertNewline E = some E') : IdxAbove E' := by
  unfold editorInsertNewline at h
  simp only [] at h
  split_ifs at h
  · exact IdxAbove_insertRow_fixcursor E E' _ hi h
  · injection h with h; rw [← h]; exact hi
  · split at h
    · cases h
    · rename_i row hrow
      split_ifs at h
      all_goals first
        | exact IdxAbove_insertRow_fixcursor E E' _ hi h
        | exact IdxAbove_newlineSplit E E' _ row _ hi h

theorem IdxAbove_delCharMerge (E E' : editorConfig) (fr : Nat) (row : erow)
    (hi : IdxAbove E) (h : delCharMerge E fr row = some E') : IdxAbove E' := by
  unfold delCharMerge at h
  split at h
  · cases h
  · rename_i prev hprev
    simp only [] at h
    split at h
    · cases h
    · rename_i E1 hE1
      split at h
      · cases h
      · rename_i E2 hE2
        injection h with h
        have h2 := IdxAbove_editorDelRow E1 E2 _
          (IdxAbove_editorRowAppendString E E1 _ _ _ hi hE1) hE2
        rw [← h]
        refine IdxAbove_row E2 _ ?_ h2
        split_ifs <;> rfl

theorem IdxAbove_delCharInRow (E E' : editorConfig) (fr : Nat) (fc : Int)
    (hi : IdxAbove E) (h : delCharInRow E fr fc = some E') : IdxAbove E' := by
  unfold delCharInRow at h
  split at h
  · cases h
  · rename_i E1 hE1
    simp only [] at h
    split at h
    · cases h
    · rename_i E3 hE3
      injection h with h
      rw [← h]
      refine IdxAbove_dirty E3 _ (IdxAbove_editorUpdateRow _ E3 fr ?_ hE3)
      refine IdxAbove_row E1 _ ?_ (IdxAbove_editorRowDelChar E E1 _ _ hi hE1)
      split_ifs <;> rfl

theorem IdxAbove_editorDelChar (E E' : editorConfig) (hi : IdxAbove E)
    (h : editorDelChar E = some E') : IdxAbove E' := by
  unfold editorDelChar at h
  simp only [] at h
  split_ifs at h
  all_goals first
    | (injection h with h; rw [← h]; exact hi)
    | (split at h
       · cases h
       · first
           | exact IdxAbove_delCharMerge E E' _ _ hi h
           | exact IdxAbove_delCharInRow E E' _ _ hi h)

theorem moveSwitch_row (E E' : editorConfig) (key : Key) (h : moveSwitch E key = some E') :
    E'.row = E.row := by
  unfold moveSwitch at h
  simp only [] at h
  cases key <;> simp only [] at h <;>
    (repeat' split at h) <;>
    first
      | (injection h with h; rw [← h])
      | cases h

theorem moveClamp_row (E E' : editorConfig) (h : moveClamp E = some E') : E'.row = E.row := by
  unfold moveClamp at h
  simp only [] at h
  (repeat' split at h) <;>
    first
      | (injection h with h; rw [← h])
      | cases h

theorem IdxAbove_editorMoveCursor (E E' : editorConfig) (key : Key) (hi : IdxAbove E)
    (h : editorMoveCursor E key = some E') : IdxAbove E' := by
  unfold editorMoveCursor at h
  split at h
  · cases h
  · rename_i E1 hE1
    exact IdxAbove_row E1 E' (moveClamp_row E1 E' h)
      (IdxAbove_row E E1 (moveSwitch_row E E1 key hE1) hi)

/-- The `idx` of every row is at least its offset in every state a sequence of
keys leads to from a state with that property. -/
theorem IdxAbove_applyOps : ∀ (ops : List Op) (E E' : editorConfig), IdxAbove E →
    applyOps E ops = some E' → IdxAbove E' := by
  intro ops
  induction ops with
  | nil =>
    intro E E' hi h
    unfold applyOps at h
    injection h with h; rw [← h]; exact hi
  | cons op ops ih =>
    intro E E' hi h
    unfold applyOps at h
    split at h
    · cases h
    · rename_i E1 hE1
      refine ih E1 E' ?_ h
      cases op with
      | move key => exact IdxAbove_editorMoveCursor E E1 key hi hE1
      | insertChar c => exact IdxAbove_editorInsertChar E E1 c hi hE1
      | insertNewline => exact IdxAbove_editorInsertNewline E E1 hi hE1
      | delChar => exact IdxAbove_editorDelChar E E1 hi hE1

/-- The `idx` of every row is at least its offset in every document opened from
a list of lines. -/
theorem IdxAbove_insertLines : ∀ (ls : List (List Nat)) (E E' : editorConfig), IdxAbove E →
    insertLines E ls = some E' → IdxAbove E' := by
  intro ls
  induction ls with
  | nil =>
    intro E E' hi h
    unfold insertLines at h
    injection h with h; rw [← h]; exact hi
  | cons l ls ih =>
    intro E E' hi h
    unfold insertLines at h
    split at h
    · cases h
    · rename_i E1 hE1
      exact ih E1 E' (IdxAbove_editorInsertRow E E1 _ _ _ hi hE1) h

theorem IdxAbove_editorUpdateSyntax (E E' : editorConfig) (k : Nat) (hi : IdxAbove E)
    (h : editorUpdateSyntax E k = some E') : IdxAbove E' :=
  IdxAbove_of_strip E E' (editorUpdateSyntaxFuel_strip _ _ _ _ h) hi

theorem IdxAbove_editorSelectSyntaxHighlight (E : editorConfig) (filename : List Nat)
    (hi : IdxAbove E) : IdxAbove (editorSelectSyntaxHighlight E filename) := by
  unfold editorSelectSyntaxHighlight
  split
  · exact hi
  · exact hi

/-! ## Rows inside a multi-line comment -/

theorem scanStep_in_comment (syn : editorSyntax) (render : List Nat) (size : Nat) (s : Scan)
    (hc : s.in_comment = true)
    (hscs : s.prev_sep = true → ¬ (render.getD s.i 0 = syn.singleline_comment_start.getD 0 0 ∧
      render.getD (s.i + 1) 0 = syn.singleline_comment_start.getD 1 0))
    (hmce : ¬ (render.getD s.i 0 = syn.multiline_comment_end.getD 0 0 ∧
      render.getD (s.i + 1) 0 = syn.multiline_comment_end.getD 1 0)) :
    scanStep syn render size s =
      .next { (s.put s.i HL_MLCOMMENT) with prev_sep := false, i := s.i + 1 } := by
  unfold scanStep
  simp only []
  rw [if_neg, if_pos hc]
  · unfold scanInComment
    rw [if_neg]
    simpa using hmce
  · intro h
    simp only [Bool.and_eq_true, beq_iff_eq] at h
    exact hscs h.1.1 ⟨h.1.2, h.2⟩

theorem scanLoop_in_comment (syn : editorSyntax) (render : List Nat) (size : Nat)
    (hnul : ∀ c ∈ render, c ≠ 0)
    (hmce : ∀ j, j < render.length →
      ¬ (render.getD j 0 = syn.multiline_comment_end.getD 0 0 ∧
        render.getD (j + 1) 0 = syn.multiline_comment_end.getD 1 0)) :
    ∀ (n fuel : Nat) (s : Scan), s.i + n = render.length → n < fuel → s.in_comment = true →
      s.hl.length = render.length → s.overrun = false →
      (s.prev_sep = true → ¬ (render.getD s.i 0 = syn.singleline_comment_start.getD 0 0 ∧
        render.getD (s.i + 1) 0 = syn.singleline_comment_start.getD 1 0)) →
      ∃ s', scanLoop syn render size fuel s = some (s', false) ∧ s'.overrun = false ∧
        s'.hl = s.hl.take s.i ++ List.replicate n HL_MLCOMMENT := by
  intro n
  induction n with
  | zero =>
    intro fuel s hi hf _ hl hov _
    obtain ⟨f, rfl⟩ : ∃ f, fuel = f + 1 := ⟨fuel - 1, by omega⟩
    refine ⟨s, ?_, hov, ?_⟩
    · unfold scanLoop
      rw [if_neg (by rw [hov]; decide), if_neg (by omega),
        if_pos (List.getD_eq_default _ _ (by omega))]
    · rw [List.take_of_length_le (by omega)]
      simp
  | succ n ih =>
    intro fuel s hi hf hc hl hov hscs
    obtain ⟨f, rfl⟩ : ∃ f, fuel = f + 1 := ⟨fuel - 1, by omega⟩
    have hlt : s.i < render.length := by omega
    unfold scanLoop
    rw [if_neg (by rw [hov]; decide), if_neg (by omega),
      if_neg (getD_ne_zero_of_mem render hnul s.i hlt),
      scanStep_in_comment syn render size s hc hscs (hmce s.i hlt)]
    simp only []
    obtain ⟨s', h1, h0, h2⟩ := ih f
      { (s.put s.i HL_MLCOMMENT) with prev_sep := false, i := s.i + 1 }
      (by show s.i + 1 + n = render.length; omega) (by omega)
      (by show (s.put s.i HL_MLCOMMENT).in_comment = true
          unfold Scan.put; split_ifs <;> exact hc)
      (by show (s.put s.i HL_MLCOMMENT).hl.length = render.length
          rw [Scan.put_length]; exact hl)
      (by show (s.put s.i HL_MLCOMMENT).overrun = false
          rw [Scan.put_overrun _ _ _ (by omega)]; exact hov)
      (by intro h; exact absurd h (by simp))
    refine ⟨s', h1, h0, ?_⟩
    rw [h2]
    show (s.put s.i HL_MLCOMMENT).hl.take (s.i + 1) ++ _ = _
    have hput : (s.put s.i HL_MLCOMMENT).hl = s.hl.set s.i HL_MLCOMMENT := by
      unfold Scan.put
      rw [if_pos (by omega)]
    rw [hput, List.take_succ, List.getElem?_set_self (by omega), take_set_self,
      List.replicate_succ]
    simp

theorem openComment_of_tail (row : erow) (w : Nat) (hw : w < row.render.length)
    (hrs : row.rsize = row.render.length)
    (hend : ¬ (2 ≤ row.render.length ∧ row.render.getD (row.render.length - 2) 0 = 42 ∧
      row.render.getD (row.render.length - 1) 0 = 47))
    (hl : row.hl = List.replicate w HL_NORMAL ++
      List.replicate (row.render.length - w) HL_MLCOMMENT) :
    editorRowHasOpenComment row = true := by
  unfold editorRowHasOpenComment
  have h1 : row.hl.getD (row.rsize - 1) HL_NORMAL = HL_MLCOMMENT := by
    have e1 : (List.replicate w HL_NORMAL).length ≤ row.render.length - 1 := by
      rw [List.length_replicate]; omega
    have e2 : row.render.length - 1 - (List.replicate w HL_NORMAL).length <
        row.render.length - w := by
      rw [List.length_replicate]; omega
    rw [hl, hrs, List.getD_eq_getElem?_getD, List.getElem?_append_right e1,
      List.getElem?_replicate_of_lt e2]
    rfl
  rw [h1, hrs]
  have h0 : (row.render.length != 0) = true := by
    rw [bne_iff_ne]; omega
  rw [h0]
  by_cases h2 : row.render.length < 2
  · simp [h2]
  · have h3 : ¬ (row.render.getD (row.render.length - 2) 0 = 42 ∧
        row.render.getD (row.render.length - 1) 0 = 47) := fun h => hend ⟨by omega, h⟩
    simp only [beq_self_eq_true, Bool.true_and, Bool.or_eq_true, decide_eq_true_eq, bne_iff_ne,
      ne_eq]
    right
    by_contra hc
    exact h3 ⟨by tauto, by tauto⟩

/-- The value of a call of `editorUpdateSyntax` with a language definition
active, once the seed and the scan of the row are known. -/
theorem editorUpdateSyntaxFuel_eq (f : Nat) (E : editorConfig) (k : Nat)
    (syn : editorSyntax) (row : erow) (sd : Bool) (s : Scan) (ret : Bool)
    (hsyn : E.syn = some syn) (hrow : E.row[k]? = some row)
    (hseed : seedRead E k row = some sd)
    (hscan : scanRowOk syn row.render row.rsize row.size sd = some (s, ret)) :
    editorUpdateSyntaxFuel (f + 1) E k =
      if ret then some (E.setRow k { row with hl := s.hl })
      else if row.hl_oc != editorRowHasOpenComment { row with hl := s.hl } &&
          decide (row.idx + 1 < E.numrows) then
        match editorUpdateSyntaxFuel f (E.setRow k { row with hl := s.hl }) (row.idx + 1) with
        | none => none
        | some E2 =>
          match E2.row[k]? with
          | none => none
          | some r2 =>
            some (E2.setRow k { r2 with
              hl_oc := editorRowHasOpenComment { row with hl := s.hl } })
      else some (E.setRow k { row with
        hl := s.hl, hl_oc := editorRowHasOpenComment { row with hl := s.hl } }) := by
  unfold seedRead at hseed
  rw [editorUpdateSyntaxFuel]
  simp only [hrow, hsyn, hseed, hscan]

/-- C10, as amended: with a language definition active, take a document in which
the `idx` of every row is at least its offset, a row at offset `k + 1` that
carries `idx = k + 1`, whose predecessor ends in an open multi-line comment, and
whose render holds no NUL byte, has a byte that is not white space, does not
begin (behind its leading white space) with the single-line marker, does not
contain the multi-line end marker and does not end in `*/`. Then every call of
`editorUpdateSyntax` on the row that returns leaves the leading white space
`HL_NORMAL`, classifies every byte from the first one that is not white space on
as `HL_MLCOMMENT`, and leaves the row ending in an open comment, with `hl_oc`
set. The call returns when the row was already recorded as open or is the last
row of the document (no other row is scanned then), and when the rows are
numbered with their offsets and no scan of a row of the document leaves the
buffers. For the rows "/* start", "middle", "end */" every byte of every row is
`HL_MLCOMMENT`, rows 0 and 1 end in an open comment and row 2 does not. -/
theorem editorUpdateSyntax_in_comment :
    (∀ (E : editorConfig) (k : Nat) (syn : editorSyntax) (p row : erow),
      IdxAbove E → E.syn = some syn →
      E.row[k]? = some p → E.row[k + 1]? = some row → row.idx = k + 1 →
      editorRowHasOpenComment p = true →
      row.rsize = row.render.length → (∀ c ∈ row.render, c ≠ 0) →
      leadingSpace row.render < row.render.length →
      ¬ (row.render.getD (leadingSpace row.render) 0 = syn.singleline_comment_start.getD 0 0 ∧
        row.render.getD (leadingSpace row.render + 1) 0 =
          syn.singleline_comment_start.getD 1 0) →
      (∀ j, j < row.render.length →
        ¬ (row.render.getD j 0 = syn.multiline_comment_end.getD 0 0 ∧
          row.render.getD (j + 1) 0 = syn.multiline_comment_end.getD 1 0)) →
      ¬ (2 ≤ row.render.length ∧ row.render.getD (row.render.length - 2) 0 = 42 ∧
        row.render.getD (row.render.length - 1) 0 = 47) →
      ((row.hl_oc = true ∨ E.numrows ≤ k + 2 ∨
          (Indexed E ∧ E.numrows ≤ E.row.length ∧ SafeRows E)) →
        ∃ E', editorUpdateSyntax E (k + 1) = some E') ∧
      ∀ E', editorUpdateSyntax E (k + 1) = some E' →
        ∃ r', E'.row[k + 1]? = some r' ∧
          r'.hl = List.replicate (leadingSpace row.render) HL_NORMAL ++
            List.replicate (row.render.length - leadingSpace row.render) HL_MLCOMMENT ∧
          editorRowHasOpenComment r' = true ∧ r'.hl_oc = true) ∧
    highlightOf (insertLines (emptyDoc HLDB.head?)
        [bytes "/* start", bytes "middle", bytes "end */"]) =
      some [(List.replicate 8 HL_MLCOMMENT, true), (List.replicate 6 HL_MLCOMMENT, true),
        (List.replicate 6 HL_MLCOMMENT, false)] := by
  refine ⟨?_, by decide⟩
  intro E k syn p row hidx hsyn hp hrow hrk hopen hrs hnul hw hscs hmce hend
  have hk : k + 1 < E.row.length := (List.getElem?_eq_some.1 hrow).1
  have hseed : seedRead E (k + 1) row = some true := by
    rw [seedRead_eq, hrk, if_neg (by omega), if_neg (by omega)]
    show (E.row[k]?).map editorRowHasOpenComment = some true
    rw [hp]
    simp [hopen]
  obtain ⟨s', hs1, hs0, hs2⟩ := scanLoop_in_comment syn row.render row.size hnul hmce
    (row.render.length - leadingSpace row.render) (2 * row.render.length + 2)
    (scanInit row.render row.rsize true) (by show leadingSpace row.render + _ = _; omega)
    (by omega) rfl (by simp [scanInit, hrs]) rfl (fun _ => hscs)
  have hs3 : s'.hl = List.replicate (leadingSpace row.render) HL_NORMAL ++
      List.replicate (row.render.length - leadingSpace row.render) HL_MLCOMMENT := by
    rw [hs2]
    show (List.replicate row.rsize HL_NORMAL).take (leadingSpace row.render) ++ _ = _
    rw [List.take_replicate, hrs, Nat.min_eq_left (by omega)]
  have hoc : editorRowHasOpenComment { row with hl := s'.hl } = true :=
    openComment_of_tail { row with hl := s'.hl } (leadingSpace row.render) hw hrs hend hs3
  have hscan : scanRowOk syn row.render row.rsize row.size true = some (s', false) := by
    unfold scanRowOk scanRow
    rw [hs1]
    simp only [hs0]
    rfl
  have heq := fun f => editorUpdateSyntaxFuel_eq f E (k + 1) syn row true s' false hsyn hrow
    hseed hscan
  simp only [Bool.false_eq_true, if_false, hoc] at heq
  constructor
  · intro hcase
    rcases hcase with h1 | h1 | ⟨h1, h2, h3⟩
    · unfold editorUpdateSyntax
      rw [heq, h1]
      simp only [bne_self_eq_false, Bool.false_and, Bool.false_eq_true, if_false]
      exact ⟨_, rfl⟩
    · unfold editorUpdateSyntax
      rw [heq, hrk, if_neg]
      · exact ⟨_, rfl⟩
      · simp only [Bool.and_eq_true, decide_eq_true_eq, not_and]
        intro _
        omega
    · exact editorUpdateSyntaxFuel_some (E.numrows + 1) E (k + 1) h1 hk h2 h3 (by omega)
        (by omega)
  · intro E' hE'
    obtain ⟨sd, s, ret, hseed', hscan', hcase⟩ :=
      editorUpdateSyntaxFuel_step E.numrows E (k + 1) E' syn row hsyn hrow hE'
    rw [hseed] at hseed'
    injection hseed' with hseed'
    subst hseed'
    rw [hscan] at hscan'
    injection hscan' with hscan'
    injection hscan' with e1 e2
    subst e1
    subst e2
    rcases hcase with ⟨hret, -⟩ | ⟨-, -, hE⟩ | ⟨-, -, -, E2, r2, hE2, hr2, hE⟩
    · cases hret
    · refine ⟨{ row with
          hl := s'.hl, hl_oc := editorRowHasOpenComment { row with hl := s'.hl } },
        ?_, hs3, hoc, hoc⟩
      rw [hE]; exact setRow_getElem?_self _ _ _ hk
    · have h3 : (E.setRow (k + 1) { row with hl := s'.hl }).strip = E.strip :=
        setRow_strip E (k + 1) row _ hrow rfl
      have hb := editorUpdateSyntaxFuel_below _ _ _ _ hE2 (IdxAbove_of_strip _ _ h3 hidx)
        (k + 1) (by omega)
      rw [hr2, setRow_getElem?_self _ _ _ hk] at hb
      injection hb with hb
      subst hb
      have hk2 : k + 1 < E2.row.length := (List.getElem?_eq_some.1 hr2).1
      refine ⟨{ row with
          hl := s'.hl, hl_oc := editorRowHasOpenComment { row with hl := s'.hl } },
        ?_, hs3, hoc, hoc⟩
      rw [hE]; exact setRow_getElem?_self _ _ _ hk2

theorem editorUpdateSyntax_in_comment_witness :
    ∃ E' r', editorUpdateSyntax docComment 1 = some E' ∧ E'.row[1]? = some r' ∧
      r'.hl = List.replicate 6 HL_MLCOMMENT ∧ editorRowHasOpenComment r' = true ∧
      r'.hl_oc = true :=
  have h := editorUpdateSyntax_in_comment.1 docComment 0 (HLDB.headD starSyntax)
    { idx := 0, size := 8, rsize := 8, chars := bytes "/* start", render := bytes "/* start",
      hl := List.replicate 8 HL_MLCOMMENT, hl_oc := true }
    { idx := 1, size := 6, rsize := 6, chars := bytes "middle", render := bytes "middle",
      hl := List.replicate 6 HL_MLCOMMENT, hl_oc := true }
    (by decide) (by decide) (by decide) (by decide) (by decide) (by decide) (by decide)
    (by decide) (by decide) (by decide) (by decide) (by decide)
  (h.1 (Or.inr (Or.inr (by decide)))).elim fun E' hE' =>
    (h.2 E' hE').elim fun r' hr' => ⟨E', r', hE', hr'⟩

/-- C10 fails as stated: with the C definition active and the row "/* a" in
front, (1) the empty row does not end in an open comment; (2) the row " b" keeps
its leading space `HL_NORMAL`; (3) the row "//b" is classified `HL_COMMENT` and
does not end in an open comment; (4) in the row "b", NUL, "c" the scan stops at
the NUL byte. (5) With a definition whose end marker is `*)`, the row "b*/"
behind the row "(* a" is all `HL_MLCOMMENT` and yet does not end in an open
comment. None of these renders contains the end marker. -/
theorem editorUpdateSyntax_in_comment_fails :
    highlightOf (insertLines (emptyDoc HLDB.head?) [bytes "/* a", []]) =
      some [(List.replicate 4 HL_MLCOMMENT, true), ([], false)] ∧
    highlightOf (insertLines (emptyDoc HLDB.head?) [bytes "/* a", bytes " b"]) =
      some [(List.replicate 4 HL_MLCOMMENT, true), ([HL_NORMAL, HL_MLCOMMENT], true)] ∧
    highlightOf (insertLines (emptyDoc HLDB.head?) [bytes "/* a", bytes "//b"]) =
      some [(List.replicate 4 HL_MLCOMMENT, true), (List.replicate 3 HL_COMMENT, false)] ∧
    highlightOf (insertLines (emptyDoc HLDB.head?) [bytes "/* a", [98, 0, 99]]) =
      some [(List.replicate 4 HL_MLCOMMENT, true),
        ([HL_MLCOMMENT, HL_NORMAL, HL_NORMAL], false)] ∧
    highlightOf (insertLines (emptyDoc (some starSyntax)) [bytes "(* a", bytes "b*/"]) =
      some [(List.replicate 4 HL_MLCOMMENT, true), (List.replicate 3 HL_MLCOMMENT, false)] := by
  decide

/-! ## The cascade of `editorUpdateSyntax` -/

theorem seed_some (E : editorConfig) (k : Nat) (row r0 : erow) (hidx : row.idx = k)
    (hk : k < E.row.length) :
    (if row.idx > 0 then ((E.setRow k r0).row[row.idx - 1]?).map editorRowHasOpenComment
      else some false) = some (seedAt E k) := by
  have hex : ∃ sd, (if row.idx > 0 then
      ((E.setRow k r0).row[row.idx - 1]?).map editorRowHasOpenComment
      else some false) = some sd := by
    split_ifs with h0
    · have : row.idx - 1 < (E.setRow k r0).row.length := by
        simp [editorConfig.setRow]; omega
      rw [List.getElem?_eq_getElem this]
      exact ⟨_, rfl⟩
    · exact ⟨_, rfl⟩
  obtain ⟨sd, hsd⟩ := hex
  rw [hsd, seed_eq_seedAt E k row r0 hidx sd hsd]

theorem editorUpdateSyntaxTrace_step (f : Nat) (E : editorConfig) (k : Nat)
    (E' : editorConfig) (calls : List Nat) (row : erow) (hrow : E.row[k]? = some row)
    (h : editorUpdateSyntaxTrace (f + 1) E k = some (E', calls)) :
    calls = [k] ∨ (row.idx + 1 < E.numrows ∧ ∃ (s : Scan) (E2 : editorConfig)
      (calls2 : List Nat),
      editorUpdateSyntaxTrace f (E.setRow k { row with hl := s.hl }) (row.idx + 1) =
        some (E2, calls2) ∧ calls = k :: calls2) := by
  unfold editorUpdateSyntaxTrace at h
  simp only [hrow] at h
  cases hsyn : E.syn with
  | none =>
    simp only [hsyn] at h
    injection h with h
    injection h with h1 h2
    exact Or.inl h2.symm
  | some syn =>
    simp only [hsyn] at h
    cases hseed : seedRead E k row with
    | none =>
      unfold seedRead at hseed
      rw [hseed] at h
      exact absurd h (by simp)
    | some sd =>
      unfold seedRead at hseed
      rw [hseed] at h
      simp only [] at h
      cases hscan : scanRowOk syn row.render row.rsize row.size sd with
      | none => rw [hscan] at h; exact absurd h (by simp)
      | some res =>
        obtain ⟨s, ret⟩ := res
        rw [hscan] at h
        simp only [] at h
        split_ifs at h with hret hcas
        · injection h with h
          injection h with h1 h2
          exact Or.inl h2.symm
        · simp only [Bool.and_eq_true, bne_iff_ne, ne_eq, decide_eq_true_eq] at hcas
          cases hE2 : editorUpdateSyntaxTrace f (E.setRow k { row with hl := s.hl })
              (row.idx + 1) with
          | none => simp [hE2] at h
          | some res2 =>
            obtain ⟨E2, calls2⟩ := res2
            simp only [hE2] at h
            cases hr2 : E2.row[k]? with
            | none => simp [hr2] at h
            | some r2 =>
              simp only [hr2] at h
              injection h with h
              injection h with h1 h2
              exact Or.inr ⟨hcas.2, s, E2, calls2, hE2, h2.symm⟩
        · injection h with h
          injection h with h1 h2
          exact Or.inl h2.symm

/-- The rows a call of `editorUpdateSyntax` that returns has entered, in a
document whose rows carry their offsets: the row `r` and the rows that follow
it, in order, up to some row below `numrows`. -/
theorem editorUpdateSyntaxTrace_calls :
    ∀ (fuel : Nat) (E : editorConfig) (r : Nat) (E' : editorConfig) (calls : List Nat),
      Indexed E → r < E.numrows → editorUpdateSyntaxTrace fuel E r = some (E', calls) →
      ∃ m, 1 ≤ m ∧ r + m ≤ E.numrows ∧ calls = List.range' r m := by
  intro fuel
  induction fuel with
  | zero => intro E r E' calls _ _ h; simp [editorUpdateSyntaxTrace] at h
  | succ f ih =>
    intro E r E' calls hidx hr h
    cases hrow : E.row[r]? with
    | none =>
      unfold editorUpdateSyntaxTrace at h
      simp [hrow] at h
    | some row =>
      have hrk := Indexed_idx E hidx r row hrow
      rcases editorUpdateSyntaxTrace_step f E r E' calls row hrow h with
        hc | ⟨hlt, s, E2, calls2, hE2, hc⟩
      · exact ⟨1, Nat.le_refl _, by omega, by rw [hc]; rfl⟩
      · have h3 : (E.setRow r { row with hl := s.hl }).strip = E.strip :=
          setRow_strip E r row _ hrow rfl
        have e : row.idx + 1 = r + 1 := by rw [hrk]
        rw [e] at hlt hE2
        obtain ⟨m, hm1, hm2, hm3⟩ := ih _ (r + 1) E2 calls2 (Indexed_of_strip _ _ h3 hidx)
          hlt hE2
        have hm2' : r + 1 + m ≤ E.numrows := hm2
        refine ⟨m + 1, by omega, by omega, ?_⟩
        rw [hc, hm3]
        rfl

theorem editorUpdateSyntaxTrace_chain (d : Nat) :
    ∀ (E : editorConfig) (r : Nat), Indexed E → E.numrows ≤ E.row.length → SafeRows E →
      r < E.numrows → E.numrows - r ≤ d →
      ∃ E' m, 1 ≤ m ∧ r + m ≤ E.numrows ∧
        ∀ fuel, E.numrows - r ≤ fuel →
          editorUpdateSyntaxTrace fuel E r = some (E', List.range' r m) := by
  induction d with
  | zero => intro E r _ _ _ hr hd; omega
  | succ d ih =>
    intro E r hidx hlen hsafe hr hd
    have hk : r < E.row.length := by omega
    obtain ⟨row, hrow⟩ : ∃ row, E.row[r]? = some row := ⟨_, List.getElem?_eq_getElem hk⟩
    have hrk := Indexed_idx E hidx r row hrow
    have hseed := seed_some E r row { row with hl := List.replicate row.rsize HL_NORMAL } hrk hk
    cases hsyn : E.syn with
    | none =>
      refine ⟨E.setRow r { row with hl := List.replicate row.rsize HL_NORMAL }, 1,
        Nat.le_refl _, by omega, ?_⟩
      intro fuel hf
      obtain ⟨f, rfl⟩ : ∃ f, fuel = f + 1 := ⟨fuel - 1, by omega⟩
      unfold editorUpdateSyntaxTrace
      simp only [hrow, hsyn]
      rfl
    | some syn =>
      obtain ⟨⟨s, returned⟩, hscan⟩ := SafeRows_scan E hsafe syn hsyn r row hrow (seedAt E r)
      by_cases hret : returned = true
      · refine ⟨E.setRow r { row with hl := s.hl }, 1, Nat.le_refl _, by omega, ?_⟩
        intro fuel hf
        obtain ⟨f, rfl⟩ : ∃ f, fuel = f + 1 := ⟨fuel - 1, by omega⟩
        unfold editorUpdateSyntaxTrace
        simp only [hrow, hsyn, hseed, hscan, hret, if_true]
        rfl
      · by_cases hcas : (row.hl_oc != editorRowHasOpenComment { row with hl := s.hl } &&
            decide (row.idx + 1 < E.numrows)) = true
        · have h3 : (E.setRow r { row with hl := s.hl }).strip = E.strip :=
            setRow_strip E r row _ hrow rfl
          have hl1 : (E.setRow r { row with hl := s.hl }).row.length = E.row.length :=
            strip_length _ _ h3
          have hlt : r + 1 < E.numrows := by
            simp only [Bool.and_eq_true, decide_eq_true_eq] at hcas
            omega
          obtain ⟨E2, m, hm1, hm2, hE2⟩ := ih (E.setRow r { row with hl := s.hl }) (r + 1)
            (Indexed_of_strip _ _ h3 hidx) (by rw [hl1]; exact hlen)
            (SafeRows_of_strip _ _ h3 hsafe) hlt
            (by show E.numrows - (r + 1) ≤ d; omega)
          have hm2' : r + 1 + m ≤ E.numrows := hm2
          have hE2' := hE2 (E.numrows - (r + 1)) (Nat.le_refl _)
          have hl2 : E2.row.length = E.row.length :=
            (strip_length _ _ (editorUpdateSyntaxTrace_strip _ _ _ _ _ hE2')).trans hl1
          obtain ⟨r2, hr2⟩ : ∃ r2, E2.row[r]? = some r2 :=
            ⟨_, List.getElem?_eq_getElem (by omega)⟩
          refine ⟨E2.setRow r { r2 with hl_oc := editorRowHasOpenComment { row with hl := s.hl } },
            m + 1, by omega, by omega, ?_⟩
          intro fuel hf
          obtain ⟨f, rfl⟩ : ∃ f, fuel = f + 1 := ⟨fuel - 1, by omega⟩
          unfold editorUpdateSyntaxTrace
          simp only [hrow, hsyn, hseed, hscan, hret, hcas, if_true, if_false]
          rw [hrk] at *
          rw [hE2 f (by show E.numrows - (r + 1) ≤ f; omega)]
          simp only [hr2]
          rfl
        · refine ⟨E.setRow r { row with
              hl := s.hl, hl_oc := editorRowHasOpenComment { row with hl := s.hl } }, 1,
            Nat.le_refl _, by omega, ?_⟩
          intro fuel hf
          obtain ⟨f, rfl⟩ : ∃ f, fuel = f + 1 := ⟨fuel - 1, by omega⟩
          unfold editorUpdateSyntaxTrace
          simp only [hrow, hsyn, hseed, hscan, hret, hcas, if_false]
          rfl

/-- C17, as amended: the cascade of one call. For every document with
`N = numrows` rows whose `idx` fields equal their offsets and every row `r < N`:
a call of `editorUpdateSyntax` on row `r` that returns has entered
`editorUpdateSyntax` `m` times with `1 ≤ m ≤ N - r`, on the rows
`r, r + 1, ..., r + m - 1` in this order, so every recursive call is on the row
with the next larger index; and when no scan of a row of the document leaves the
buffers the call does return, a recursion depth of `N - r` being enough. The
bound is that of a single call: an edit may call `editorUpdateSyntax` more than
once on its row. -/
theorem editorUpdateSyntax_cascade_bound (E : editorConfig) (r : Nat) (hidx : Indexed E)
    (hlen : E.row.length = E.numrows) (hr : r < E.numrows) :
    (∀ fuel E' calls, editorUpdateSyntaxTrace fuel E r = some (E', calls) →
      ∃ m, 1 ≤ m ∧ m ≤ E.numrows - r ∧ calls = List.range' r m) ∧
    (SafeRows E →
      ∃ E' m, 1 ≤ m ∧ m ≤ E.numrows - r ∧ editorUpdateSyntax E r = some E' ∧
        ∀ fuel, E.numrows - r ≤ fuel →
          editorUpdateSyntaxTrace fuel E r = some (E', List.range' r m)) := by
  constructor
  · intro fuel E' calls h
    obtain ⟨m, h1, h2, h3⟩ := editorUpdateSyntaxTrace_calls fuel E r E' calls hidx hr h
    exact ⟨m, h1, by omega, h3⟩
  · intro hsafe
    obtain ⟨E', m, h1, h2, h3⟩ := editorUpdateSyntaxTrace_chain (E.numrows - r) E r hidx
      (by omega) hsafe hr (Nat.le_refl _)
    refine ⟨E', m, h1, by omega, ?_, h3⟩
    unfold editorUpdateSyntax
    rw [← editorUpdateSyntaxTrace_fst, h3 (E.numrows + 1) (by omega)]
    rfl

theorem editorUpdateSyntax_cascade_bound_witness :
    ((∀ fuel E' calls, editorUpdateSyntaxTrace fuel docCascade 0 = some (E', calls) →
        ∃ m, 1 ≤ m ∧ m ≤ docCascade.numrows - 0 ∧ calls = List.range' 0 m) ∧
      (SafeRows docCascade →
        ∃ E' m, 1 ≤ m ∧ m ≤ docCascade.numrows - 0 ∧ editorUpdateSyntax docCascade 0 = some E' ∧
          ∀ fuel, docCascade.numrows - 0 ≤ fuel →
            editorUpdateSyntaxTrace fuel docCascade 0 = some (E', List.range' 0 m))) ∧
    SafeRows docCascade ∧ docCascade.numrows = 3 ∧
    (editorUpdateSyntaxTrace 3 docCascade 0).map Prod.snd = some [0, 1, 2] :=
  ⟨editorUpdateSyntax_cascade_bound docCascade 0 (by decide) (by decide) (by decide),
    by decide, by decide, by decide⟩

theorem editorUpdateRowTrace_fst (E : editorConfig) (k : Nat) :
    (editorUpdateRowTrace E k).map Prod.fst = editorUpdateRow E k := by
  unfold editorUpdateRowTrace editorUpdateRow
  cases E.row[k]? with
  | none => rfl
  | some row =>
    simp only []
    split_ifs
    · rfl
    · rfl
    · rfl
    · exact editorUpdateSyntaxTrace_fst _ _ _

theorem editorRowDelCharTrace_fst (E : editorConfig) (k : Nat) (a : Int) :
    (editorRowDelCharTrace E k a).map Prod.fst = editorRowDelChar E k a := by
  unfold editorRowDelCharTrace editorRowDelChar
  cases E.row[k]? with
  | none => rfl
  | some row =>
    simp only []
    split_ifs
    · rfl
    · rfl
    · rw [← editorUpdateRowTrace_fst]
      cases editorUpdateRowTrace
          (E.setRow k { row with chars := row.raw.eraseIdx a.toNat }) k with
      | none => rfl
      | some res =>
        obtain ⟨E1, calls⟩ := res
        simp only [Option.map_some']
        cases E1.row[k]? with
        | none => rfl
        | some r1 => rfl

/-- The function `delCharInRowTrace` returns the state `delCharInRow` returns. -/
theorem delCharInRowTrace_fst (E : editorConfig) (fr : Nat) (filecol : Int) :
    (delCharInRowTrace E fr filecol).map Prod.fst = delCharInRow E fr filecol := by
  unfold delCharInRowTrace delCharInRow
  rw [← editorRowDelCharTrace_fst]
  cases editorRowDelCharTrace E fr (filecol - 1) with
  | none => rfl
  | some res =>
    obtain ⟨E1, calls1⟩ := res
    simp only [Option.map_some']
    rw [← editorUpdateRowTrace_fst]
    cases editorUpdateRowTrace (if (E1.cx = 0 && E1.coloff != 0) = true then
        { E1 with coloff := E1.coloff - 1 } else { E1 with cx := E1.cx - 1 }) fr with
    | none => rfl
    | some res2 => rfl

/-- C17 fails as stated: an edit on row 0 can trigger more than `N` highlight
recomputations. In the document "/* abc", "b", "c" (`N = 3`, C definition,
`idx` fields equal to the offsets, highlighted), with the cursor moved behind
the comment marker by two presses of Right, Backspace deletes the `*`:
`editorDelChar` takes its branch `filecol != 0`, in which `editorRowDelChar`
calls `editorUpdateRow` on the row and `editorDelChar` then calls
`editorUpdateRow` on the same row once more. The first call rescans the rows 0,
1 and 2, since the comment is gone; the second scans row 0 again: 4 scans. -/
theorem editorDelChar_cascade_twice :
    docCommentAbc.numrows = 3 ∧ Indexed docCommentAbc ∧
    applyOps { docCommentAbc with cx := 0 } [.move .ARROW_RIGHT, .move .ARROW_RIGHT] =
      some docCommentAbc ∧
    editorDelChar docCommentAbc = delCharInRow docCommentAbc 0 2 ∧
    (delCharInRowTrace docCommentAbc 0 2).map Prod.fst = delCharInRow docCommentAbc 0 2 ∧
    (delCharInRowTrace docCommentAbc 0 2).map Prod.snd = some [0, 1, 2, 0] ∧
    (editorDelChar docCommentAbc).map (fun E => (E.row.take E.numrows).map erow.raw) =
      some [bytes "/ abc", bytes "b", bytes "c"] := by
  decide

/-! ## Highlight consistency and row insertion -/

theorem idx_insert (rows : List erow) (a : Nat) (r : erow)
    (hidx : rows.map erow.idx = List.range rows.length) (ha : a ≤ rows.length) (hr : r.idx = a) :
    (rows.take a ++ r :: bumpIdx (rows.drop a)).map erow.idx = List.range (rows.length + 1) := by
  apply List.ext_getElem?
  intro n
  have hget : ∀ j : Nat, (rows[j]?).map erow.idx = (List.range rows.length)[j]? := by
    intro j
    rw [← hidx, List.getElem?_map]
  simp only [List.getElem?_map, List.getElem?_append, List.length_take, Nat.min_eq_left ha]
  by_cases h1 : n < a
  · simp only [h1, if_true, List.getElem?_take_of_lt h1]
    rw [hget, List.getElem?_range (by omega), List.getElem?_range (by omega)]
  · simp only [h1, if_false]
    by_cases h2 : n = a
    · subst h2
      simp only [Nat.sub_self, List.getElem?_cons_zero, Option.map_some', hr]
      rw [List.getElem?_range (by omega)]
    · obtain ⟨m, hm⟩ : ∃ m, n - a = m + 1 := ⟨n - a - 1, by omega⟩
      rw [hm, List.getElem?_cons_succ]
      simp only [bumpIdx, List.getElem?_map, List.getElem?_drop, Option.map_map]
      have h3 : (erow.idx ∘ fun r : erow => { r with idx := r.idx + 1 }) =
          (fun x => x + 1) ∘ erow.idx := rfl
      rw [h3, ← Option.map_map, hget]
      by_cases h4 : n < rows.length + 1
      · rw [List.getElem?_range (by omega), List.getElem?_range h4]
        simp
        omega
      · rw [List.getElem?_eq_none (by simp; omega), List.getElem?_eq_none (by simp; omega)]
        rfl

theorem seedAt_eq_of_take (E E1 : editorConfig) (a : Nat)
    (h : ∀ j, j < a → E1.row[j]? = E.row[j]?) : seedAt E1 a = seedAt E a := by
  cases a with
  | zero => rfl
  | succ j => simp [seedAt, h j (by omega)]

theorem set_middle {α : Type} (l1 l2 : List α) (x y : α) (a : Nat) (h : l1.length = a) :
    (l1 ++ x :: l2).set a y = l1 ++ y :: l2 := by
  subst h
  rw [List.set_append_right _ _ (Nat.le_refl _)]
  simp

theorem getElem?_of_map_core (l1 l2 : List erow) (h : l1.map erow.core = l2.map erow.core)
    (j : Nat) (row : erow) (hrow : l2[j]? = some row) :
    ∃ row1, l1[j]? = some row1 ∧ row1.core = row.core := by
  have hn := congrArg (fun l => l[j]?) h
  simp only [List.getElem?_map, hrow, Option.map_some'] at hn
  cases hx : l1[j]? with
  | none => rw [hx] at hn; exact absurd hn (by simp)
  | some x =>
    rw [hx] at hn
    simp only [Option.map_some', Option.some.injEq] at hn
    exact ⟨x, rfl, hn⟩

theorem open_of_core (r1 r2 : erow) (h : r1.core = r2.core) :
    editorRowHasOpenComment r1 = editorRowHasOpenComment r2 := by
  have h1 : editorRowHasOpenComment r1.core = editorRowHasOpenComment r2.core := by rw [h]
  exact h1

theorem HlOk_of_core (syn : editorSyntax) (sd : Bool) (r1 r2 : erow) (h : r1.core = r2.core)
    (h1 : HlOk syn sd r1) : HlOk syn sd r2 := by
  have h2 : HlOk syn sd r1.core := h1
  rw [h] at h2
  exact h2

theorem seedAt_of_core (E1 E2 : editorConfig) (h : E1.row.map erow.core = E2.row.map erow.core)
    (k : Nat) : seedAt E1 k = seedAt E2 k := by
  cases k with
  | zero => rfl
  | succ j =>
    simp only [seedAt]
    have hn := congrArg (fun l => l[j]?) h
    simp only [List.getElem?_map] at hn
    cases hx : E1.row[j]? with
    | none =>
      rw [hx] at hn
      cases hy : E2.row[j]? with
      | none => rfl
      | some y => rw [hy] at hn; exact absurd hn (by simp)
    | some x =>
      rw [hx] at hn
      cases hy : E2.row[j]? with
      | none => rw [hy] at hn; exact absurd hn (by simp)
      | some y =>
        rw [hy] at hn
        simp only [Option.map_some', Option.some.injEq] at hn
        simp only [Option.map_some', Option.getD_some]
        exact open_of_core x y hn

theorem seedAt_setRow_ne (E : editorConfig) (k : Nat) (r : erow) (j : Nat) (h : j ≠ k + 1) :
    seedAt (E.setRow k r) j = seedAt E j := by
  cases j with
  | zero => rfl
  | succ i =>
    show (((E.setRow k r).row[i]?).map editorRowHasOpenComment).getD false = _
    rw [setRow_getElem?_ne _ _ _ _ (by omega)]
    rfl

theorem seedAt_setRow_succ (E : editorConfig) (k : Nat) (r : erow) (hk : k < E.row.length) :
    seedAt (E.setRow k r) (k + 1) = editorRowHasOpenComment r := by
  show (((E.setRow k r).row[k]?).map editorRowHasOpenComment).getD false = _
  rw [setRow_getElem?_self _ _ _ hk]
  rfl

theorem seedAt_succ_of (E : editorConfig) (j : Nat) (r : erow) (h : E.row[j]? = some r) :
    seedAt E (j + 1) = editorRowHasOpenComment r := by
  show ((E.row[j]?).map editorRowHasOpenComment).getD false = _
  rw [h]
  rfl

theorem HlOk_hl_unique (syn : editorSyntax) (sd : Bool) (r1 r2 : erow)
    (h1 : r2.render = r1.render) (h2 : r2.rsize = r1.rsize) (h3 : r2.size = r1.size)
    (ha : HlOk syn sd r1) (hb : HlOk syn sd r2) : r2.hl = r1.hl := by
  unfold HlOk at *
  rw [h1, h2, h3, ha] at hb
  exact (Option.some.inj hb).symm

theorem open_congr (r1 r2 : erow) (h1 : r2.render = r1.render) (h2 : r2.rsize = r1.rsize)
    (h4 : r2.hl = r1.hl) : editorRowHasOpenComment r2 = editorRowHasOpenComment r1 := by
  unfold editorRowHasOpenComment
  rw [h1, h2, h4]

theorem HlOk_of_scan (syn : editorSyntax) (sd : Bool) (row r : erow) (s : Scan) (ret : Bool)
    (hscan : scanRowOk syn row.render row.rsize row.size sd = some (s, ret))
    (h1 : r.render = row.render) (h2 : r.rsize = row.rsize) (h3 : r.size = row.size)
    (h4 : r.hl = s.hl) : HlOk syn sd r := by
  unfold HlOk
  rw [h1, h2, h3, h4, hscan]
  rfl

theorem seedRead_indexed (E : editorConfig) (k : Nat) (row : erow) (hrk : row.idx = k)
    (hk : k < E.row.length) : seedRead E k row = some (seedAt E k) := by
  rw [seedRead_eq, hrk]
  cases k with
  | zero => rfl
  | succ i =>
    rw [if_neg (by omega), if_neg (by omega)]
    show (E.row[i]?).map editorRowHasOpenComment =
      some (((E.row[i]?).map editorRowHasOpenComment).getD false)
    rw [List.getElem?_eq_getElem (show i < E.row.length by omega)]
    rfl

theorem map_core_setRow (E : editorConfig) (k : Nat) (row r : erow)
    (hrow : E.row[k]? = some row) (hr : r.core = row.core) :
    (E.setRow k r).row.map erow.core = E.row.map erow.core := by
  show (E.row.set k r).map erow.core = _
  rw [List.map_set, hr]
  apply List.ext_getElem?
  intro j
  by_cases hj : k = j
  · subst hj
    rw [List.getElem?_set_self (by simpa using (List.getElem?_eq_some.1 hrow).1),
      List.getElem?_map, hrow]
    rfl
  · rw [List.getElem?_set_ne hj]

/-- What the statements about one call of `editorUpdateSyntax` on row `k` of a
document whose rows carry their offsets start from: the rows in front of `k`
are consistent, the row behind `k` carries the highlight of the seed `p`, and
the rows from `k + 2` on are consistent. The cascade then leaves every row
consistent but at most one row `c` behind `k`, which carries the highlight of
the seed read for it in front of the call; and it leaves every row consistent
when the row `k` ends in the open-comment state `p`. -/
theorem editorUpdateSyntaxFuel_cascade (syn : editorSyntax) :
    ∀ (fuel : Nat) (X : editorConfig) (k : Nat) (X' : editorConfig) (p : Bool),
      Indexed X → X.syn = some syn → editorUpdateSyntaxFuel fuel X k = some X' →
      (∀ (j : Nat) (row : erow), j < k → X.row[j]? = some row → HlOk syn (seedAt X j) row) →
      (∀ row : erow, X.row[k + 1]? = some row → HlOk syn p row) →
      (∀ (j : Nat) (row : erow), k + 2 ≤ j → X.row[j]? = some row →
        HlOk syn (seedAt X j) row) →
      (∃ c, k < c ∧
        (∀ (j : Nat) (row : erow), j ≠ c → X'.row[j]? = some row →
          HlOk syn (seedAt X' j) row) ∧
        (∀ row : erow, X'.row[c]? = some row →
          HlOk syn (if c = k + 1 then p else seedAt X c) row)) ∧
      (seedAt X' (k + 1) = p →
        ∀ (j : Nat) (row : erow), X'.row[j]? = some row → HlOk syn (seedAt X' j) row) := by
  intro fuel
  induction fuel with
  | zero => intro X k X' p _ _ h; simp [editorUpdateSyntaxFuel] at h
  | succ f ih =>
    intro X k X' p hidx hsyn h hlo hmid hhi
    cases hrow : X.row[k]? with
    | none =>
      unfold editorUpdateSyntaxFuel at h
      simp [hrow] at h
    | some row =>
      have hk : k < X.row.length := (List.getElem?_eq_some.1 hrow).1
      have hrk := Indexed_idx X hidx k row hrow
      obtain ⟨sd, s, ret, hseed, hscan, hcase⟩ :=
        editorUpdateSyntaxFuel_step f X k X' syn row hsyn hrow h
      rw [seedRead_indexed X k row hrk hk] at hseed
      injection hseed with hseed
      subst hseed
      -- the state with the row `k` replaced by a row that carries the scan
      have base : ∀ rS : erow, rS.render = row.render → rS.rsize = row.rsize →
          rS.size = row.size → rS.hl = s.hl →
          (∀ (j : Nat) (r : erow), j ≠ k + 1 → (X.setRow k rS).row[j]? = some r →
            HlOk syn (seedAt (X.setRow k rS) j) r) ∧
          (∀ r : erow, (X.setRow k rS).row[k + 1]? = some r → HlOk syn p r) := by
        intro rS e1 e2 e3 e4
        constructor
        · intro j r hj hr
          rw [seedAt_setRow_ne _ _ _ _ hj]
          by_cases hjk : j = k
          · subst hjk
            rw [setRow_getElem?_self _ _ _ hk] at hr
            injection hr with hr
            subst hr
            exact HlOk_of_scan syn _ row _ s ret hscan e1 e2 e3 e4
          · rw [setRow_getElem?_ne _ _ _ _ (Ne.symm hjk)] at hr
            by_cases hlt : j < k
            · exact hlo j r hlt hr
            · exact hhi j r (by omega) hr
        · intro r hr
          rw [setRow_getElem?_ne _ _ _ _ (by omega)] at hr
          exact hmid r hr
      have fin : ∀ rS : erow, rS.render = row.render → rS.rsize = row.rsize →
          rS.size = row.size → rS.hl = s.hl →
          (∃ c, k < c ∧
            (∀ (j : Nat) (r : erow), j ≠ c → (X.setRow k rS).row[j]? = some r →
              HlOk syn (seedAt (X.setRow k rS) j) r) ∧
            (∀ r : erow, (X.setRow k rS).row[c]? = some r →
              HlOk syn (if c = k + 1 then p else seedAt X c) r)) ∧
          (seedAt (X.setRow k rS) (k + 1) = p →
            ∀ (j : Nat) (r : erow), (X.setRow k rS).row[j]? = some r →
              HlOk syn (seedAt (X.setRow k rS) j) r) := by
        intro rS e1 e2 e3 e4
        obtain ⟨b1, b2⟩ := base rS e1 e2 e3 e4
        refine ⟨⟨k + 1, by omega, b1, ?_⟩, ?_⟩
        · intro r hr
          rw [if_pos rfl]
          exact b2 r hr
        · intro hp j r hr
          by_cases hj : j = k + 1
          · subst hj
            rw [hp]
            exact b2 r hr
          · exact b1 j r hj hr
      rcases hcase with ⟨-, hE⟩ | ⟨-, -, hE⟩ | ⟨-, -, -, E2, r2, hE2, hr2, hE⟩
      · rw [hE]; exact fin _ rfl rfl rfl rfl
      · rw [hE]; exact fin _ rfl rfl rfl rfl
      · obtain ⟨b1, b2⟩ := base { row with hl := s.hl } rfl rfl rfl rfl
        have h3 : (X.setRow k { row with hl := s.hl }).strip = X.strip :=
          setRow_strip X k row _ hrow rfl
        have hidx1 : Indexed (X.setRow k { row with hl := s.hl }) :=
          Indexed_of_strip _ _ h3 hidx
        have e : row.idx + 1 = k + 1 := by rw [hrk]
        rw [e] at hE2
        have hpre2 : ∀ r : erow, (X.setRow k { row with hl := s.hl }).row[k + 1 + 1]? = some r →
            HlOk syn (seedAt X (k + 2)) r := by
          intro r hr
          rw [setRow_getElem?_ne _ _ _ _ (by omega)] at hr
          exact hhi (k + 2) r (Nat.le_refl _) hr
        obtain ⟨⟨c, hc, i1, i2⟩, i3⟩ := ih (X.setRow k { row with hl := s.hl }) (k + 1) E2
          (seedAt X (k + 2)) hidx1 hsyn hE2
          (fun j r hj hr => b1 j r (by omega) hr) hpre2
          (fun j r hj hr => b1 j r (by omega) hr)
        -- from `E2` to `X'`: only `hl_oc` of row `k` differs
        have hcore : X'.row.map erow.core = E2.row.map erow.core := by
          rw [hE]
          exact map_core_setRow E2 k r2 _ hr2 rfl
        have tr : ∀ (j : Nat) (r : erow) (sd : Bool), X'.row[j]? = some r →
            (∀ r0 : erow, E2.row[j]? = some r0 → HlOk syn sd r0) → HlOk syn sd r := by
          intro j r sd hr hall
          obtain ⟨r0, hr0, hc0⟩ := getElem?_of_map_core _ _ hcore.symm j r hr
          exact HlOk_of_core syn sd r0 r hc0 (hall r0 hr0)
        have hseedeq : ∀ j, seedAt X' j = seedAt E2 j := fun j => seedAt_of_core _ _ hcore j
        have hqc : (if c = k + 1 + 1 then seedAt X (k + 2)
            else seedAt (X.setRow k { row with hl := s.hl }) c) = seedAt X c := by
          split_ifs with hc2
          · rw [hc2]
          · exact seedAt_setRow_ne _ _ _ _ (by omega)
        refine ⟨⟨c, by omega, ?_, ?_⟩, ?_⟩
        · intro j r hj hr
          rw [hseedeq]
          exact tr j r _ hr (fun r0 hr0 => i1 j r0 hj hr0)
        · intro r hr
          rw [if_neg (by omega)]
          refine tr c r _ hr (fun r0 hr0 => ?_)
          have := i2 r0 hr0
          rw [hqc] at this
          exact this
        · intro hp j r hr
          rw [hseedeq]
          refine tr j r _ hr (fun r0 hr0 => ?_)
          -- the row `k` keeps its highlight
          have hb := editorUpdateSyntaxFuel_below _ _ _ _ hE2
            (IdxAbove_of_Indexed _ hidx1) k (by omega)
          rw [setRow_getElem?_self _ _ _ hk] at hb
          have hopenk : seedAt E2 (k + 1) = p := by
            rw [← hseedeq]; exact hp
          have hopen1 : editorRowHasOpenComment ({ row with hl := s.hl } : erow) = p := by
            rw [← hopenk, seedAt_succ_of E2 k _ hb]
          -- the seed of row `k + 2` is unchanged
          have hnext : seedAt E2 (k + 1 + 1) = seedAt X (k + 2) := by
            show ((E2.row[k + 1]?).map editorRowHasOpenComment).getD false =
              ((X.row[k + 1]?).map editorRowHasOpenComment).getD false
            have hst := strip_row_getElem? _ _
              ((editorUpdateSyntaxFuel_strip _ _ _ _ hE2).trans h3) (k + 1)
            cases hx : X.row[k + 1]? with
            | none =>
              rw [hx] at hst
              cases he : E2.row[k + 1]? with
              | none => rfl
              | some y => rw [he] at hst; exact absurd hst (by simp)
            | some x =>
              rw [hx] at hst
              cases he : E2.row[k + 1]? with
              | none => rw [he] at hst; exact absurd hst (by simp)
              | some y =>
                rw [he] at hst
                have hst' : y.strip = x.strip := by simpa using hst
                obtain ⟨f1, f2, f3, -⟩ := strip_fields x y hst'
                have hy : HlOk syn p y := by
                  have := i1 (k + 1) y (by omega) he
                  rw [hopenk] at this
                  exact this
                have hx' : HlOk syn p x := hmid x hx
                have hhl := HlOk_hl_unique syn p x y f1 f2 f3 hx' hy
                simp only [Option.map_some', Option.getD_some]
                exact open_congr x y f1 f2 hhl
          exact i3 hnext j r0 hr0

/-- The cascade with accurate `hl_oc` flags: as in `editorUpdateSyntaxFuel_cascade`,
and moreover every row behind `k` records in `hl_oc` whether it ends in an open
comment, the row `k` records the state `p` (or ends in the state `p` after the
call), and every row from `k` on whose scan is left by the `return` of the `//`
branch, which skips the update of `hl_oc`, records its state after the call as
well. Then every row below `numrows` is consistent after the call. -/
theorem editorUpdateSyntaxFuel_cascade_flags (syn : editorSyntax) :
    ∀ (fuel : Nat) (X : editorConfig) (k : Nat) (X' : editorConfig) (p : Bool),
      Indexed X → X.syn = some syn → editorUpdateSyntaxFuel fuel X k = some X' →
      (∀ (j : Nat) (row : erow), j < k → X.row[j]? = some row → HlOk syn (seedAt X j) row) →
      (∀ row : erow, X.row[k + 1]? = some row → HlOk syn p row) →
      (∀ (j : Nat) (row : erow), k + 2 ≤ j → X.row[j]? = some row →
        HlOk syn (seedAt X j) row) →
      (∀ (j : Nat) (row : erow), k < j → X.row[j]? = some row →
        row.hl_oc = editorRowHasOpenComment row) →
      (∀ row : erow, X.row[k]? = some row → row.hl_oc = p ∨ seedAt X' (k + 1) = p) →
      (∀ (j : Nat) (row : erow) (t : Scan), k ≤ j → X'.row[j]? = some row →
        scanRowOk syn row.render row.rsize row.size (seedAt X' j) = some (t, true) →
        row.hl_oc = editorRowHasOpenComment row) →
      ∀ (j : Nat) (row : erow), j < X.numrows → X'.row[j]? = some row →
        HlOk syn (seedAt X' j) row := by
  intro fuel
  induction fuel with
  | zero => intro X k X' p _ _ h; simp [editorUpdateSyntaxFuel] at h
  | succ f ih =>
    intro X k X' p hidx hsyn h hlo hmid hhi hflags hflag hnoret
    cases hrow : X.row[k]? with
    | none =>
      unfold editorUpdateSyntaxFuel at h
      simp [hrow] at h
    | some row =>
      have hk : k < X.row.length := (List.getElem?_eq_some.1 hrow).1
      have hrk := Indexed_idx X hidx k row hrow
      obtain ⟨sd, s, ret, hseed, hscan, hcase⟩ :=
        editorUpdateSyntaxFuel_step f X k X' syn row hsyn hrow h
      rw [seedRead_indexed X k row hrk hk] at hseed
      injection hseed with hseed
      subst hseed
      have base : ∀ rS : erow, rS.render = row.render → rS.rsize = row.rsize →
          rS.size = row.size → rS.hl = s.hl →
          (∀ (j : Nat) (r : erow), j ≠ k + 1 → (X.setRow k rS).row[j]? = some r →
            HlOk syn (seedAt (X.setRow k rS) j) r) ∧
          (∀ r : erow, (X.setRow k rS).row[k + 1]? = some r → HlOk syn p r) := by
        intro rS e1 e2 e3 e4
        constructor
        · intro j r hj hr
          rw [seedAt_setRow_ne _ _ _ _ hj]
          by_cases hjk : j = k
          · subst hjk
            rw [setRow_getElem?_self _ _ _ hk] at hr
            injection hr with hr
            subst hr
            exact HlOk_of_scan syn _ row _ s ret hscan e1 e2 e3 e4
          · rw [setRow_getElem?_ne _ _ _ _ (Ne.symm hjk)] at hr
            by_cases hlt : j < k
            · exact hlo j r hlt hr
            · exact hhi j r (by omega) hr
        · intro r hr
          rw [setRow_getElem?_ne _ _ _ _ (by omega)] at hr
          exact hmid r hr
      rcases hcase with ⟨hret, hE⟩ | ⟨-, hgate, hE⟩ | ⟨-, -, -, E2, r2, hE2, hr2, hE⟩
      · subst hret
        obtain ⟨b1, b2⟩ := base { row with hl := s.hl } rfl rfl rfl rfl
        have hoc : row.hl_oc = editorRowHasOpenComment { row with hl := s.hl } :=
          hnoret k { row with hl := s.hl } s (Nat.le_refl _)
            (by rw [hE]; exact setRow_getElem?_self _ _ _ hk)
            (by rw [hE, seedAt_setRow_ne _ _ _ _ (by omega)]; exact hscan)
        intro j r hj hr
        rw [hE] at hr ⊢
        by_cases hj1 : j = k + 1
        · subst hj1
          have hp : seedAt (X.setRow k { row with hl := s.hl }) (k + 1) = p := by
            rcases hflag row hrow with hf | hf
            · rw [seedAt_setRow_succ _ _ _ hk, ← hoc]
              exact hf
            · rw [hE] at hf; exact hf
          rw [hp]
          exact b2 r hr
        · exact b1 j r hj1 hr
      · obtain ⟨b1, b2⟩ := base { row with
          hl := s.hl, hl_oc := editorRowHasOpenComment { row with hl := s.hl } } rfl rfl rfl rfl
        intro j r hj hr
        rw [hE] at hr ⊢
        by_cases hj1 : j = k + 1
        · subst hj1
          have hoc : row.hl_oc = editorRowHasOpenComment { row with hl := s.hl } := by
            by_contra hne
            exact hgate ⟨hne, by rw [hrk]; exact hj⟩
          have hp : seedAt (X.setRow k { row with
              hl := s.hl, hl_oc := editorRowHasOpenComment { row with hl := s.hl } }) (k + 1) =
              p := by
            rcases hflag row hrow with hf | hf
            · rw [seedAt_setRow_succ _ _ _ hk, ← hf, hoc]
              rfl
            · rw [hE] at hf; exact hf
          rw [hp]
          exact b2 r hr
        · exact b1 j r hj1 hr
      · obtain ⟨b1, b2⟩ := base { row with hl := s.hl } rfl rfl rfl rfl
        have h3 : (X.setRow k { row with hl := s.hl }).strip = X.strip :=
          setRow_strip X k row _ hrow rfl
        have hidx1 : Indexed (X.setRow k { row with hl := s.hl }) :=
          Indexed_of_strip _ _ h3 hidx
        have e : row.idx + 1 = k + 1 := by rw [hrk]
        rw [e] at hE2
        have hpre2 : ∀ r : erow, (X.setRow k { row with hl := s.hl }).row[k + 1 + 1]? = some r →
            HlOk syn (seedAt X (k + 2)) r := by
          intro r hr
          rw [setRow_getElem?_ne _ _ _ _ (by omega)] at hr
          exact hhi (k + 2) r (Nat.le_refl _) hr
        have hcore : X'.row.map erow.core = E2.row.map erow.core := by
          rw [hE]
          exact map_core_setRow E2 k r2 _ hr2 rfl
        have hseedeq : ∀ j, seedAt X' j = seedAt E2 j := fun j => seedAt_of_core _ _ hcore j
        have hres := ih (X.setRow k { row with hl := s.hl }) (k + 1) E2
          (seedAt X (k + 2)) hidx1 hsyn hE2
          (fun j r hj hr => b1 j r (by omega) hr) hpre2
          (fun j r hj hr => b1 j r (by omega) hr)
          (fun j r hj hr => by
            rw [setRow_getElem?_ne _ _ _ _ (by omega)] at hr
            exact hflags j r (by omega) hr)
          (fun rn hrn => by
            left
            rw [setRow_getElem?_ne _ _ _ _ (by omega)] at hrn
            rw [hflags (k + 1) rn (by omega) hrn]
            exact (seedAt_succ_of X (k + 1) rn hrn).symm)
          (fun j r t hj hr hsc => by
            have hr' : X'.row[j]? = some r := by
              rw [hE, setRow_getElem?_ne _ _ _ _ (by omega)]
              exact hr
            rw [← hseedeq] at hsc
            exact hnoret j r t (by omega) hr' hsc)
        intro j r hj hr
        obtain ⟨r0, hr0, hc0⟩ := getElem?_of_map_core _ _ hcore.symm j r hr
        rw [hseedeq]
        exact HlOk_of_core syn _ r0 r hc0 (hres j r0 hj hr0)

theorem insertingState_row (E : editorConfig) (a : Nat) (s : List Nat) (len : Nat)
    (ha : a ≤ E.row.length) (j : Nat) :
    (insertingState E a s len).row[j]? =
      if j < a then E.row[j]?
      else if j = a then some (freshRow a s len).rendered
      else (E.row[j - 1]?).map fun r => { r with idx := r.idx + 1 } := by
  show (E.row.take a ++ (freshRow a s len).rendered :: bumpIdx (E.row.drop a))[j]? = _
  have hlt : (E.row.take a).length = a := by simp [ha]
  split_ifs with h1 h2
  · rw [List.getElem?_append_left (by omega), List.getElem?_take_of_lt h1]
  · subst h2
    rw [List.getElem?_append_right (by omega), hlt]
    simp
  · rw [List.getElem?_append_right (by omega), hlt]
    obtain ⟨m, hm⟩ : ∃ m, j - a = m + 1 := ⟨j - a - 1, by omega⟩
    rw [hm, List.getElem?_cons_succ]
    simp only [bumpIdx, List.getElem?_map, List.getElem?_drop]
    congr 2
    omega

theorem insertingState_indexed (E : editorConfig) (a : Nat) (s : List Nat) (len : Nat)
    (hidx : Indexed E) (ha : a ≤ E.row.length) : Indexed (insertingState E a s len) := by
  show (E.row.take a ++ (freshRow a s len).rendered :: bumpIdx (E.row.drop a)).map erow.idx = _
  rw [idx_insert E.row a _ hidx ha rfl]
  simp only [insertingState, List.length_append, List.length_cons, bumpIdx, List.length_map,
    List.length_take, List.length_drop]
  congr 1
  omega

theorem insertingState_length (E : editorConfig) (a : Nat) (s : List Nat) (len : Nat)
    (ha : a ≤ E.row.length) : (insertingState E a s len).row.length = E.row.length + 1 := by
  show (E.row.take a ++ (freshRow a s len).rendered :: bumpIdx (E.row.drop a)).length = _
  simp only [List.length_append, List.length_cons, bumpIdx, List.length_map,
    List.length_take, List.length_drop]
  omega

theorem insertingState_seedAt_lo (E : editorConfig) (a : Nat) (s : List Nat) (len : Nat)
    (ha : a ≤ E.row.length) (j : Nat) (hj : j ≤ a) :
    seedAt (insertingState E a s len) j = seedAt E j := by
  apply seedAt_eq_of_take
  intro i hi
  rw [insertingState_row E a s len ha, if_pos (by omega)]

theorem insertingState_seedAt_hi (E : editorConfig) (a : Nat) (s : List Nat) (len : Nat)
    (ha : a ≤ E.row.length) (j : Nat) (hj : a + 2 ≤ j) :
    seedAt (insertingState E a s len) j = seedAt E (j - 1) := by
  obtain ⟨i, rfl⟩ : ∃ i, j = i + 2 := ⟨j - 2, by omega⟩
  show (((insertingState E a s len).row[i + 1]?).map editorRowHasOpenComment).getD false =
    ((E.row[i]?).map editorRowHasOpenComment).getD false
  rw [insertingState_row E a s len ha, if_neg (by omega), if_neg (by omega)]
  simp only [Nat.add_sub_cancel, Option.map_map]
  rfl

theorem editorInsertRow_inv (E E' : editorConfig) (a : Nat) (s : List Nat) (len : Nat)
    (hlen : E.row.length = E.numrows) (ha : a ≤ E.numrows)
    (h : editorInsertRow E (a : Int) s len = some E') :
    ∃ E2, editorUpdateSyntaxFuel (E.numrows + 1) (insertingState E a s len) a = some E2 ∧
      E' = { E2 with numrows := E2.numrows + 1, dirty := E2.dirty + 1 } := by
  have hta : (a : Int).toNat = a := Int.toNat_natCast a
  have hc1 : ¬ ((a : Int) > (E.numrows : Int)) := by omega
  have hc2 : ¬ ((a : Int) < 0) := by omega
  have hdrop : (E.row.drop a).take (E.numrows - a) = E.row.drop a := by
    apply List.take_of_length_le
    simp [hlen]
  have hlt : (E.row.take a).length = a := by simp [hlen, ha]
  unfold editorInsertRow at h
  simp only [hc1, hc2, if_false, hta, hdrop] at h
  have hrow1 : (E.row.take a ++ freshRow a s len :: bumpIdx (E.row.drop a))[a]? =
      some (freshRow a s len) := by
    rw [List.getElem?_append_right (by omega), hlt]
    simp
  unfold editorUpdateRow at h
  simp only [hrow1] at h
  split_ifs at h with hg1 hg2 hg3
  · have hX : ({ E with row := E.row.take a ++ freshRow a s len :: bumpIdx (E.row.drop a) } :
        editorConfig).setRow a { freshRow a s len with
          render := renderBytes (freshRow a s len).raw
          rsize := (renderBytes (freshRow a s len).raw).length } =
        insertingState E a s len := by
      simp only [editorConfig.setRow, insertingState, erow.rendered]
      rw [set_middle _ _ _ _ _ hlt]
    rw [hX] at h
    unfold editorUpdateSyntax at h
    have hnum : (insertingState E a s len).numrows = E.numrows := rfl
    rw [hnum] at h
    cases hE2 : editorUpdateSyntaxFuel (E.numrows + 1) (insertingState E a s len) a with
    | none => rw [hE2] at h; cases h
    | some E2 =>
      rw [hE2] at h
      injection h with h
      exact ⟨E2, rfl, h.symm⟩

theorem HlOk_of_syntaxRow (syn : editorSyntax) (sd : Bool) (row r' : erow)
    (h : syntaxRow (some syn) sd row = some r') : HlOk syn sd r' := by
  simp only [syntaxRow] at h
  cases hscan : scanRowOk syn row.render row.rsize row.size sd with
  | none => rw [hscan] at h; exact absurd h (by simp)
  | some res =>
    obtain ⟨s, returned⟩ := res
    simp only [hscan, Option.some.injEq] at h
    subst h
    unfold HlOk
    simp only [hscan, Option.map_some']

theorem seedAt_congr_row (E1 E2 : editorConfig) (h : E1.row = E2.row) (j : Nat) :
    seedAt E1 j = seedAt E2 j := by
  cases j with
  | zero => rfl
  | succ i => simp [seedAt, h]

/-- C19, as amended: with a language definition active, take a document whose
rows carry their offsets as `idx`, every row of which is consistent (its
highlight is the scan of its render seeded with the open-comment state of the
row in front), and a call `editorInsertRow(a, s, len)` with `0 ≤ a ≤ numrows`
that returns; `r` is the new row at offset `a`. (1) When the row is appended
(`a = numrows`) or `r` ends in the open-comment state of the row in front of it
(none at `a = 0`), every row is consistent afterwards. (2) In every case all rows
but at most one are consistent afterwards: there is an offset `c` behind `a`
such that every other row is consistent, and the row at `c` is consistent too
when the open-comment state of the row in front of it is what it was before the
call. (3) When every row recorded in `hl_oc` whether it ends in an open comment,
this is still so afterwards for every row from `a` on whose scan is left by the
`return` of the `//` branch (which skips the update of `hl_oc`), and `r` ends in
an open comment or the row in front of it does not, then every row but the last
one is consistent afterwards. (4) When `r` is recorded as ending in an open
comment and `a + 1 < numrows` held before the call, the row behind `r` carries
the highlight of a scan of its render that starts inside a comment. -/
theorem editorInsertRow_consistent (E E' : editorConfig) (syn : editorSyntax) (a : Nat)
    (s : List Nat) (len : Nat) (hidx : Indexed E) (hlen : E.row.length = E.numrows)
    (hsyn : E.syn = some syn) (ha : a ≤ E.numrows) (hcons : Consistent syn E)
    (hE' : editorInsertRow E (a : Int) s len = some E') :
    ∃ r, E'.row[a]? = some r ∧
      ((a = E.numrows ∨ editorRowHasOpenComment r = seedAt E a) → Consistent syn E') ∧
      (∃ c, a < c ∧
        (∀ (j : Nat) (row : erow), j ≠ c → E'.row[j]? = some row →
          HlOk syn (seedAt E' j) row) ∧
        (∀ row : erow, E'.row[c]? = some row → seedAt E' c = seedAt E (c - 1) →
          HlOk syn (seedAt E' c) row)) ∧
      ((∀ row ∈ E.row, row.hl_oc = editorRowHasOpenComment row) →
        (∀ (j : Nat) (row : erow) (t : Scan), a ≤ j → E'.row[j]? = some row →
          scanRowOk syn row.render row.rsize row.size (seedAt E' j) = some (t, true) →
          row.hl_oc = editorRowHasOpenComment row) →
        (editorRowHasOpenComment r = true ∨ seedAt E a = false) →
        ∀ (j : Nat) (row : erow), j < E.numrows → E'.row[j]? = some row →
          HlOk syn (seedAt E' j) row) ∧
      (r.hl_oc = true → a + 1 < E.numrows →
        ∃ old r1, E.row[a]? = some old ∧ E'.row[a + 1]? = some r1 ∧
          (scanRowOk syn old.render old.rsize old.size true).map (fun p => p.1.hl) =
            some r1.hl) := by
  obtain ⟨E2, hE2, hEq⟩ := editorInsertRow_inv E E' a s len hlen ha hE'
  have hrowE : E'.row = E2.row := by rw [hEq]
  have hseedE : ∀ j, seedAt E' j = seedAt E2 j := seedAt_congr_row E' E2 hrowE
  have hal : a ≤ E.row.length := by omega
  have hXidx : Indexed (insertingState E a s len) := insertingState_indexed E a s len hidx hal
  have hXsyn : (insertingState E a s len).syn = some syn := hsyn
  have hXlen := insertingState_length E a s len hal
  have hXrow := insertingState_row E a s len hal
  have hXa : (insertingState E a s len).row[a]? = some (freshRow a s len).rendered := by
    rw [hXrow, if_neg (by omega), if_pos rfl]
  have hstrip := editorUpdateSyntaxFuel_strip _ _ _ _ hE2
  have hl2 : E2.row.length = E.row.length + 1 := (strip_length _ _ hstrip).trans hXlen
  have hcons' : ∀ (j : Nat) (row : erow), E.row[j]? = some row → HlOk syn (seedAt E j) row :=
    fun j row hrow => hcons j (List.getElem?_eq_some.1 hrow).1 row hrow
  have hbump : ∀ (j : Nat) (row : erow), a < j → (insertingState E a s len).row[j]? = some row →
      ∃ r0 : erow, E.row[j - 1]? = some r0 ∧ row = { r0 with idx := r0.idx + 1 } := by
    intro j row hj hrow
    rw [hXrow, if_neg (by omega), if_neg (by omega)] at hrow
    cases h0 : E.row[j - 1]? with
    | none => rw [h0] at hrow; cases hrow
    | some r0 =>
      rw [h0] at hrow
      injection hrow with hrow
      exact ⟨r0, rfl, hrow.symm⟩
  have hlo : ∀ (j : Nat) (row : erow), j < a → (insertingState E a s len).row[j]? = some row →
      HlOk syn (seedAt (insertingState E a s len) j) row := by
    intro j row hj hrow
    rw [hXrow, if_pos hj] at hrow
    rw [insertingState_seedAt_lo E a s len hal j (by omega)]
    exact hcons' j row hrow
  have hmid : ∀ row : erow, (insertingState E a s len).row[a + 1]? = some row →
      HlOk syn (seedAt E a) row := by
    intro row hrow
    obtain ⟨r0, h0, rfl⟩ := hbump (a + 1) row (by omega) hrow
    exact hcons' a r0 h0
  have hhi : ∀ (j : Nat) (row : erow), a + 2 ≤ j →
      (insertingState E a s len).row[j]? = some row →
      HlOk syn (seedAt (insertingState E a s len) j) row := by
    intro j row hj hrow
    obtain ⟨r0, h0, rfl⟩ := hbump j row (by omega) hrow
    rw [insertingState_seedAt_hi E a s len hal j hj]
    exact hcons' (j - 1) r0 h0
  obtain ⟨r, hr⟩ : ∃ r, E2.row[a]? = some r := ⟨_, List.getElem?_eq_getElem (by omega)⟩
  have hopenr : seedAt E2 (a + 1) = editorRowHasOpenComment r := seedAt_succ_of E2 a r hr
  obtain ⟨⟨c, hc, i1, i2⟩, i3⟩ := editorUpdateSyntaxFuel_cascade syn _ _ a E2 (seedAt E a)
    hXidx hXsyn hE2 hlo hmid hhi
  refine ⟨r, by rw [hrowE]; exact hr, ?_, ?_, ?_, ?_⟩
  · intro hcase j hj row hrow
    have hrow' : E2.row[j]? = some row := by rw [← hrowE]; exact hrow
    rw [hseedE]
    rcases hcase with h | h
    · refine i1 j row ?_ hrow'
      have : j < E2.row.length := (List.getElem?_eq_some.1 hrow').1
      omega
    · exact i3 (by rw [hopenr, h]) j row hrow'
  · refine ⟨c, hc, ?_, ?_⟩
    · intro j row hj hrow
      rw [hseedE]
      exact i1 j row hj (by rw [← hrowE]; exact hrow)
    · intro row hrow hseed
      have h := i2 row (by rw [← hrowE]; exact hrow)
      have hq : (if c = a + 1 then seedAt E a else seedAt (insertingState E a s len) c) =
          seedAt E (c - 1) := by
        split_ifs with hc1
        · rw [hc1, Nat.add_sub_cancel]
        · exact insertingState_seedAt_hi E a s len hal c (by omega)
      rw [hq, ← hseed] at h
      exact h
  · intro hflags hnoret hgate j row hj hrow
    rw [hseedE]
    refine editorUpdateSyntaxFuel_cascade_flags syn _ _ a E2 (seedAt E a) hXidx hXsyn hE2
      hlo hmid hhi ?_ ?_ ?_ j row hj (by rw [← hrowE]; exact hrow)
    · intro i ri hi hri
      obtain ⟨r0, h0, rfl⟩ := hbump i ri hi hri
      exact hflags r0 (mem_of_getElem?_some _ _ _ h0)
    · intro ri hri
      rw [hXa] at hri
      injection hri with hri
      subst hri
      cases hp : seedAt E a with
      | false => left; rfl
      | true =>
        right
        rcases hgate with hg | hg
        · rw [hopenr, hg]
        · rw [hp] at hg; cases hg
    · intro i ri t hi hri hsc
      rw [← hseedE] at hsc
      exact hnoret i ri t hi (by rw [hrowE]; exact hri) hsc
  · intro hoc hlt
    have halt : a < E.row.length := by omega
    obtain ⟨old, hold⟩ : ∃ old, E.row[a]? = some old := ⟨_, List.getElem?_eq_getElem halt⟩
    have hXlen' : a < (insertingState E a s len).row.length := by omega
    obtain ⟨sd, t, ret, -, hscan, hcase⟩ := editorUpdateSyntaxFuel_step E.numrows
      (insertingState E a s len) a E2 syn (freshRow a s len).rendered hXsyn hXa hE2
    rcases hcase with ⟨-, hE⟩ | ⟨-, hgate, hE⟩ | ⟨-, -, -, E3, r3, hE3, hr3, hE⟩
    · exfalso
      rw [hE, setRow_getElem?_self _ _ _ hXlen'] at hr
      injection hr with hr
      rw [← hr] at hoc
      cases hoc
    · exfalso
      rw [hE, setRow_getElem?_self _ _ _ hXlen'] at hr
      injection hr with hr
      rw [← hr] at hoc
      apply hgate
      refine ⟨?_, hlt⟩
      have hoc' : editorRowHasOpenComment
          ({ (freshRow a s len).rendered with hl := t.hl } : erow) = true := hoc
      rw [hoc']
      intro hc
      cases hc
    · have hk3 : a < E3.row.length := (List.getElem?_eq_some.1 hr3).1
      rw [hE, setRow_getElem?_self _ _ _ hk3] at hr
      injection hr with hr
      rw [← hr] at hoc
      have hoc' : editorRowHasOpenComment
          ({ (freshRow a s len).rendered with hl := t.hl } : erow) = true := hoc
      have h3 : ((insertingState E a s len).setRow a
          { (freshRow a s len).rendered with hl := t.hl }).strip =
          (insertingState E a s len).strip := setRow_strip _ a _ _ hXa rfl
      have hidx1 := Indexed_of_strip _ _ h3 hXidx
      have hnext : ((insertingState E a s len).setRow a
          { (freshRow a s len).rendered with hl := t.hl }).row[a + 1]? =
          some { old with idx := old.idx + 1 } := by
        rw [setRow_getElem?_ne _ _ _ _ (by omega), hXrow, if_neg (by omega),
          if_neg (by omega), Nat.add_sub_cancel, hold]
        rfl
      have hrow3 := editorUpdateSyntaxFuel_row _ _ (a + 1) E3 _ hE3 hidx1 hnext
      have hseed1 : seedAt ((insertingState E a s len).setRow a
          { (freshRow a s len).rendered with hl := t.hl }) (a + 1) = true := by
        rw [seedAt_setRow_succ _ _ _ hXlen']
        exact hoc'
      rw [hseed1] at hrow3
      have hsyn1 : ((insertingState E a s len).setRow a
          { (freshRow a s len).rendered with hl := t.hl }).syn = some syn := hsyn
      rw [hsyn1] at hrow3
      have hl3 : E3.row.length = E.row.length + 1 :=
        ((strip_length _ _ (editorUpdateSyntaxFuel_strip _ _ _ _ hE3)).trans
          (setRow_length _ _ _)).trans hXlen
      obtain ⟨r1, hr1⟩ : ∃ r1, E3.row[a + 1]? = some r1 :=
        ⟨_, List.getElem?_eq_getElem (by omega)⟩
      rw [hr1] at hrow3
      have hh := HlOk_of_syntaxRow syn true _ r1 hrow3.symm
      refine ⟨old, r1, hold, ?_, ?_⟩
      · rw [hrowE, hE, setRow_getElem?_ne _ _ _ _ (by omega)]
        exact hr1
      · have hst := strip_row_getElem? _ _
          ((editorUpdateSyntaxFuel_strip _ _ _ _ hE3)) (a + 1)
        rw [hr1, hnext] at hst
        have hst' : r1.strip = ({ old with idx := old.idx + 1 } : erow).strip := by
          simpa using hst
        obtain ⟨f1, f2, f3, -⟩ := strip_fields _ r1 hst'
        unfold HlOk at hh
        rw [f1, f2, f3] at hh
        exact hh

theorem editorInsertRow_consistent_witness :
    Indexed docCloseY ∧ Consistent (HLDB.headD starSyntax) docCloseY ∧
    editorInsertRow docCloseY ((0 : Nat) : Int) (bytes "/* a") 4 = some docCloseYDone ∧
    (∃ r, docCloseYDone.row[0]? = some r ∧
      ((0 = docCloseY.numrows ∨ editorRowHasOpenComment r = seedAt docCloseY 0) →
        Consistent (HLDB.headD starSyntax) docCloseYDone) ∧
      (∃ c, 0 < c ∧
        (∀ (j : Nat) (row : erow), j ≠ c → docCloseYDone.row[j]? = some row →
          HlOk (HLDB.headD starSyntax) (seedAt docCloseYDone j) row) ∧
        (∀ row : erow, docCloseYDone.row[c]? = some row →
          seedAt docCloseYDone c = seedAt docCloseY (c - 1) →
          HlOk (HLDB.headD starSyntax) (seedAt docCloseYDone c) row)) ∧
      ((∀ row ∈ docCloseY.row, row.hl_oc = editorRowHasOpenComment row) →
        (∀ (j : Nat) (row : erow) (t : Scan), 0 ≤ j → docCloseYDone.row[j]? = some row →
          scanRowOk (HLDB.headD starSyntax) row.render row.rsize row.size
            (seedAt docCloseYDone j) = some (t, true) →
          row.hl_oc = editorRowHasOpenComment row) →
        (editorRowHasOpenComment r = true ∨ seedAt docCloseY 0 = false) →
        ∀ (j : Nat) (row : erow), j < docCloseY.numrows → docCloseYDone.row[j]? = some row →
          HlOk (HLDB.headD starSyntax) (seedAt docCloseYDone j) row) ∧
      (r.hl_oc = true → 0 + 1 < docCloseY.numrows →
        ∃ old r1, docCloseY.row[0]? = some old ∧ docCloseYDone.row[0 + 1]? = some r1 ∧
          (scanRowOk (HLDB.headD starSyntax) old.render old.rsize old.size true).map
            (fun p => p.1.hl) = some r1.hl)) ∧
    (∀ row ∈ docCloseY.row, row.hl_oc = editorRowHasOpenComment row) ∧
    (docCloseYDone.row.map fun r => (r.raw, r.hl, editorRowHasOpenComment r)) =
      [(bytes "/* a", List.replicate 4 HL_MLCOMMENT, true),
        (bytes "x */", List.replicate 4 HL_MLCOMMENT, false), (bytes "y", [HL_NORMAL], false)] ∧
    seedAt docCloseYDone 2 = seedAt docCloseY 1 ∧
    Consistent (HLDB.headD starSyntax) docCloseYDone :=
  ⟨by decide, by decide, by decide,
    editorInsertRow_consistent docCloseY docCloseYDone (HLDB.headD starSyntax) 0 (bytes "/* a")
      4 (by decide) (by decide) (by decide) (by decide) (by decide) (by decide),
    by decide, by decide, by decide, by decide⟩

/-- C19 fails as stated, with the C definition active: the document "/* a", "b"
is consistent; after `editorInsertRow(1, "*/", 2)` the new row closes the
comment, and the row "b" behind it keeps `HL_MLCOMMENT`, which is not the scan
of "b" seeded with the state of the row now in front of it. The new row was not
recorded as open before (a new row never is) and is not open now, so the test
`row->hl_oc != oc` does not send the scan on. -/
theorem editorInsertRow_consistent_fails :
    Consistent (HLDB.headD starSyntax) docOpenTail ∧
    (∀ row ∈ docOpenTail.row, row.hl_oc = editorRowHasOpenComment row) ∧
    (editorInsertRow docOpenTail 1 (bytes "*/") 2).map (fun E =>
      (decide (Consistent (HLDB.headD starSyntax) E), E.row.map erow.hl,
        E.row.map editorRowHasOpenComment)) =
      some (false, [List.replicate 4 HL_MLCOMMENT, [HL_MLCOMMENT, HL_MLCOMMENT],
        [HL_MLCOMMENT]], [true, false, true]) ∧
    (HLDB.head?.bind fun syn => scanRowOk syn (bytes "b") 1 1 false).map (fun p => p.1.hl) =
      some [HL_NORMAL] := by
  decide

end Kilo
